import Mathlib

/-! quantization_playground: block quantization (q8_0, q4_0) and top-k sparsity

A shallow embedding of `src/quantization.c` and `src/sparsity.c`.

* Machine integers are `Nat`/`Int` with explicit `% 2 ^ w` where the C type wraps.
* `float` is `F32`, the 32 bit patterns of IEEE-754 binary32, with round-to-nearest-even
  arithmetic computed on integers.
* Memory read through a caller-owned pointer is a function `Nat → F`; the trailing regions of a
  record allocated by the library are lists whose accesses are bounds-checked.
* Undefined behaviour (an out-of-bounds access of a library-owned region, `qsort` with an
  inconsistent comparator) is the result `none`.
* The serialized form of a sparse record is its memory block as a list of bytes, for an LP64
  little-endian target.
-/

namespace QPlay

/-! ## Machine integers -/

/-- Two to the 64: the modulus of `uint64_t` and `size_t`. -/
def U64 : Nat := 2 ^ 64

/-- Two to the 32: the modulus of `uint32_t`. -/
def U32 : Nat := 2 ^ 32

/-- Two to the 16: the modulus of `uint16_t`. -/
def U16 : Nat := 2 ^ 16

/-- The conversion `(uint8_t)v` of a signed integer: reduction modulo 256. -/
def toUInt8 (v : Int) : Nat := (v % 256).toNat

/-- The conversion `(int8_t)b` of a byte: the two's-complement reading. -/
def toInt8 (b : Nat) : Int := if b % 256 < 128 then ((b % 256 : Nat) : Int) else ((b % 256 : Nat) : Int) - 256

/-- The conversion to `int` of an unsigned 64-bit value (modular, as on the usual targets). -/
def toInt32 (v : Nat) : Int :=
  if v % 2 ^ 32 < 2 ^ 31 then ((v % 2 ^ 32 : Nat) : Int) else ((v % 2 ^ 32 : Nat) : Int) - 2 ^ 32

/-! ## IEEE-754 binary32 -/

/-- A `float`: sign bit, biased exponent field and fraction field. -/
structure F32 where
  sign : Bool
  exp : Fin 256
  man : Fin 8388608
deriving DecidableEq

namespace F32

/-- Build a float from raw field values (reduced to the field widths). -/
def ofFields (s : Bool) (e m : Nat) : F32 :=
  ⟨s, ⟨e % 256, Nat.mod_lt _ (by decide)⟩, ⟨m % 8388608, Nat.mod_lt _ (by decide)⟩⟩

/-- Positive zero, the all-zero bit pattern. -/
def zero : F32 := ⟨false, 0, 0⟩

/-- Infinity of the given sign. -/
def inf (s : Bool) : F32 := ⟨s, 255, 0⟩

/-- The default quiet NaN. -/
def nan : F32 := ⟨false, 255, 4194304⟩

/-- Whether the value is a NaN. -/
def isNaN (x : F32) : Bool := x.exp.val == 255 && x.man.val != 0

/-- Whether the value is an infinity. -/
def isInf (x : F32) : Bool := x.exp.val == 255 && x.man.val == 0

/-- Whether the value is finite (neither NaN nor infinite). -/
def isFinite (x : F32) : Bool := x.exp.val != 255

/-- Whether the value is a zero (of either sign). -/
def isZero (x : F32) : Bool := x.exp.val == 0 && x.man.val == 0

/-- Integer significand: the fraction, with the hidden bit for normal numbers. -/
def sig (x : F32) : Nat := if x.exp.val = 0 then x.man.val else x.man.val + 2 ^ 23

/-- Exponent of the unit in the last place above the smallest one: the finite value is
`sig x * 2 ^ (sh x) * 2 ^ (-149)`. -/
def sh (x : F32) : Nat := x.exp.val - 1

/-- Magnitude in units of `2 ^ (-149)`; an infinity reads as `2 ^ 277`. -/
def mag (x : F32) : Nat := sig x * 2 ^ sh x

/-- Signed value in units of `2 ^ (-149)` (meaningful for non-NaN values). -/
def key (x : F32) : Int := if x.sign then -(mag x : Int) else (mag x : Int)

/-- The rational value of a finite float. -/
def toRat (x : F32) : ℚ := (key x : ℚ) / 2 ^ 149

/-- The C comparison `a < b` (false when either side is NaN). -/
def lt (a b : F32) : Bool := !a.isNaN && !b.isNaN && decide (key a < key b)

/-- The C comparison `a > b`. -/
def gt (a b : F32) : Bool := lt b a

/-- The C comparison `a <= b` (false when either side is NaN). -/
def le (a b : F32) : Bool := !a.isNaN && !b.isNaN && decide (key a ≤ key b)

/-- The C comparison `a != b` (true when either side is NaN; the two zeros are equal). -/
def ne (a b : F32) : Bool := a.isNaN || b.isNaN || decide (key a ≠ key b)

/-- The function `fabsf`: clears the sign bit. -/
def fabsf (x : F32) : F32 := ⟨false, x.exp, x.man⟩

/-- Number of binary digits of `n`, by halving at most `fuel` times. -/
def bitlenAux : Nat → Nat → Nat
  | 0, _ => 0
  | fuel + 1, n => if n = 0 then 0 else bitlenAux fuel (n / 2) + 1

/-- Number of binary digits of a natural number. -/
def bitlen (n : Nat) : Nat := bitlenAux n n

/-- Nearest integer to `num / den`, ties to even. -/
def roundNE (num den : Nat) : Nat :=
  let q := num / den
  let r := num % den
  if 2 * r < den then q else if den < 2 * r then q + 1 else if q % 2 = 0 then q else q + 1

/-- Encode the magnitude `m * 2 ^ s * 2 ^ (-149)` where `m ≤ 2 ^ 24`, and `m < 2 ^ 23` only when
`s = 0`; magnitudes from `2 ^ 128` on become infinity. -/
def pack (sgn : Bool) (m s : Nat) : F32 :=
  if m < 2 ^ 23 then ofFields sgn 0 m
  else if m < 2 ^ 24 then (if s + 1 < 255 then ofFields sgn (s + 1) (m - 2 ^ 23) else inf sgn)
  else (if s + 2 < 255 then ofFields sgn (s + 2) 0 else inf sgn)

/-- Round the magnitude `num / den * 2 ^ e` to the nearest binary32 value, ties to even, with
gradual underflow and overflow to infinity. -/
def round (sgn : Bool) (num den : Nat) (e : Int) : F32 :=
  let a := if 0 ≤ e + 149 then num * 2 ^ (e + 149).toNat else num
  let b := if 0 ≤ e + 149 then den else den * 2 ^ (-(e + 149)).toNat
  let s := bitlen (a / b) - 24
  pack sgn (roundNE a (b * 2 ^ s)) s

/-- Exponent `e` with finite value `sig x * 2 ^ e`. -/
def ex (x : F32) : Int := (sh x : Int) - 149

/-- The product `a * b` in binary32. -/
def mul (a b : F32) : F32 :=
  if a.isNaN || b.isNaN then nan
  else if a.isInf || b.isInf then
    (if mag a = 0 ∨ mag b = 0 then nan else inf (xor a.sign b.sign))
  else round (xor a.sign b.sign) (sig a * sig b) 1 (ex a + ex b)

/-- The quotient `a / b` in binary32. -/
def div (a b : F32) : F32 :=
  if a.isNaN || b.isNaN then nan
  else if a.isInf then (if b.isInf then nan else inf (xor a.sign b.sign))
  else if b.isInf then ofFields (xor a.sign b.sign) 0 0
  else if mag b = 0 then (if mag a = 0 then nan else inf (xor a.sign b.sign))
  else round (xor a.sign b.sign) (sig a) (sig b) (ex a - ex b)

/-- The conversion `(float)n` of an integer. -/
def ofInt (n : Int) : F32 := round (decide (n < 0)) n.natAbs 1 0

/-- The function `lrintf` on a 64-bit `long`: nearest integer, ties to even (the default rounding
mode). For NaN, infinities and values outside the range of `long` the C result is unspecified; the
model returns `LONG_MIN`, which is what x86-64 produces. -/
def lrintf (x : F32) : Int :=
  if x.isFinite && decide (roundNE (mag x) (2 ^ 149) < 2 ^ 63) then
    (if x.sign then -(roundNE (mag x) (2 ^ 149) : Int) else (roundNE (mag x) (2 ^ 149) : Int))
  else -(2 ^ 63)

/-- Integer value of `roundf x` for finite `x`: nearest integer, halves away from zero. -/
def roundfInt (x : F32) : Int :=
  if x.sign then -(((2 * mag x + 2 ^ 149) / 2 ^ 150 : Nat) : Int)
  else (((2 * mag x + 2 ^ 149) / 2 ^ 150 : Nat) : Int)

/-- The conversion `(uint16_t)roundf(x)`. The conversion is undefined in C for NaN and for values
outside the range of the type; the model gives 0 for NaN and reduces modulo `2 ^ 16` otherwise. -/
def roundfToUInt16 (x : F32) : Nat :=
  if x.isNaN then 0 else (roundfInt x % 65536).toNat

end F32

/-! ## Arithmetic interface

The quantization codec is written once over the float operations it uses, so that it can be read
with binary32 arithmetic (the program) and with exact rational arithmetic (the idealisation in
which the error bound is stated). -/

/-- The float operations used by `quantization.c`. -/
structure FloatOps (F : Type) where
  zero : F
  ofInt : Int → F
  fabsf : F → F
  gt : F → F → Bool
  div : F → F → F
  mul : F → F → F
  lrintf : F → Int

/-- Binary32 arithmetic: the program as compiled. -/
def f32Ops : FloatOps F32 :=
  ⟨F32.zero, F32.ofInt, F32.fabsf, F32.gt, F32.div, F32.mul, F32.lrintf⟩

/-- Nearest integer to a rational, ties to even. -/
def rintQ (q : ℚ) : Int :=
  if q - ⌊q⌋ < 1 / 2 then ⌊q⌋ else if 1 / 2 < q - ⌊q⌋ then ⌊q⌋ + 1
  else if ⌊q⌋ % 2 = 0 then ⌊q⌋ else ⌊q⌋ + 1

/-- Exact arithmetic on rationals: no rounding of products and quotients. -/
def exactOps : FloatOps ℚ :=
  ⟨0, fun n => (n : ℚ), fun x => |x|, fun a b => decide (b < a), fun a b => a / b,
    fun a b => a * b, rintQ⟩

/-! ## Loops -/

/-- The loop `for (i = 0; i < n; ++i) s = body i s`. -/
def forLoop {σ : Type} (n : Nat) (body : Nat → σ → σ) (s : σ) : σ :=
  match n with
  | 0 => s
  | k + 1 => body k (forLoop k body s)

/-- The loop `for (i = 0; i < n; ++i)` whose body may have undefined behaviour. -/
def forLoopM {σ : Type} (n : Nat) (body : Nat → σ → Option σ) (s : σ) : Option σ :=
  match n with
  | 0 => some s
  | k + 1 => (forLoopM k body s).bind (body k)

/-- The assignment `p[i] = v` through a caller-owned pointer. -/
def store {F : Type} (p : Nat → F) (i : Nat) (v : F) : Nat → F :=
  fun j => if j = i then v else p j

/-- The assignment `region[i] = v` into a library-owned region: undefined outside the region. -/
def setAt {α : Type} (region : List α) (i : Int) (v : α) : Option (List α) :=
  if 0 ≤ i ∧ i.toNat < region.length then some (region.set i.toNat v) else none

/-- The read `region[i]` of a library-owned region: undefined outside the region. -/
def getAt {α : Type} (region : List α) (i : Int) : Option α :=
  if 0 ≤ i then region[i.toNat]? else none

/-! ## quantization.c -/

/-- The macro `DEFAULT_Q8_0_BLOCK_SIZE`. -/
def DEFAULT_Q8_0_BLOCK_SIZE : Nat := 32

/-- The macro `DEFAULT_Q4_0_BLOCK_SIZE`. -/
def DEFAULT_Q4_0_BLOCK_SIZE : Nat := 32

/-- The record `quantized_array_t`: the header fields and the two trailing regions the pointers
`scales` and `data` address. `data` holds raw bytes; the `int8_t` at a position is `toInt8` of
the byte. -/
structure quantized_array_t (F : Type) where
  quantized_type : Nat
  num_elements : Nat
  num_blocks : Nat
  block_size : Nat
  scales : List F
  data : List Nat
deriving DecidableEq

/-- The value `sizeof(quantized_array_t)` on an LP64 target: the tag byte, 7 bytes of padding,
three `uint64_t` at offsets 8, 16, 24 and two 8-byte pointers at offsets 32 and 40. -/
def sizeof_quantized_array_t : Nat := 48

/-- The function `allocate_q8_0_array`. The inner `none` is the `NULL` return; the outer `none` is
undefined behaviour. The byte count `total` is formed in `size_t` and wraps; `calloc(1, total)` is
taken to succeed and gives a zero-filled block of `total` bytes. When the block is smaller than
the header plus the `num_blocks` floats of the scales region, the stores to the header fields or
the pointer `qa->scales + num_blocks` leave the block. Otherwise the scales region is `num_blocks`
zero floats and the code region is the rest of the block. -/
def allocate_q8_0_array {F : Type} (ops : FloatOps F) (num_elements block_size : Nat) :
    Option (Option (quantized_array_t F)) :=
  if num_elements = 0 ∨ block_size = 0 then some none
  else
    let num_blocks := (num_elements + block_size - 1) % U64 / block_size
    let total := (sizeof_quantized_array_t + num_blocks * 4 + num_elements * 1) % U64
    if total < sizeof_quantized_array_t + num_blocks * 4 then none
    else
      some (some ⟨0, num_elements, num_blocks, block_size,
        List.replicate num_blocks ops.zero,
        List.replicate (total - sizeof_quantized_array_t - num_blocks * 4) 0⟩)

/-- The function `allocate_q4_0_array`, read as `allocate_q8_0_array`; the code region is sized
for `(num_elements + 1) / 2` bytes. -/
def allocate_q4_0_array {F : Type} (ops : FloatOps F) (num_elements block_size : Nat) :
    Option (Option (quantized_array_t F)) :=
  if num_elements = 0 ∨ block_size = 0 then some none
  else
    let num_blocks := (num_elements + block_size - 1) % U64 / block_size
    let num_elements_for_data := (num_elements + 1) % U64 / 2
    let total := (sizeof_quantized_array_t + num_blocks * 4 + num_elements_for_data * 1) % U64
    if total < sizeof_quantized_array_t + num_blocks * 4 then none
    else
      some (some ⟨1, num_elements, num_blocks, block_size,
        List.replicate num_blocks ops.zero,
        List.replicate (total - sizeof_quantized_array_t - num_blocks * 4) 0⟩)

/-- First element index `start = b * block_size` of block `b` (in `uint64_t`). -/
def block_start (b block_size : Nat) : Nat := b * block_size % U64

/-- Number of elements `remain` of the block that begins at `start`. -/
def block_remain (start block_size num_elements : Nat) : Nat :=
  if (start + block_size) % U64 ≤ num_elements then block_size
  else (num_elements + U64 - start) % U64

/-- Step 1 of a block: the maximum of `fabsf` over its elements. -/
def block_abs_max {F : Type} (ops : FloatOps F) (float_array : Nat → F) (start remain : Nat) : F :=
  forLoop remain (fun i abs_max =>
    let v := ops.fabsf (float_array ((start + i) % U64))
    if ops.gt v abs_max then v else abs_max) ops.zero

/-- Step 2 of a block: `scale = abs_max > 0 ? abs_max / qmax : 0`. -/
def block_scale {F : Type} (ops : FloatOps F) (qmax : Int) (abs_max : F) : F :=
  if ops.gt abs_max ops.zero then ops.div abs_max (ops.ofInt qmax) else ops.zero

/-- Step 2 of a block: `inv_scale = scale > 0 ? 1 / scale : 0`. -/
def block_inv_scale {F : Type} (ops : FloatOps F) (scale : F) : F :=
  if ops.gt scale ops.zero then ops.div (ops.ofInt 1) scale else ops.zero

/-- Step 3 for one element: `qi = lrintf(x * inv_scale)` clamped by the two `if`s. -/
def quant_code {F : Type} (ops : FloatOps F) (qmax : Int) (x inv_scale : F) : Int :=
  let qi := ops.lrintf (ops.mul x inv_scale)
  let qi := if qi < -qmax then -qmax else qi
  if qi > qmax then qmax else qi

/-- Body of the block loop of `_quantize_q8_0`. -/
def quantize_q8_0_block {F : Type} (ops : FloatOps F) (float_array : Nat → F) (b : Nat)
    (qa : quantized_array_t F) : Option (quantized_array_t F) :=
  let start := block_start b qa.block_size
  let remain := block_remain start qa.block_size qa.num_elements
  let abs_max := block_abs_max ops float_array start remain
  let scale := block_scale ops 127 abs_max
  let inv_scale := block_inv_scale ops scale
  (setAt qa.scales b scale).bind fun scales =>
    forLoopM remain (fun i qa =>
      let qi := quant_code ops 127 (float_array ((start + i) % U64)) inv_scale
      (setAt qa.data (((start + i) % U64 : Nat) : Int) (toUInt8 qi)).map
        fun data => { qa with data := data }) { qa with scales := scales }

/-- The function `_quantize_q8_0` on present arguments. -/
def quantize_q8_0 {F : Type} (ops : FloatOps F) (float_array : Nat → F)
    (qa : quantized_array_t F) : Option (quantized_array_t F) :=
  forLoopM qa.num_blocks (quantize_q8_0_block ops float_array) qa

/-- Index `int data_index = (start + i) / 2` of the packed byte. -/
def q4_data_index (start i : Nat) : Int := toInt32 ((start + i) % U64 / 2)

/-- Body of the block loop of `_quantize_q4_0`. -/
def quantize_q4_0_block {F : Type} (ops : FloatOps F) (float_array : Nat → F) (b : Nat)
    (qa : quantized_array_t F) : Option (quantized_array_t F) :=
  let start := block_start b qa.block_size
  let remain := block_remain start qa.block_size qa.num_elements
  let abs_max := block_abs_max ops float_array start remain
  let scale := block_scale ops 7 abs_max
  let inv_scale := block_inv_scale ops scale
  (setAt qa.scales b scale).bind fun scales =>
    forLoopM remain (fun i qa =>
      let qi := quant_code ops 7 (float_array ((start + i) % U64)) inv_scale
      let four_bit_qi := toUInt8 qi &&& 0x0F
      let data_index := q4_data_index start i
      if i % 2 = 0 then
        (setAt qa.data data_index ((four_bit_qi <<< 4) % 256)).map
          fun data => { qa with data := data }
      else
        (getAt qa.data data_index).bind fun old =>
          (setAt qa.data data_index ((old ||| four_bit_qi) % 256)).map
            fun data => { qa with data := data }) { qa with scales := scales }

/-- The function `_quantize_q4_0` on present arguments. -/
def quantize_q4_0 {F : Type} (ops : FloatOps F) (float_array : Nat → F)
    (qa : quantized_array_t F) : Option (quantized_array_t F) :=
  forLoopM qa.num_blocks (quantize_q4_0_block ops float_array) qa

/-- The function `quantize`. An absent `float_array` is `none`; `slot` is the content of
`*quantized_array`. The result is the return value and the new content of the slot; the outer
`none` is undefined behaviour. -/
def quantize {F : Type} (ops : FloatOps F) (float_array : Option (Nat → F)) (num_elements : Nat)
    (quantized_type : Nat) (slot : Option (quantized_array_t F)) :
    Option (Nat × Option (quantized_array_t F)) :=
  match float_array, slot with
  | some x, none =>
    if num_elements = 0 then some (1, slot)
    else if quantized_type = 0 then
      match allocate_q8_0_array ops num_elements DEFAULT_Q8_0_BLOCK_SIZE with
      | none => none
      | some none => some (1, none)
      | some (some qa) => (quantize_q8_0 ops x qa).map fun qa => (0, some qa)
    else if quantized_type = 1 then
      match allocate_q4_0_array ops num_elements DEFAULT_Q4_0_BLOCK_SIZE with
      | none => none
      | some none => some (1, none)
      | some (some qa) => (quantize_q4_0 ops x qa).map fun qa => (0, some qa)
    else some (1, slot)
  | _, _ => some (1, slot)

/-- Body of the block loop of `_dequantize_q8_0`; the state is the output buffer. -/
def dequantize_q8_0_block {F : Type} (ops : FloatOps F) (qa : quantized_array_t F) (b : Nat)
    (float_array : Nat → F) : Option (Nat → F) :=
  let start := block_start b qa.block_size
  let remain := block_remain start qa.block_size qa.num_elements
  (getAt qa.scales b).bind fun scale =>
    forLoopM remain (fun i out =>
      (getAt qa.data (((start + i) % U64 : Nat) : Int)).map fun byte =>
        store out ((start + i) % U64) (ops.mul scale (ops.ofInt (toInt8 byte)))) float_array

/-- The function `_dequantize_q8_0`. -/
def dequantize_q8_0 {F : Type} (ops : FloatOps F) (qa : quantized_array_t F)
    (float_array : Nat → F) : Option (Nat → F) :=
  forLoopM qa.num_blocks (dequantize_q8_0_block ops qa) float_array

/-- Sign extension `(int8_t)(qi << 4) >> 4` of a nibble. -/
def sign_extend4 (qi : Nat) : Int := toInt8 ((qi <<< 4) % 256) / 16

/-- Body of the block loop of `_dequantize_q4_0`. -/
def dequantize_q4_0_block {F : Type} (ops : FloatOps F) (qa : quantized_array_t F) (b : Nat)
    (float_array : Nat → F) : Option (Nat → F) :=
  let start := block_start b qa.block_size
  let remain := block_remain start qa.block_size qa.num_elements
  (getAt qa.scales b).bind fun scale =>
    forLoopM remain (fun i out =>
      (getAt qa.data (q4_data_index start i)).map fun packed_qi =>
        let qi := if i % 2 = 0 then packed_qi >>> 4 else packed_qi &&& 0x0F
        store out ((start + i) % U64) (ops.mul scale (ops.ofInt (sign_extend4 qi)))) float_array

/-- The function `_dequantize_q4_0`. -/
def dequantize_q4_0 {F : Type} (ops : FloatOps F) (qa : quantized_array_t F)
    (float_array : Nat → F) : Option (Nat → F) :=
  forLoopM qa.num_blocks (dequantize_q4_0_block ops qa) float_array

/-- The function `dequantize`. Absent arguments are `none`; the result is the return value and
the output buffer; the outer `none` is undefined behaviour. -/
def dequantize {F : Type} (ops : FloatOps F) (quantized_array : Option (quantized_array_t F))
    (float_array : Option (Nat → F)) : Option (Nat × Option (Nat → F)) :=
  match quantized_array, float_array with
  | some qa, some out =>
    if qa.quantized_type = 0 then (dequantize_q8_0 ops qa out).map fun out => (0, some out)
    else if qa.quantized_type = 1 then (dequantize_q4_0 ops qa out).map fun out => (0, some out)
    else some (1, float_array)
  | _, _ => some (1, float_array)

/-! ## sparsity.c -/

/-- The record `sparse_array_t`: the header fields and the two trailing regions the pointers
`sparse_indices` and `values` address. -/
structure sparse_array_t where
  num_tokens : Nat
  num_features : Nat
  num_sparse_features : Nat
  sparse_indices : List Nat
  values : List F32
deriving DecidableEq

/-- The function `allocate_sparse_array`; `none` is the `NULL` return. The `calloc` is taken to
succeed and gives zero-filled regions of `sparse_elements` entries each. -/
def allocate_sparse_array (num_tokens num_features : Nat) (sparse_ratio : F32) :
    Option sparse_array_t :=
  if num_tokens = 0 ∨ num_features = 0 then none
  else if F32.lt sparse_ratio F32.zero || F32.gt sparse_ratio (F32.ofInt 1) then none
  else
    let raw_sparse := F32.mul (F32.ofInt num_features) sparse_ratio
    let num_sparse_features := F32.roundfToUInt16 raw_sparse
    let num_sparse_features :=
      if num_sparse_features > num_features then num_features
      else if num_sparse_features = 0 ∧ F32.gt sparse_ratio F32.zero then 1
      else num_sparse_features
    let sparse_elements := num_tokens * num_sparse_features % U32
    some ⟨num_tokens, num_features, num_sparse_features,
      List.replicate sparse_elements 0, List.replicate sparse_elements F32.zero⟩

/-- The struct `sort_entry_t`. -/
structure sort_entry_t where
  index : Nat
  abs_val : F32
deriving DecidableEq

/-- The comparator `abs_sort_cmp`. -/
def abs_sort_cmp (a b : sort_entry_t) : Int :=
  if F32.ne a.abs_val b.abs_val then (if F32.gt a.abs_val b.abs_val then -1 else 1)
  else (a.index : Int) - (b.index : Int)

/-- The requirement of the C standard on a `qsort` comparator: its answers on the elements of the
array are consistent with one another and define a total ordering. -/
def cmp_consistent {α : Type} (cmp : α → α → Int) (l : List α) : Prop :=
  l.Pairwise (fun a b => Int.sign (cmp a b) = -Int.sign (cmp b a)) ∧
  ∀ a ∈ l, ∀ b ∈ l, ∀ c ∈ l, cmp a b ≤ 0 → cmp b c ≤ 0 → cmp a c ≤ 0

instance cmp_consistent_decidable {α : Type} (cmp : α → α → Int) (l : List α) :
    Decidable (cmp_consistent cmp l) := by
  unfold cmp_consistent
  infer_instance

/-- Modelled from the spec: the library function `qsort` (not in the repository). With a
consistent comparator it returns the elements in ascending comparator order, computed here by
insertion; with an inconsistent one its behaviour is undefined. -/
def qsort {α : Type} (cmp : α → α → Int) (l : List α) : Option (List α) :=
  if cmp_consistent cmp l then some (l.insertionSort (fun a b => cmp a b ≤ 0)) else none

/-- The array `entries` of a row after the fill loop: entry `i` is `(i, fabsf(x[dense_base + i]))`. -/
def row_entries (float_array : Nat → F32) (num_features dense_base : Nat) : List sort_entry_t :=
  (List.range num_features).map fun i => ⟨i, F32.fabsf (float_array ((dense_base + i) % U32))⟩

/-- Body of the keep loop of `compress`: stores entry `keep_feature_index` of the sorted row. -/
def compress_keep (float_array : Nat → F32) (entries : List sort_entry_t)
    (dense_base sparse_base : Nat) (keep_feature_index : Nat) (sa : sparse_array_t) :
    Option sparse_array_t :=
  (getAt entries (keep_feature_index : Int)).bind fun entry =>
    let orig_index := entry.index
    (setAt sa.sparse_indices (((sparse_base + keep_feature_index) % U32 : Nat) : Int)
        orig_index).bind fun sparse_indices =>
      (setAt sa.values (((sparse_base + keep_feature_index) % U32 : Nat) : Int)
          (float_array ((dense_base + orig_index) % U32))).map fun values =>
        { sa with sparse_indices := sparse_indices, values := values }

/-- Body of the token loop of `compress`. -/
def compress_row (float_array : Nat → F32) (num_features : Nat) (cur_token_index : Nat)
    (sa : sparse_array_t) : Option sparse_array_t :=
  let dense_base := cur_token_index * num_features % U32
  let sparse_base := cur_token_index * sa.num_sparse_features % U32
  (qsort abs_sort_cmp (row_entries float_array num_features dense_base)).bind fun entries =>
    forLoopM sa.num_sparse_features
      (compress_keep float_array entries dense_base sparse_base) sa

/-- The function `compress`. An absent `float_array` is `none`; `slot` is the content of
`*sparse_array`. The result is the return value and the new content of the slot; the outer `none`
is undefined behaviour. -/
def compress (float_array : Option (Nat → F32)) (num_tokens num_features : Nat)
    (sparse_ratio : F32) (slot : Option sparse_array_t) : Option (Nat × Option sparse_array_t) :=
  match float_array, slot with
  | some x, none =>
    if num_tokens = 0 ∨ num_features = 0 then some (1, slot)
    else
      match allocate_sparse_array num_tokens num_features sparse_ratio with
      | none => some (1, none)
      | some sa => (forLoopM num_tokens (compress_row x num_features) sa).map
          fun sa => (0, some sa)
  | _, _ => some (1, slot)

/-- Body of the scatter loop of `decompress`: writes retained entry `keep_feature_index` of the
token into the output buffer. -/
def decompress_scatter (sa : sparse_array_t) (dense_base sparse_base : Nat)
    (keep_feature_index : Nat) (float_array : Nat → F32) : Option (Nat → F32) :=
  (getAt sa.sparse_indices (((sparse_base + keep_feature_index) % U32 : Nat) : Int)).bind
    fun original_feature_index =>
      (getAt sa.values (((sparse_base + keep_feature_index) % U32 : Nat) : Int)).map
        fun v => store float_array ((dense_base + original_feature_index) % U32) v

/-- Body of the token loop of `decompress`; the state is the output buffer. -/
def decompress_row (sa : sparse_array_t) (cur_token_index : Nat) (float_array : Nat → F32) :
    Option (Nat → F32) :=
  let dense_base := cur_token_index * sa.num_features % U32
  let sparse_base := cur_token_index * sa.num_sparse_features % U32
  forLoopM sa.num_sparse_features (decompress_scatter sa dense_base sparse_base) float_array

/-- The function `decompress`. Absent arguments are `none`; the result is the return value and
the output buffer; the outer `none` is undefined behaviour. -/
def decompress (sparse_array : Option sparse_array_t) (float_array : Option (Nat → F32)) :
    Option (Nat × Option (Nat → F32)) :=
  match sparse_array, float_array with
  | some sa, some out =>
    let num_elements := sa.num_tokens * sa.num_features % U32
    let zeroed : Nat → F32 := fun j => if j < num_elements then F32.zero else out j
    (forLoopM sa.num_tokens (decompress_row sa) zeroed).map fun out => (0, some out)
  | _, _ => some (1, float_array)

/-! ## Derived quantities used in the statements -/

/-- Scale the encoder stores for block `b`. -/
def blk_scale {F : Type} (ops : FloatOps F) (qmax : Int) (x : Nat → F) (bs n b : Nat) : F :=
  block_scale ops qmax
    (block_abs_max ops x (block_start b bs) (block_remain (block_start b bs) bs n))

/-- Clamped code the encoder computes for element `e`. -/
def elem_code {F : Type} (ops : FloatOps F) (qmax : Int) (x : Nat → F) (bs n e : Nat) : Int :=
  quant_code ops qmax (x e) (block_inv_scale ops (blk_scale ops qmax x bs n (e / bs)))

/-- Header and region sizes of a record laid out for `n` elements in blocks of `bs`. -/
structure Shaped {F : Type} (q : quantized_array_t F) (ty n bs dlen : Nat) : Prop where
  ty_eq : q.quantized_type = ty
  n_eq : q.num_elements = n
  nb_eq : q.num_blocks = (n + bs - 1) / bs
  bs_eq : q.block_size = bs
  scales_len : q.scales.length = (n + bs - 1) / bs
  data_len : q.data.length = dlen

/-- Byte `j` of the packed code region once the elements below `E` have been written, where
`g e` is the nibble of element `e`. -/
def packed_byte (g : Nat → Nat) (E j : Nat) : Nat :=
  (if 2 * j < E then g (2 * j) else 0) * 16 + (if 2 * j + 1 < E then g (2 * j + 1) else 0)

/-- The update of the packed region made for element `i` of a block of `_quantize_q4_0`. -/
def q4_store (g : Nat → Nat) (start i : Nat) (d : List Nat) : Option (List Nat) :=
  if i % 2 = 0 then setAt d (q4_data_index start i) ((g ((start + i) % U64) <<< 4) % 256)
  else (getAt d (q4_data_index start i)).bind fun old =>
    setAt d (q4_data_index start i) ((old ||| g ((start + i) % U64)) % 256)

/-- Nibble the q4_0 encoder computes for element `e`. -/
def elem_nibble {F : Type} (ops : FloatOps F) (x : Nat → F) (bs n e : Nat) : Nat :=
  toUInt8 (elem_code ops 7 x bs n e) &&& 0x0F

/-- Largest code of a format: 127 for q8_0 (type 0), 7 for q4_0. -/
def code_max (quantized_type : Nat) : Int := if quantized_type = 0 then 127 else 7

/-- Output buffer of `dequantize` called on a zero-filled buffer (the buffer itself when the call
fails). -/
def decoded {F : Type} (ops : FloatOps F) (q : quantized_array_t F) : Nat → F :=
  match dequantize ops (some q) (some (fun _ => ops.zero)) with
  | some (_, some out) => out
  | _ => fun _ => ops.zero

/-- Nearest integer to a rational, halves away from zero. -/
def round_half_away (q : ℚ) : Int := if 0 ≤ q then ⌊q + 1 / 2⌋ else -⌊-q + 1 / 2⌋

/-- The value `v` clamped to `[lo, hi]`. -/
def clamp_int (v lo hi : Int) : Int := max lo (min hi v)

/-- Clamp to the code range `[-qmax, qmax]`. -/
def clamp_code (qmax c : Int) : Int := max (-qmax) (min qmax c)

/-- The signed code the decoder reads for element `e`: the `int8_t` at `e` for q8_0, the
sign-extended nibble of byte `e / 2` (high for even `e`, low for odd `e`) for q4_0. -/
def stored_code {F : Type} (q : quantized_array_t F) (e : Nat) : Int :=
  if q.quantized_type = 0 then toInt8 (q.data.getD e 0)
  else sign_extend4
    (if e % 2 = 0 then q.data.getD (e / 2) 0 >>> 4 else q.data.getD (e / 2) 0 &&& 0x0F)

/-- The positions of row `t` in the order `qsort` leaves them: the `index` fields of the sorted
entries. -/
def row_order (float_array : Nat → F32) (num_features t : Nat) : List Nat :=
  ((row_entries float_array num_features (t * num_features % U32)).insertionSort
    (fun a b => abs_sort_cmp a b ≤ 0)).map fun entry => entry.index

/-- Position `a` comes before position `b` in the row that starts at `base`: larger magnitude
first, ascending index on equal magnitudes (with the C comparisons `>` and `==` on `fabsf`). -/
def spec_before (float_array : Nat → F32) (base a b : Nat) : Prop :=
  F32.gt (F32.fabsf (float_array (base + a))) (F32.fabsf (float_array (base + b))) = true ∨
    (F32.ne (F32.fabsf (float_array (base + a))) (F32.fabsf (float_array (base + b))) = false
      ∧ a < b)

instance spec_before_decidable (float_array : Nat → F32) (base a b : Nat) :
    Decidable (spec_before float_array base a b) := by
  unfold spec_before
  infer_instance

/-- The scatter loop of `decompress` followed on the single cell `(t, f)`: the value of the last
retained entry of token `t` whose index is `f`, `+0.0` when there is none. -/
def row_lookup (sa : sparse_array_t) (t f : Nat) : F32 :=
  forLoop sa.num_sparse_features (fun j acc =>
    if sa.sparse_indices.getD (t * sa.num_sparse_features + j) 0 = f
    then sa.values.getD (t * sa.num_sparse_features + j) F32.zero else acc) F32.zero

/-- Output buffer of `decompress` called on a zero-filled buffer (the buffer itself when the
call fails). -/
def decompressed (sa : sparse_array_t) : Nat → F32 :=
  match decompress (some sa) (some (fun _ => F32.zero)) with
  | some (_, some out) => out
  | _ => fun _ => F32.zero

/-! ## Example inputs -/

/-- The array `[127.0, 0.5, 2.5, -0.5]`. -/
def ties_input : Nat → F32 := fun i =>
  [(⟨false, 133, 8257536⟩ : F32), ⟨false, 126, 0⟩, ⟨false, 128, 2097152⟩, ⟨true, 126, 0⟩].getD i
    F32.zero

/-- The q8_0 record of `ties_input`: one block of scale 1.0 and the codes 127, 0, 2, 0. -/
def ties_encoded : quantized_array_t F32 := ⟨0, 4, 1, 32, [⟨false, 127, 0⟩], [127, 0, 2, 0]⟩

/-- The array `[3.0, 1.5, -3.0]`. -/
def q4_input : Nat → F32 := fun i =>
  [(⟨false, 128, 4194304⟩ : F32), ⟨false, 127, 4194304⟩, ⟨true, 128, 4194304⟩].getD i F32.zero

/-- The q4_0 record of `q4_input`: one block whose scale is the float nearest to 3/7, the codes
7, 4 and -7 packed into the bytes `0x74` and `0x90`. -/
def q4_encoded : quantized_array_t F32 :=
  ⟨1, 3, 1, 32, [⟨false, 125, 5991863⟩], [0x74, 0x90]⟩

/-- The array `[-0.0, +0.0]`. -/
def zero_input : Nat → F32 := fun i => [(⟨true, 0, 0⟩ : F32), ⟨false, 0, 0⟩].getD i F32.zero

/-- The q8_0 record of `zero_input`: scale `+0.0`, codes 0. -/
def zero_encoded : quantized_array_t F32 := ⟨0, 2, 1, 32, [F32.zero], [0, 0]⟩

/-! ## The record as bytes: `get_sparse_array_size`, `load_sparse_array_from_buffer` -/

/-- The bit pattern of a float as a 32-bit word. -/
def F32.toBits (x : F32) : Nat :=
  (if x.sign then 2147483648 else 0) + x.exp.val * 8388608 + x.man.val

/-- The float with the given 32-bit pattern. -/
def F32.ofBits (w : Nat) : F32 :=
  ⟨decide (w / 2147483648 % 2 = 1), ⟨w / 8388608 % 256, Nat.mod_lt _ (by decide)⟩,
    ⟨w % 8388608, Nat.mod_lt _ (by decide)⟩⟩

/-- The value `sizeof(sparse_array_t)` on an LP64 target: three `uint16_t` at offsets 0, 2, 4,
two bytes of padding, and two 8-byte pointers at offsets 8 and 16. -/
def sizeof_sparse_array_t : Nat := 24

/-- The function `get_sparse_array_size`; `none` is the `NULL` argument. -/
def get_sparse_array_size (sparse_array : Option sparse_array_t) : Nat :=
  match sparse_array with
  | none => 0
  | some sa =>
    let sparse_elements := sa.num_tokens * sa.num_sparse_features % U32
    (sizeof_sparse_array_t + sparse_elements * (4 + 2)) % U64

/-- The bytes of a `uint16_t` array in memory (little-endian). -/
def u16s_bytes : List Nat → List Nat
  | [] => []
  | v :: l => v % 256 :: v / 256 % 256 :: u16s_bytes l

/-- The bytes of a `float` array in memory (little-endian). -/
def f32s_bytes : List F32 → List Nat
  | [] => []
  | v :: l => v.toBits % 256 :: v.toBits / 256 % 256 :: v.toBits / 65536 % 256 ::
      v.toBits / 16777216 % 256 :: f32s_bytes l

/-- The bytes of a pointer in memory (little-endian, 8 bytes). -/
def ptr_bytes (p : Nat) : List Nat :=
  [p % 256, p / 256 % 256, p / 65536 % 256, p / 16777216 % 256, p / 4294967296 % 256,
    p / 1099511627776 % 256, p / 281474976710656 % 256, p / 72057594037927936 % 256]

/-- The memory block of a record allocated at address `addr`: the header (with the zero padding
that `calloc` left and the two pointers into the block), then the `sparse_indices` region, then
the `values` region. -/
def record_bytes (sa : sparse_array_t) (addr : Nat) : List Nat :=
  u16s_bytes [sa.num_tokens, sa.num_features, sa.num_sparse_features] ++ [0, 0] ++
    ptr_bytes (addr + sizeof_sparse_array_t) ++
    ptr_bytes (addr + sizeof_sparse_array_t +
      2 * (sa.num_tokens * sa.num_sparse_features % U32)) ++
    u16s_bytes sa.sparse_indices ++ f32s_bytes sa.values

/-- Reads up to `n` consecutive `uint16_t` from the bytes; stops where the bytes end. -/
def read_u16s : Nat → List Nat → List Nat
  | n + 1, b0 :: b1 :: rest => (b0 + 256 * b1) :: read_u16s n rest
  | _, _ => []

/-- Reads up to `n` consecutive `float` from the bytes; stops where the bytes end. -/
def read_f32s : Nat → List Nat → List F32
  | n + 1, b0 :: b1 :: b2 :: b3 :: rest =>
    F32.ofBits (b0 + 256 * b1 + 65536 * b2 + 16777216 * b3) :: read_f32s n rest
  | _, _ => []

/-- The function `load_sparse_array_from_buffer`. The `calloc` is taken to succeed. The new block
is the first `buffer_size` bytes of `buffer`; the header fields are read from it, the pointer
`sparse_indices` is set just after the header and `values` after `sparse_elements` indices, so
the two regions of the returned record are what the block holds there. `none` is undefined
behaviour: `memcpy` reading past the end of `buffer`, or a block too small to hold the header. -/
def load_sparse_array_from_buffer (buffer : List Nat) (buffer_size : Nat) :
    Option sparse_array_t :=
  if buffer.length < buffer_size then none
  else if buffer_size < sizeof_sparse_array_t then none
  else
    let block := buffer.take buffer_size
    let num_tokens := block.getD 0 0 + 256 * block.getD 1 0
    let num_features := block.getD 2 0 + 256 * block.getD 3 0
    let num_sparse_features := block.getD 4 0 + 256 * block.getD 5 0
    let sparse_elements := num_tokens * num_sparse_features % U32
    some ⟨num_tokens, num_features, num_sparse_features,
      read_u16s sparse_elements (block.drop sizeof_sparse_array_t),
      read_f32s sparse_elements (block.drop (sizeof_sparse_array_t + 2 * sparse_elements))⟩

/-- The row `[5, -1, 3, 0, -9, 2, 4, -8]`. -/
def scenario_b_input : Nat → F32 := fun i =>
  F32.ofInt (([5, -1, 3, 0, -9, 2, 4, -8] : List Int).getD i 0)

/-- The sparse record of `scenario_b_input` for one token of 8 features and ratio 0.25: the
entries (4, -9) and (7, -8). -/
def scenario_b_sparse : sparse_array_t :=
  ⟨1, 8, 2, [4, 7], [F32.ofInt (-9), F32.ofInt (-8)]⟩

/-! ## Serialized size of a quantized record -/

/-- The function `_get_q8_0_quantized_array_size` (in `size_t` arithmetic); `none` is the `NULL`
argument. -/
def get_q8_0_quantized_array_size {F : Type} (quantized_array : Option (quantized_array_t F)) :
    Nat :=
  match quantized_array with
  | none => 0
  | some qa => (1 + 3 * 8 + qa.num_blocks * 4 + qa.num_elements * 1) % U64

/-- The function `_get_q4_0_quantized_array_size` (in `size_t` arithmetic). -/
def get_q4_0_quantized_array_size {F : Type} (quantized_array : Option (quantized_array_t F)) :
    Nat :=
  match quantized_array with
  | none => 0
  | some qa =>
    let num_elements_for_data := (qa.num_elements + 1) % U64 / 2
    (sizeof_quantized_array_t + qa.num_blocks * 4 + num_elements_for_data * 1) % U64

/-- The function `get_quantized_array_size`, with the return type `size_t` of its definition (the
header declares `int64_t`; the two agree on values below `2 ^ 63`). -/
def get_quantized_array_size {F : Type} (quantized_array : Option (quantized_array_t F)) : Nat :=
  match quantized_array with
  | none => 0
  | some qa =>
    if qa.quantized_type = 0 then get_q8_0_quantized_array_size (some qa)
    else if qa.quantized_type = 1 then get_q4_0_quantized_array_size (some qa)
    else 0

/-- Modelled from the spec: byte size of the persisted q8_0 layout
`[u8 tag][3 x u64][f32 x block_count][i8 x element_count]`. -/
def q8_0_persisted_size (block_count element_count : Nat) : Nat :=
  1 + 3 * 8 + 4 * block_count + 1 * element_count

/-- Modelled from the spec: byte size of the persisted q4_0 layout, the q8_0 header shape with
`ceil(element_count / 2)` packed bytes. -/
def q4_0_persisted_size (block_count element_count : Nat) : Nat :=
  1 + 3 * 8 + 4 * block_count + 1 * ((element_count + 1) / 2)

/-- Modelled from the spec: byte size of the persisted sparse layout
`[u16 token_count][u16 feature_count][u16 retained_count][u16 x (tokens * retained)]
[f32 x (tokens * retained)]`. -/
def sparse_persisted_size (token_count retained_count : Nat) : Nat :=
  3 * 2 + 2 * (token_count * retained_count) + 4 * (token_count * retained_count)

/-! ## Further quantities and examples -/

/-- Entries `t * k`, ..., `t * k + k - 1` of a region: the segment of token `t`. -/
def segment {α : Type} (region : List α) (t k : Nat) : List α := (region.drop (t * k)).take k

/-- Row `t` of a matrix with `num_features` columns, as an input of its own. -/
def row_of (float_array : Nat → F32) (num_features t : Nat) : Nat → F32 :=
  fun f => float_array (t * num_features + f)

/-- The float `12.7f`, bit pattern `0x414B3333`: the float nearest to 12.7. -/
def f12_7 : F32 := ⟨false, 130, 4928307⟩

/-- A 32-element array with `12.7f` at position `p` and `+0.0` elsewhere. -/
def scenario_a_input (p : Nat) : Nat → F32 := fun i => if i = p then f12_7 else F32.zero

/-- The q8_0 record of `scenario_a_input p`: one block whose scale is `0.1f` (bit pattern
`0x3DCCCCCD`), the code 127 at position `p` and 0 elsewhere. -/
def scenario_a_encoded (p : Nat) : quantized_array_t F32 :=
  ⟨0, 32, 1, 32, [⟨false, 123, 5033165⟩], (List.range 32).map fun i => if i = p then 127 else 0⟩

/-- Two rows of 8 features: `[5, -1, 3, 0, -9, 2, 4, -8]` followed by `second`. -/
def two_row_input (second : List Int) : Nat → F32 := fun i =>
  F32.ofInt ((([5, -1, 3, 0, -9, 2, 4, -8] : List Int) ++ second).getD i 0)

/-- The sparse record of `two_row_input [1, 2, 3, 4, 5, 6, 7, 8]` for ratio 0.25. -/
def two_row_sparse : sparse_array_t :=
  ⟨2, 8, 2, [4, 7, 7, 6], [F32.ofInt (-9), F32.ofInt (-8), F32.ofInt 8, F32.ofInt 7]⟩

/-- The sparse record of `two_row_input [0, -7, 0, 0, 0, 0, 7, 0]` for ratio 0.25. -/
def two_row_sparse_alt : sparse_array_t :=
  ⟨2, 8, 2, [4, 7, 1, 6], [F32.ofInt (-9), F32.ofInt (-8), F32.ofInt (-7), F32.ofInt 7]⟩

/-! # Theorems -/

/-! ## Loops and block arithmetic -/

theorem forLoop_inv {σ : Type} (P : Nat → σ → Prop) (n : Nat) (body : Nat → σ → σ) (s0 : σ)
    (h0 : P 0 s0) (hstep : ∀ k, k < n → ∀ s, P k s → P (k + 1) (body k s)) :
    P n (forLoop n body s0) := by
  induction n with
  | zero => exact h0
  | succ m ih =>
    exact hstep m (Nat.lt_succ_self m) _ (ih fun k hk s hs => hstep k (Nat.lt_succ_of_lt hk) s hs)

theorem forLoopM_total {σ : Type} (P : Nat → σ → Prop) (n : Nat) (body : Nat → σ → Option σ)
    (s0 : σ) (h0 : P 0 s0)
    (hstep : ∀ k, k < n → ∀ s, P k s → ∃ s', body k s = some s' ∧ P (k + 1) s') :
    ∃ s, forLoopM n body s0 = some s ∧ P n s := by
  induction n with
  | zero => exact ⟨s0, rfl, h0⟩
  | succ m ih =>
    obtain ⟨s, hs, hP⟩ := ih fun k hk s hs => hstep k (Nat.lt_succ_of_lt hk) s hs
    obtain ⟨s', hs', hP'⟩ := hstep m (Nat.lt_succ_self m) s hP
    exact ⟨s', by simp [forLoopM, hs, hs'], hP'⟩

theorem forLoopM_invariant {σ : Type} (P : Nat → σ → Prop) (n : Nat) (body : Nat → σ → Option σ)
    (s0 : σ) (h0 : P 0 s0)
    (hstep : ∀ k, k < n → ∀ s s', P k s → body k s = some s' → P (k + 1) s') :
    ∀ s, forLoopM n body s0 = some s → P n s := by
  induction n with
  | zero =>
    intro s hs
    simp only [forLoopM, Option.some.injEq] at hs
    exact hs ▸ h0
  | succ m ih =>
    intro s hs
    simp only [forLoopM] at hs
    cases hm : forLoopM m body s0 with
    | none => simp [hm] at hs
    | some t =>
      rw [hm] at hs
      exact hstep m (Nat.lt_succ_self m) t s
        (ih (fun k hk s s' h1 h2 => hstep k (Nat.lt_succ_of_lt hk) s s' h1 h2) t hm) hs

theorem forLoopM_none_of_step {σ : Type} (n k : Nat) (body : Nat → σ → Option σ) (s0 : σ)
    (hk : k < n) (hfail : ∀ s, body k s = none) : forLoopM n body s0 = none := by
  induction n with
  | zero => omega
  | succ m ih =>
    simp only [forLoopM]
    rcases Nat.lt_succ_iff_lt_or_eq.mp hk with h | h
    · rw [ih h]; rfl
    · subst h
      cases forLoopM k body s0 with
      | none => rfl
      | some t => exact hfail t

theorem setAt_natCast {α : Type} (l : List α) (i : Nat) (v : α) :
    setAt l (i : Int) v = if i < l.length then some (l.set i v) else none := by
  simp [setAt]

theorem getAt_natCast {α : Type} (l : List α) (i : Nat) : getAt l (i : Int) = l[i]? := by
  simp [getAt]

theorem num_blocks_mul_le (n bs : Nat) : (n + bs - 1) / bs * bs ≤ n + bs - 1 :=
  Nat.div_mul_le_self _ _

theorem block_lt_of_lt_num_blocks (n bs b : Nat) (hbs : 0 < bs) (hb : b < (n + bs - 1) / bs) :
    b * bs < n := by
  have h1 : (b + 1) * bs ≤ (n + bs - 1) / bs * bs := Nat.mul_le_mul_right _ hb
  have h2 := num_blocks_mul_le n bs
  have h3 : (b + 1) * bs = b * bs + bs := by ring
  omega

theorem lt_num_blocks_of_lt (n bs e : Nat) (hbs : 0 < bs) (he : e < n) :
    e / bs < (n + bs - 1) / bs := by
  rw [Nat.div_lt_iff_lt_mul hbs]
  have h := Nat.lt_div_mul_add (a := n + bs - 1) hbs
  omega

theorem block_start_eq (n bs b : Nat) (hbs : 0 < bs) (hn : n + bs - 1 < U64)
    (hb : b < (n + bs - 1) / bs) : block_start b bs = b * bs := by
  have := block_lt_of_lt_num_blocks n bs b hbs hb
  unfold block_start
  exact Nat.mod_eq_of_lt (by omega)

theorem block_remain_eq (n bs b : Nat) (hbs : 0 < bs) (hn : n + bs - 1 < U64)
    (hb : b < (n + bs - 1) / bs) :
    block_remain (b * bs) bs n = min bs (n - b * bs) := by
  have h := block_lt_of_lt_num_blocks n bs b hbs hb
  unfold block_remain
  have h1 : (b * bs + bs) % U64 = b * bs + bs := Nat.mod_eq_of_lt (by omega)
  rw [h1]
  split
  · omega
  · have h2 : (n + U64 - b * bs) % U64 = n - b * bs := by
      have : n + U64 - b * bs = (n - b * bs) + U64 := by omega
      rw [this, Nat.add_mod_right]
      exact Nat.mod_eq_of_lt (by omega)
    rw [h2]; omega

theorem forLoopM_data {F : Type} (f : Nat → List Nat → Option (List Nat)) (n : Nat)
    (q0 : quantized_array_t F) :
    forLoopM n (fun i qa => (f i qa.data).map fun data => { qa with data := data }) q0
      = (forLoopM n f q0.data).map fun d => { q0 with data := d } := by
  induction n with
  | zero => simp [forLoopM]
  | succ m ih =>
    simp only [forLoopM, ih]
    cases forLoopM m f q0.data with
    | none => rfl
    | some d => simp

theorem byte_store_loop (g : Nat → Nat) (start remain : Nat) (d0 : List Nat)
    (hlen : start + remain ≤ d0.length) (hU : start + remain ≤ U64) :
    ∃ d, forLoopM remain (fun i d => setAt d (((start + i) % U64 : Nat) : Int)
        (g ((start + i) % U64))) d0 = some d ∧ d.length = d0.length ∧
      ∀ e, d[e]? = if start ≤ e ∧ e < start + remain then some (g e) else d0[e]? := by
  obtain ⟨d, hd, hP⟩ := forLoopM_total
    (fun i (d : List Nat) => d.length = d0.length ∧
      ∀ e, d[e]? = if start ≤ e ∧ e < start + i then some (g e) else d0[e]?)
    remain (fun i d => setAt d (((start + i) % U64 : Nat) : Int) (g ((start + i) % U64))) d0
    ⟨rfl, fun e => by rw [if_neg]; omega⟩
    (by
      intro i hi d ⟨hl, hd⟩
      have hidx : (start + i) % U64 = start + i := Nat.mod_eq_of_lt (by omega)
      have hin : start + i < d.length := by omega
      beta_reduce
      rw [hidx, setAt_natCast, if_pos hin]
      refine ⟨_, rfl, by simp [hl], ?_⟩
      intro e
      by_cases hei : e = start + i
      · subst hei; simp [hin]
      · rw [List.getElem?_set, if_neg (Ne.symm hei), hd e]
        have h1 : (start ≤ e ∧ e < start + i) ↔ (start ≤ e ∧ e < start + (i + 1)) := by omega
        simp only [h1])
  exact ⟨d, hd, hP⟩

theorem quantize_q8_0_block_spec {F : Type} (ops : FloatOps F) (x : Nat → F) (ty n bs k : Nat)
    (hbs : 0 < bs) (hn : n + bs - 1 < U64) (hk : k < (n + bs - 1) / bs)
    (q : quantized_array_t F) (hq : Shaped q ty n bs n) :
    ∃ q', quantize_q8_0_block ops x k q = some q' ∧ Shaped q' ty n bs n ∧
      (∀ b, q'.scales[b]? = if b = k then some (blk_scale ops 127 x bs n k) else q.scales[b]?) ∧
      (∀ e, q'.data[e]? = if k * bs ≤ e ∧ e < min ((k + 1) * bs) n
        then some (toUInt8 (elem_code ops 127 x bs n e)) else q.data[e]?) := by
  have hstart := block_start_eq n bs k hbs hn hk
  have hlt := block_lt_of_lt_num_blocks n bs k hbs hk
  have hrem := block_remain_eq n bs k hbs hn hk
  have hks : k < q.scales.length := by rw [hq.scales_len]; exact hk
  have hk1 : (k + 1) * bs = k * bs + bs := by ring
  obtain ⟨d, hd, hdl, hdv⟩ := byte_store_loop
    (fun e => toUInt8 (quant_code ops 127 (x e) (block_inv_scale ops (blk_scale ops 127 x bs n k))))
    (k * bs) (min bs (n - k * bs)) q.data (by rw [hq.data_len]; omega) (by omega)
  refine ⟨{ q with scales := q.scales.set k (blk_scale ops 127 x bs n k), data := d }, ?_, ?_, ?_, ?_⟩
  · unfold quantize_q8_0_block
    simp only [hq.bs_eq, hq.n_eq, hstart, hrem]
    rw [setAt_natCast, if_pos hks]
    have hscale : block_scale ops 127 (block_abs_max ops x (k * bs) (min bs (n - k * bs)))
        = blk_scale ops 127 x bs n k := by
      unfold blk_scale; rw [hstart, hrem]
    rw [hscale]
    simp only [Option.some_bind]
    rw [forLoopM_data (fun i d => setAt d (((k * bs + i) % U64 : Nat) : Int)
      (toUInt8 (quant_code ops 127 (x ((k * bs + i) % U64))
        (block_inv_scale ops (blk_scale ops 127 x bs n k)))))]
    simp only [hd, Option.map_some', hq.bs_eq, hq.n_eq]
  · exact ⟨hq.ty_eq, hq.n_eq, hq.nb_eq, hq.bs_eq, by simp [hq.scales_len], by simp [hdl, hq.data_len]⟩
  · intro b
    by_cases hbk : b = k
    · subst hbk; simp [hks]
    · simp only [List.getElem?_set, if_neg (Ne.symm hbk), if_neg hbk]
  · intro e
    simp only [hdv e]
    have h1 : (k * bs ≤ e ∧ e < k * bs + min bs (n - k * bs)) ↔
        (k * bs ≤ e ∧ e < min ((k + 1) * bs) n) := by omega
    by_cases hc : k * bs ≤ e ∧ e < min ((k + 1) * bs) n
    · rw [if_pos (h1.mpr hc), if_pos hc]
      have hdiv : e / bs = k := by
        apply Nat.div_eq_of_lt_le
        · exact hc.1
        · have := hc.2; omega
      simp only [elem_code, hdiv]
    · rw [if_neg (fun h => hc (h1.mp h)), if_neg hc]

theorem quantize_q8_0_spec {F : Type} (ops : FloatOps F) (x : Nat → F) (ty n bs : Nat)
    (hbs : 0 < bs) (hn : n + bs - 1 < U64) (q0 : quantized_array_t F) (hq0 : Shaped q0 ty n bs n) :
    ∃ q, quantize_q8_0 ops x q0 = some q ∧ Shaped q ty n bs n ∧
      (∀ b, b < (n + bs - 1) / bs → q.scales[b]? = some (blk_scale ops 127 x bs n b)) ∧
      (∀ e, e < n → q.data[e]? = some (toUInt8 (elem_code ops 127 x bs n e))) := by
  unfold quantize_q8_0
  rw [hq0.nb_eq]
  obtain ⟨q, hq, hP⟩ := forLoopM_total
    (fun k (q : quantized_array_t F) => Shaped q ty n bs n ∧
      (∀ b, b < k → q.scales[b]? = some (blk_scale ops 127 x bs n b)) ∧
      (∀ e, e < min (k * bs) n → q.data[e]? = some (toUInt8 (elem_code ops 127 x bs n e))))
    ((n + bs - 1) / bs) (quantize_q8_0_block ops x) q0
    ⟨hq0, fun b hb => by omega, fun e he => by simp at he⟩
    (by
      intro k hk q ⟨hq, hS, hD⟩
      obtain ⟨q', hq', hsh, hS', hD'⟩ := quantize_q8_0_block_spec ops x ty n bs k hbs hn hk q hq
      refine ⟨q', hq', hsh, ?_, ?_⟩
      · intro b hb
        rw [hS' b]
        by_cases hbk : b = k
        · rw [if_pos hbk, hbk]
        · rw [if_neg hbk]; exact hS b (by omega)
      · intro e he
        rw [hD' e]
        by_cases hc : k * bs ≤ e ∧ e < min ((k + 1) * bs) n
        · rw [if_pos hc]
        · rw [if_neg hc]; exact hD e (by omega))
  refine ⟨q, hq, hP.1, hP.2.1, ?_⟩
  intro e he
  apply hP.2.2
  have := num_blocks_mul_le n bs
  have h2 := Nat.lt_div_mul_add (a := n + bs - 1) hbs
  omega

theorem read_store_loop {F α : Type} (data : List α) (idx : Nat → Int) (h : Nat → α → F)
    (r : Nat → α) (start remain : Nat) (out0 : Nat → F) (hU : start + remain ≤ U64)
    (hr : ∀ i, i < remain → getAt data (idx i) = some (r i)) :
    ∃ out, forLoopM remain (fun i out =>
        (getAt data (idx i)).map fun v => store out ((start + i) % U64) (h i v)) out0 = some out ∧
      ∀ e, out e = if start ≤ e ∧ e < start + remain
        then h (e - start) (r (e - start)) else out0 e := by
  obtain ⟨out, ho, hP⟩ := forLoopM_total
    (fun i (out : Nat → F) => ∀ e, out e = if start ≤ e ∧ e < start + i
        then h (e - start) (r (e - start)) else out0 e)
    remain (fun i out =>
        (getAt data (idx i)).map fun v => store out ((start + i) % U64) (h i v)) out0
    (fun e => by rw [if_neg]; omega)
    (by
      intro i hi out hout
      have hidx : (start + i) % U64 = start + i := Nat.mod_eq_of_lt (by omega)
      beta_reduce
      rw [hr i hi, hidx]
      refine ⟨_, rfl, ?_⟩
      intro e
      unfold store
      beta_reduce
      by_cases hei : e = start + i
      · subst hei
        have h2 : start + i - start = i := by omega
        rw [if_pos rfl, if_pos (by omega), h2]
      · rw [if_neg hei, hout e]
        have h1 : (start ≤ e ∧ e < start + i) ↔ (start ≤ e ∧ e < start + (i + 1)) := by omega
        simp only [h1])
  exact ⟨out, ho, hP⟩

theorem dequantize_q8_0_spec {F : Type} (ops : FloatOps F) (ty n bs : Nat)
    (hbs : 0 < bs) (hn : n + bs - 1 < U64) (q : quantized_array_t F) (hq : Shaped q ty n bs n)
    (S : Nat → F) (D : Nat → Nat)
    (hS : ∀ b, b < (n + bs - 1) / bs → q.scales[b]? = some (S b))
    (hD : ∀ e, e < n → q.data[e]? = some (D e)) (out0 : Nat → F) :
    ∃ out, dequantize_q8_0 ops q out0 = some out ∧
      ∀ e, out e = if e < n then ops.mul (S (e / bs)) (ops.ofInt (toInt8 (D e))) else out0 e := by
  unfold dequantize_q8_0
  rw [hq.nb_eq]
  obtain ⟨out, ho, hP⟩ := forLoopM_total
    (fun k (out : Nat → F) => ∀ e, out e = if e < min (k * bs) n
      then ops.mul (S (e / bs)) (ops.ofInt (toInt8 (D e))) else out0 e)
    ((n + bs - 1) / bs) (dequantize_q8_0_block ops q) out0
    (fun e => by simp)
    (by
      intro k hk out hout
      have hstart := block_start_eq n bs k hbs hn hk
      have hlt := block_lt_of_lt_num_blocks n bs k hbs hk
      have hrem := block_remain_eq n bs k hbs hn hk
      have hk1 : (k + 1) * bs = k * bs + bs := by ring
      obtain ⟨out', ho', hv⟩ := read_store_loop q.data
        (fun i => (((k * bs + i) % U64 : Nat) : Int))
        (fun _ byte => ops.mul (S k) (ops.ofInt (toInt8 byte)))
        (fun i => D (k * bs + i)) (k * bs) (min bs (n - k * bs)) out (by omega)
        (by
          intro i hi
          have hidx : (k * bs + i) % U64 = k * bs + i := Nat.mod_eq_of_lt (by omega)
          beta_reduce
          rw [hidx, getAt_natCast]
          exact hD _ (by omega))
      refine ⟨out', ?_, ?_⟩
      · unfold dequantize_q8_0_block
        simp only [hq.bs_eq, hq.n_eq, hstart, hrem]
        rw [getAt_natCast, hS k hk]
        simp only [Option.some_bind]
        exact ho'
      · intro e
        rw [hv e]
        by_cases hc : k * bs ≤ e ∧ e < k * bs + min bs (n - k * bs)
        · have hdiv : e / bs = k := by
            apply Nat.div_eq_of_lt_le
            · exact hc.1
            · have := hc.2; omega
          have h3 : k * bs + (e - k * bs) = e := by omega
          rw [if_pos hc, if_pos (by omega), hdiv, h3]
        · rw [if_neg hc, hout e]
          by_cases h4 : e < min (k * bs) n
          · rw [if_pos h4, if_pos (by omega)]
          · rw [if_neg h4, if_neg (by omega)])
  refine ⟨out, ho, ?_⟩
  intro e
  rw [hP e]
  have := num_blocks_mul_le n bs
  have h2 := Nat.lt_div_mul_add (a := n + bs - 1) hbs
  have h5 : e < min ((n + bs - 1) / bs * bs) n ↔ e < n := by omega
  simp only [h5]

theorem shl4_byte (a : Nat) (ha : a < 16) : (a <<< 4) % 256 = a * 16 := by
  rw [Nat.shiftLeft_eq]; omega

theorem or_nibble_fin : ∀ a b : Fin 16, (a.val * 16 ||| b.val) % 256 = a.val * 16 + b.val := by
  decide

theorem or_nibble (a b : Nat) (ha : a < 16) (hb : b < 16) :
    (a * 16 ||| b) % 256 = a * 16 + b :=
  or_nibble_fin ⟨a, ha⟩ ⟨b, hb⟩

theorem toInt32_small (v : Nat) (hv : v < 2 ^ 31) : toInt32 v = (v : Int) := by
  unfold toInt32
  have h : v % 2 ^ 32 = v := Nat.mod_eq_of_lt (by omega)
  rw [h, if_pos hv]

theorem q4_data_index_eq (start i : Nat) (h : start + i < 2 ^ 32) :
    q4_data_index start i = (((start + i) / 2 : Nat) : Int) := by
  unfold q4_data_index
  have h1 : (start + i) % U64 = start + i := Nat.mod_eq_of_lt (by unfold U64; omega)
  rw [h1, toInt32_small _ (by omega)]

theorem nibble_store_loop (g : Nat → Nat) (hg : ∀ e, g e < 16) (start remain : Nat)
    (d0 : List Nat) (heven : start % 2 = 0) (hU : start + remain ≤ 2 ^ 32)
    (hlen : start + remain ≤ 2 * d0.length)
    (h0 : ∀ j, j < d0.length → d0[j]? = some (packed_byte g start j)) :
    ∃ d, forLoopM remain (q4_store g start) d0 = some d ∧ d.length = d0.length ∧
      ∀ j, j < d0.length → d[j]? = some (packed_byte g (start + remain) j) := by
  obtain ⟨d, hd, hP⟩ := forLoopM_total
    (fun i (d : List Nat) => d.length = d0.length ∧
      ∀ j, j < d0.length → d[j]? = some (packed_byte g (start + i) j))
    remain (q4_store g start) d0 ⟨rfl, h0⟩
    (by
      intro i hi d ⟨hl, hd⟩
      have hidx := q4_data_index_eq start i (by omega)
      have hmod : (start + i) % U64 = start + i := Nat.mod_eq_of_lt (by unfold U64; omega)
      have hin : (start + i) / 2 < d.length := by omega
      unfold q4_store
      rw [hidx, hmod, setAt_natCast, if_pos hin, getAt_natCast]
      by_cases hpar : i % 2 = 0
      · rw [if_pos hpar]
        refine ⟨_, rfl, by simp [hl], ?_⟩
        intro j hj
        by_cases hje : j = (start + i) / 2
        · subst hje
          rw [List.getElem?_set, if_pos rfl, if_pos hin, shl4_byte _ (hg _)]
          unfold packed_byte
          have e1 : 2 * ((start + i) / 2) = start + i := by omega
          rw [if_pos (by omega), if_neg (by omega), e1, Nat.add_zero]
        · rw [List.getElem?_set, if_neg (Ne.symm hje), hd j hj]
          unfold packed_byte
          have c1 : (2 * j < start + i) ↔ (2 * j < start + (i + 1)) := by omega
          have c2 : (2 * j + 1 < start + i) ↔ (2 * j + 1 < start + (i + 1)) := by omega
          simp only [c1, c2]
      · rw [if_neg hpar, hd _ (by omega)]
        simp only [Option.some_bind]
        rw [setAt_natCast, if_pos hin]
        refine ⟨_, rfl, by simp [hl], ?_⟩
        intro j hj
        by_cases hje : j = (start + i) / 2
        · subst hje
          rw [List.getElem?_set, if_pos rfl, if_pos hin]
          unfold packed_byte
          have e1 : 2 * ((start + i) / 2) + 1 = start + i := by omega
          rw [if_pos (by omega), if_neg (by omega), if_pos (by omega), if_pos (by omega), e1,
            Nat.add_zero, or_nibble _ _ (hg _) (hg _)]
        · rw [List.getElem?_set, if_neg (Ne.symm hje), hd j hj]
          unfold packed_byte
          have c1 : (2 * j < start + i) ↔ (2 * j < start + (i + 1)) := by omega
          have c2 : (2 * j + 1 < start + i) ↔ (2 * j + 1 < start + (i + 1)) := by omega
          simp only [c1, c2])
  exact ⟨d, hd, hP⟩

theorem forLoopM_congr {σ : Type} (n : Nat) (body body' : Nat → σ → Option σ) (s0 : σ)
    (h : ∀ i, i < n → ∀ s, body i s = body' i s) : forLoopM n body s0 = forLoopM n body' s0 := by
  induction n with
  | zero => rfl
  | succ m ih =>
    simp only [forLoopM]
    rw [ih fun i hi s => h i (Nat.lt_succ_of_lt hi) s]
    cases forLoopM m body' s0 with
    | none => rfl
    | some t => exact h m (Nat.lt_succ_self m) t

theorem elem_nibble_lt {F : Type} (ops : FloatOps F) (x : Nat → F) (bs n e : Nat) :
    elem_nibble ops x bs n e < 16 := by
  unfold elem_nibble
  exact Nat.lt_of_le_of_lt Nat.and_le_right (by decide)

theorem quantize_q4_0_block_spec {F : Type} (ops : FloatOps F) (x : Nat → F) (ty n bs k : Nat)
    (hbs : 0 < bs) (heven : bs % 2 = 0) (hn : n ≤ 2 ^ 32) (hbsU : n + bs - 1 < U64)
    (hk : k < (n + bs - 1) / bs)
    (q : quantized_array_t F) (hq : Shaped q ty n bs ((n + 1) / 2))
    (hD : ∀ j, j < (n + 1) / 2 →
      q.data[j]? = some (packed_byte (elem_nibble ops x bs n) (k * bs) j)) :
    ∃ q', quantize_q4_0_block ops x k q = some q' ∧ Shaped q' ty n bs ((n + 1) / 2) ∧
      (∀ b, q'.scales[b]? = if b = k then some (blk_scale ops 7 x bs n k) else q.scales[b]?) ∧
      (∀ j, j < (n + 1) / 2 →
        q'.data[j]? = some (packed_byte (elem_nibble ops x bs n) (min ((k + 1) * bs) n) j)) := by
  have hstart := block_start_eq n bs k hbs hbsU hk
  have hlt := block_lt_of_lt_num_blocks n bs k hbs hk
  have hrem := block_remain_eq n bs k hbs hbsU hk
  have hks : k < q.scales.length := by rw [hq.scales_len]; exact hk
  have hk1 : (k + 1) * bs = k * bs + bs := by ring
  have hkeven : (k * bs) % 2 = 0 := by
    rw [Nat.mul_mod, heven]; simp
  obtain ⟨d, hd, hdl, hdv⟩ := nibble_store_loop (elem_nibble ops x bs n)
    (elem_nibble_lt ops x bs n) (k * bs) (min bs (n - k * bs)) q.data hkeven (by omega)
    (by rw [hq.data_len]; omega) (by rw [hq.data_len]; exact hD)
  refine ⟨{ q with scales := q.scales.set k (blk_scale ops 7 x bs n k), data := d }, ?_, ?_, ?_, ?_⟩
  · unfold quantize_q4_0_block
    simp only [hq.bs_eq, hq.n_eq, hstart, hrem]
    rw [setAt_natCast, if_pos hks]
    have hscale : block_scale ops 7 (block_abs_max ops x (k * bs) (min bs (n - k * bs)))
        = blk_scale ops 7 x bs n k := by
      unfold blk_scale; rw [hstart, hrem]
    rw [hscale]
    simp only [Option.some_bind]
    rw [forLoopM_congr _ _ (fun i qa => (q4_store (elem_nibble ops x bs n) (k * bs) i qa.data).map
      fun data => { qa with data := data })]
    · rw [forLoopM_data (q4_store (elem_nibble ops x bs n) (k * bs))]
      simp only [hd, Option.map_some', hq.bs_eq, hq.n_eq]
    · intro i hi s
      have hmod : (k * bs + i) % U64 = k * bs + i := Nat.mod_eq_of_lt (by omega)
      have hdiv : (k * bs + i) / bs = k := by
        apply Nat.div_eq_of_lt_le
        · omega
        · omega
      have hnib : toUInt8 (quant_code ops 7 (x (k * bs + i))
          (block_inv_scale ops (blk_scale ops 7 x bs n k))) &&& 15
          = elem_nibble ops x bs n (k * bs + i) := by
        simp only [elem_nibble, elem_code, hdiv]
      unfold q4_store
      simp only [hmod, hnib]
      by_cases hpar : i % 2 = 0
      · simp only [if_pos hpar]
      · simp only [if_neg hpar]
        cases getAt s.data (q4_data_index (k * bs) i) with
        | none => rfl
        | some old => rfl
  · exact ⟨hq.ty_eq, hq.n_eq, hq.nb_eq, hq.bs_eq, by simp [hq.scales_len], by simp [hdl, hq.data_len]⟩
  · intro b
    by_cases hbk : b = k
    · subst hbk; simp [hks]
    · simp only [List.getElem?_set, if_neg (Ne.symm hbk), if_neg hbk]
  · intro j hj
    rw [hdv j (by rw [hq.data_len]; exact hj)]
    have : k * bs + min bs (n - k * bs) = min ((k + 1) * bs) n := by omega
    rw [this]

theorem quantize_q4_0_spec {F : Type} (ops : FloatOps F) (x : Nat → F) (ty n bs : Nat)
    (hbs : 0 < bs) (heven : bs % 2 = 0) (hn : n ≤ 2 ^ 32) (hbsU : n + bs - 1 < U64)
    (q0 : quantized_array_t F) (hq0 : Shaped q0 ty n bs ((n + 1) / 2))
    (hz : ∀ j, j < (n + 1) / 2 → q0.data[j]? = some 0) :
    ∃ q, quantize_q4_0 ops x q0 = some q ∧ Shaped q ty n bs ((n + 1) / 2) ∧
      (∀ b, b < (n + bs - 1) / bs → q.scales[b]? = some (blk_scale ops 7 x bs n b)) ∧
      (∀ j, j < (n + 1) / 2 →
        q.data[j]? = some (packed_byte (elem_nibble ops x bs n) n j)) := by
  unfold quantize_q4_0
  rw [hq0.nb_eq]
  obtain ⟨q, hq, hP⟩ := forLoopM_total
    (fun k (q : quantized_array_t F) => Shaped q ty n bs ((n + 1) / 2) ∧
      (∀ b, b < k → q.scales[b]? = some (blk_scale ops 7 x bs n b)) ∧
      (∀ j, j < (n + 1) / 2 →
        q.data[j]? = some (packed_byte (elem_nibble ops x bs n) (min (k * bs) n) j)))
    ((n + bs - 1) / bs) (quantize_q4_0_block ops x) q0
    ⟨hq0, fun b hb => by omega, fun j hj => by rw [hz j hj]; simp [packed_byte]⟩
    (by
      intro k hk q ⟨hq, hS, hD⟩
      have hlt := block_lt_of_lt_num_blocks n bs k hbs hk
      have hmin : min (k * bs) n = k * bs := by omega
      rw [hmin] at hD
      obtain ⟨q', hq', hsh, hS', hD'⟩ :=
        quantize_q4_0_block_spec ops x ty n bs k hbs heven hn hbsU hk q hq hD
      refine ⟨q', hq', hsh, ?_, hD'⟩
      intro b hb
      rw [hS' b]
      by_cases hbk : b = k
      · rw [if_pos hbk, hbk]
      · rw [if_neg hbk]; exact hS b (by omega))
  refine ⟨q, hq, hP.1, hP.2.1, ?_⟩
  intro j hj
  rw [hP.2.2 j hj]
  have := num_blocks_mul_le n bs
  have h2 := Nat.lt_div_mul_add (a := n + bs - 1) hbs
  have h5 : min ((n + bs - 1) / bs * bs) n = n := by omega
  rw [h5]

theorem dequantize_q4_0_spec {F : Type} (ops : FloatOps F) (ty n bs : Nat)
    (hbs : 0 < bs) (heven : bs % 2 = 0) (hn : n ≤ 2 ^ 32) (hbsU : n + bs - 1 < U64)
    (q : quantized_array_t F) (hq : Shaped q ty n bs ((n + 1) / 2))
    (S : Nat → F) (B : Nat → Nat)
    (hS : ∀ b, b < (n + bs - 1) / bs → q.scales[b]? = some (S b))
    (hB : ∀ j, j < (n + 1) / 2 → q.data[j]? = some (B j)) (out0 : Nat → F) :
    ∃ out, dequantize_q4_0 ops q out0 = some out ∧
      ∀ e, out e = if e < n then ops.mul (S (e / bs)) (ops.ofInt (sign_extend4
        (if e % 2 = 0 then B (e / 2) >>> 4 else B (e / 2) &&& 0x0F))) else out0 e := by
  unfold dequantize_q4_0
  rw [hq.nb_eq]
  obtain ⟨out, ho, hP⟩ := forLoopM_total
    (fun k (out : Nat → F) => ∀ e, out e = if e < min (k * bs) n
      then ops.mul (S (e / bs)) (ops.ofInt (sign_extend4
        (if e % 2 = 0 then B (e / 2) >>> 4 else B (e / 2) &&& 0x0F))) else out0 e)
    ((n + bs - 1) / bs) (dequantize_q4_0_block ops q) out0
    (fun e => by simp)
    (by
      intro k hk out hout
      have hstart := block_start_eq n bs k hbs hbsU hk
      have hlt := block_lt_of_lt_num_blocks n bs k hbs hk
      have hrem := block_remain_eq n bs k hbs hbsU hk
      have hk1 : (k + 1) * bs = k * bs + bs := by ring
      have hkeven : (k * bs) % 2 = 0 := by
        rw [Nat.mul_mod, heven]; simp
      obtain ⟨out', ho', hv⟩ := read_store_loop q.data
        (fun i => q4_data_index (k * bs) i)
        (fun i packed_qi => ops.mul (S k) (ops.ofInt (sign_extend4
          (if i % 2 = 0 then packed_qi >>> 4 else packed_qi &&& 0x0F))))
        (fun i => B ((k * bs + i) / 2)) (k * bs) (min bs (n - k * bs)) out (by omega)
        (by
          intro i hi
          beta_reduce
          rw [q4_data_index_eq _ _ (by omega), getAt_natCast]
          exact hB _ (by omega))
      refine ⟨out', ?_, ?_⟩
      · unfold dequantize_q4_0_block
        simp only [hq.bs_eq, hq.n_eq, hstart, hrem]
        rw [getAt_natCast, hS k hk]
        simp only [Option.some_bind]
        exact ho'
      · intro e
        rw [hv e]
        by_cases hc : k * bs ≤ e ∧ e < k * bs + min bs (n - k * bs)
        · have hdiv : e / bs = k := by
            apply Nat.div_eq_of_lt_le
            · exact hc.1
            · have := hc.2; omega
          have h3 : k * bs + (e - k * bs) = e := by omega
          have h4 : (e - k * bs) % 2 = e % 2 := by omega
          have h5 : e < min ((k + 1) * bs) n := by omega
          rw [if_pos hc, if_pos h5, hdiv, h3, h4]
        · rw [if_neg hc, hout e]
          by_cases h4 : e < min (k * bs) n
          · have h6 : e < min ((k + 1) * bs) n := by omega
            rw [if_pos h4, if_pos h6]
          · have h6 : ¬ e < min ((k + 1) * bs) n := by omega
            rw [if_neg h4, if_neg h6])
  refine ⟨out, ho, ?_⟩
  intro e
  rw [hP e]
  have := num_blocks_mul_le n bs
  have h2 := Nat.lt_div_mul_add (a := n + bs - 1) hbs
  have h5 : e < min ((n + bs - 1) / bs * bs) n ↔ e < n := by omega
  simp only [h5]

theorem forLoopM_none_of_inv {σ : Type} (P : Nat → σ → Prop) (n k : Nat)
    (body : Nat → σ → Option σ) (s0 : σ) (hk : k < n) (h0 : P 0 s0)
    (hstep : ∀ j, j < k → ∀ s s', P j s → body j s = some s' → P (j + 1) s')
    (hfail : ∀ s, P k s → body k s = none) : forLoopM n body s0 = none := by
  induction n with
  | zero => omega
  | succ m ih =>
    simp only [forLoopM]
    rcases Nat.lt_succ_iff_lt_or_eq.mp hk with h | h
    · rw [ih h]; rfl
    · subst h
      cases hm : forLoopM k body s0 with
      | none => rfl
      | some t => exact hfail t (forLoopM_invariant P k body s0 h0 hstep t hm)

theorem toInt32_neg (v : Nat) (h1 : 2 ^ 31 ≤ v) (h2 : v < 2 ^ 32) : toInt32 v < 0 := by
  unfold toInt32
  have h : v % 2 ^ 32 = v := Nat.mod_eq_of_lt h2
  rw [h, if_neg (by omega)]
  omega

theorem quantize_q4_0_block_eq {F : Type} (ops : FloatOps F) (x : Nat → F) (k : Nat)
    (q : quantized_array_t F) :
    quantize_q4_0_block ops x k q =
      (setAt q.scales (k : Int) (block_scale ops 7 (block_abs_max ops x
          (block_start k q.block_size)
          (block_remain (block_start k q.block_size) q.block_size q.num_elements)))).bind
        fun scales =>
          (forLoopM (block_remain (block_start k q.block_size) q.block_size q.num_elements)
            (q4_store (fun e => toUInt8 (quant_code ops 7 (x e) (block_inv_scale ops
              (block_scale ops 7 (block_abs_max ops x (block_start k q.block_size)
                (block_remain (block_start k q.block_size) q.block_size q.num_elements)))))
              &&& 0x0F) (block_start k q.block_size)) q.data).map
            fun d => { q with scales := scales, data := d } := by
  unfold quantize_q4_0_block
  dsimp only
  congr 1
  funext sc
  rw [forLoopM_congr _ _ (fun i qa => (q4_store (fun e => toUInt8 (quant_code ops 7 (x e)
    (block_inv_scale ops (block_scale ops 7 (block_abs_max ops x (block_start k q.block_size)
      (block_remain (block_start k q.block_size) q.block_size q.num_elements)))))
    &&& 0x0F) (block_start k q.block_size) i qa.data).map
    fun data => { qa with data := data })]
  · rw [forLoopM_data]
  · intro i _ s
    unfold q4_store
    by_cases hpar : i % 2 = 0
    · simp only [if_pos hpar]
    · simp only [if_neg hpar]
      cases getAt s.data (q4_data_index (block_start k q.block_size) i) with
      | none => rfl
      | some old => rfl

/-- For more than `2 ^ 32` elements the first element of block `2 ^ 27` has a negative
`data_index`: the encoder leaves the code region. -/
theorem quantize_q4_0_overflow {F : Type} (ops : FloatOps F) (x : Nat → F) (ty n : Nat)
    (hn : 2 ^ 32 < n) (hU : n + 31 < U64)
    (q0 : quantized_array_t F) (hq0 : Shaped q0 ty n 32 ((n + 1) / 2)) :
    quantize_q4_0 ops x q0 = none := by
  unfold quantize_q4_0
  rw [hq0.nb_eq]
  have hU' : n + 31 < 2 ^ 64 := hU
  apply forLoopM_none_of_inv
    (fun _ (q : quantized_array_t F) => q.num_elements = n ∧ q.block_size = 32)
    ((n + 32 - 1) / 32) (2 ^ 27)
  · omega
  · exact ⟨hq0.n_eq, hq0.bs_eq⟩
  · intro j _ s s' ⟨h1, h2⟩ hs
    rw [quantize_q4_0_block_eq] at hs
    simp only [Option.bind_eq_some, Option.map_eq_some'] at hs
    obtain ⟨sc, _, d, _, hq'⟩ := hs
    subst hq'
    exact ⟨h1, h2⟩
  · intro s ⟨h1, h2⟩
    rw [quantize_q4_0_block_eq, h1, h2]
    have hst : block_start (2 ^ 27) 32 = 2 ^ 32 := by decide
    have hrem : 0 < block_remain (2 ^ 32) 32 n := by
      unfold block_remain
      have e1 : (2 ^ 32 + 32) % U64 = 2 ^ 32 + 32 := by decide
      rw [e1]
      split
      · omega
      · have e2 : (n + U64 - 2 ^ 32) % U64 = n - 2 ^ 32 := by
          have : n + U64 - 2 ^ 32 = (n - 2 ^ 32) + U64 := by omega
          rw [this, Nat.add_mod_right]
          exact Nat.mod_eq_of_lt (by unfold U64; omega)
        rw [e2]; omega
    rw [hst]
    have hnone : ∀ g : Nat → Nat, forLoopM (block_remain (2 ^ 32) 32 n)
        (q4_store g (2 ^ 32)) s.data = none := by
      intro g
      apply forLoopM_none_of_step _ 0 _ _ hrem
      intro t
      have hidx : q4_data_index (2 ^ 32) 0 < 0 := by
        unfold q4_data_index
        apply toInt32_neg <;> decide
      unfold q4_store setAt
      simp only [Nat.zero_mod, if_true]
      rw [if_neg (by omega)]
    rw [hnone]
    cases setAt s.scales ((2 ^ 27 : Nat) : Int) (block_scale ops 7 (block_abs_max ops x
        (2 ^ 32) (block_remain (2 ^ 32) 32 n))) with
    | none => rfl
    | some sc => rfl

/-! ## What the encoder stores and the decoder returns -/

theorem allocate_q8_0_shaped {F : Type} (ops : FloatOps F) (n bs : Nat) (hn : 0 < n)
    (hbs : 0 < bs)
    (hT : sizeof_quantized_array_t + (n + bs - 1) % U64 / bs * 4 + n < U64) :
    ∃ q0, allocate_q8_0_array ops n bs = some (some q0) ∧ q0.quantized_type = 0 ∧
      q0.num_elements = n ∧ q0.block_size = bs ∧
      q0.num_blocks = (n + bs - 1) % U64 / bs ∧
      q0.scales = List.replicate ((n + bs - 1) % U64 / bs) ops.zero ∧
      q0.data = List.replicate n 0 := by
  unfold allocate_q8_0_array
  rw [if_neg (by omega)]
  dsimp only
  rw [Nat.mul_one, Nat.mod_eq_of_lt hT, if_neg (by omega)]
  have hlen : sizeof_quantized_array_t + (n + bs - 1) % U64 / bs * 4 + n
      - sizeof_quantized_array_t - (n + bs - 1) % U64 / bs * 4 = n := by omega
  rw [hlen]
  exact ⟨_, rfl, rfl, rfl, rfl, rfl, rfl, rfl⟩

theorem allocate_q4_0_shaped {F : Type} (ops : FloatOps F) (n bs : Nat) (hn : 0 < n)
    (hbs : 0 < bs)
    (hT : sizeof_quantized_array_t + (n + bs - 1) % U64 / bs * 4 + (n + 1) % U64 / 2 < U64) :
    ∃ q0, allocate_q4_0_array ops n bs = some (some q0) ∧ q0.quantized_type = 1 ∧
      q0.num_elements = n ∧ q0.block_size = bs ∧
      q0.num_blocks = (n + bs - 1) % U64 / bs ∧
      q0.scales = List.replicate ((n + bs - 1) % U64 / bs) ops.zero ∧
      q0.data = List.replicate ((n + 1) % U64 / 2) 0 := by
  unfold allocate_q4_0_array
  rw [if_neg (by omega)]
  dsimp only
  rw [Nat.mul_one, Nat.mod_eq_of_lt hT, if_neg (by omega)]
  have hlen : sizeof_quantized_array_t + (n + bs - 1) % U64 / bs * 4 + (n + 1) % U64 / 2
      - sizeof_quantized_array_t - (n + bs - 1) % U64 / bs * 4 = (n + 1) % U64 / 2 := by omega
  rw [hlen]
  exact ⟨_, rfl, rfl, rfl, rfl, rfl, rfl, rfl⟩

/-- When the byte count wraps, the block `calloc` returns is smaller than the header and the
scales region, and the allocator has no defined result. -/
theorem allocate_q8_0_wrap {F : Type} (ops : FloatOps F) (n bs : Nat) (hn : 0 < n)
    (hbs : 0 < bs) (hn64 : n < U64)
    (hT : U64 ≤ sizeof_quantized_array_t + (n + bs - 1) % U64 / bs * 4 + n) :
    allocate_q8_0_array ops n bs = none := by
  unfold allocate_q8_0_array
  rw [if_neg (by omega)]
  dsimp only
  rw [Nat.mul_one, if_pos]
  have h1 := Nat.mod_lt (sizeof_quantized_array_t + (n + bs - 1) % U64 / bs * 4 + n)
    (by decide : 0 < U64)
  have h2 := Nat.mod_add_div (sizeof_quantized_array_t + (n + bs - 1) % U64 / bs * 4 + n) U64
  have h3 : 0 < (sizeof_quantized_array_t + (n + bs - 1) % U64 / bs * 4 + n) / U64 :=
    Nat.div_pos hT (by decide)
  have h4 : U64 ≤ U64 * ((sizeof_quantized_array_t + (n + bs - 1) % U64 / bs * 4 + n) / U64) :=
    Nat.le_mul_of_pos_right _ h3
  omega

theorem allocate_q4_0_wrap {F : Type} (ops : FloatOps F) (n bs : Nat) (hn : 0 < n)
    (hbs : 0 < bs)
    (hT : U64 ≤ sizeof_quantized_array_t + (n + bs - 1) % U64 / bs * 4 + (n + 1) % U64 / 2) :
    allocate_q4_0_array ops n bs = none := by
  have hd : (n + 1) % U64 / 2 < U64 :=
    lt_of_le_of_lt (Nat.div_le_self _ _) (Nat.mod_lt _ (by decide))
  unfold allocate_q4_0_array
  rw [if_neg (by omega)]
  dsimp only
  rw [Nat.mul_one, if_pos]
  have h1 := Nat.mod_lt
    (sizeof_quantized_array_t + (n + bs - 1) % U64 / bs * 4 + (n + 1) % U64 / 2)
    (by decide : 0 < U64)
  have h2 := Nat.mod_add_div
    (sizeof_quantized_array_t + (n + bs - 1) % U64 / bs * 4 + (n + 1) % U64 / 2) U64
  have h3 : 0 < (sizeof_quantized_array_t + (n + bs - 1) % U64 / bs * 4
      + (n + 1) % U64 / 2) / U64 := Nat.div_pos hT (by decide)
  have h4 : U64 ≤ U64 * ((sizeof_quantized_array_t + (n + bs - 1) % U64 / bs * 4
      + (n + 1) % U64 / 2) / U64) := Nat.le_mul_of_pos_right _ h3
  omega

theorem quantize_q8_total {F : Type} (ops : FloatOps F) (x : Nat → F) (n : Nat) (hn : 0 < n)
    (hU : n + 31 < U64) (hT : sizeof_quantized_array_t + (n + 32 - 1) / 32 * 4 + n < U64) :
    ∃ q, quantize ops (some x) n 0 none = some (0, some q) ∧ Shaped q 0 n 32 n ∧
      (∀ b, b < (n + 32 - 1) / 32 → q.scales[b]? = some (blk_scale ops 127 x 32 n b)) ∧
      (∀ e, e < n → q.data[e]? = some (toUInt8 (elem_code ops 127 x 32 n e))) := by
  have hmod : (n + 32 - 1) % U64 = n + 32 - 1 := Nat.mod_eq_of_lt (by omega)
  obtain ⟨q0, h0, h1, h2, h3, h4, h5, h6⟩ := allocate_q8_0_shaped ops n 32 hn (by decide)
    (by rw [hmod]; exact hT)
  rw [hmod] at h4 h5
  have hsh : Shaped q0 0 n 32 n := ⟨h1, h2, h4, h3, by simp [h5], by simp [h6]⟩
  obtain ⟨q, hq, hshq, hS, hD⟩ := quantize_q8_0_spec ops x 0 n 32 (by decide) (by omega) q0 hsh
  refine ⟨q, ?_, hshq, hS, hD⟩
  unfold quantize
  simp only [DEFAULT_Q8_0_BLOCK_SIZE, h0, hq]
  rw [if_neg (by omega)]
  simp

theorem quantize_q4_total {F : Type} (ops : FloatOps F) (x : Nat → F) (n : Nat) (hn : 0 < n)
    (hn32 : n ≤ 2 ^ 32) :
    ∃ q, quantize ops (some x) n 1 none = some (0, some q) ∧ Shaped q 1 n 32 ((n + 1) / 2) ∧
      (∀ b, b < (n + 32 - 1) / 32 → q.scales[b]? = some (blk_scale ops 7 x 32 n b)) ∧
      (∀ j, j < (n + 1) / 2 →
        q.data[j]? = some (packed_byte (elem_nibble ops x 32 n) n j)) := by
  have hmod : (n + 32 - 1) % U64 = n + 32 - 1 := Nat.mod_eq_of_lt (by unfold U64; omega)
  have hmod1 : (n + 1) % U64 = n + 1 := Nat.mod_eq_of_lt (by unfold U64; omega)
  obtain ⟨q0, h0, h1, h2, h3, h4, h5, h6⟩ := allocate_q4_0_shaped ops n 32 hn (by decide)
    (by rw [hmod, hmod1]; unfold U64 sizeof_quantized_array_t; omega)
  rw [hmod] at h4 h5
  rw [hmod1] at h6
  have hsh : Shaped q0 1 n 32 ((n + 1) / 2) := ⟨h1, h2, h4, h3, by simp [h5], by simp [h6]⟩
  obtain ⟨q, hq, hshq, hS, hD⟩ := quantize_q4_0_spec ops x 1 n 32 (by decide) (by decide) hn32
    (by unfold U64; omega) q0 hsh (by
      intro j hj
      rw [h6, List.getElem?_replicate, if_pos hj])
  refine ⟨q, ?_, hshq, hS, hD⟩
  unfold quantize
  simp only [DEFAULT_Q4_0_BLOCK_SIZE, h0, hq]
  rw [if_neg (by omega)]
  simp

theorem quantize_q4_none {F : Type} (ops : FloatOps F) (x : Nat → F) (n : Nat)
    (hn32 : 2 ^ 32 < n) (hU : n + 31 < U64) : quantize ops (some x) n 1 none = none := by
  have hmod : (n + 32 - 1) % U64 = n + 32 - 1 := Nat.mod_eq_of_lt (by omega)
  have hmod1 : (n + 1) % U64 = n + 1 := Nat.mod_eq_of_lt (by omega)
  by_cases hT : sizeof_quantized_array_t + (n + 32 - 1) % U64 / 32 * 4 + (n + 1) % U64 / 2 < U64
  · obtain ⟨q0, h0, h1, h2, h3, h4, h5, h6⟩ :=
      allocate_q4_0_shaped ops n 32 (by omega) (by decide) hT
    rw [hmod] at h4 h5
    rw [hmod1] at h6
    have hsh : Shaped q0 1 n 32 ((n + 1) / 2) := ⟨h1, h2, h4, h3, by simp [h5], by simp [h6]⟩
    have := quantize_q4_0_overflow ops x 1 n hn32 hU q0 hsh
    unfold quantize
    simp only [DEFAULT_Q4_0_BLOCK_SIZE, h0, this]
    rw [if_neg (by omega)]
    simp
  · have h0 := allocate_q4_0_wrap ops n 32 (by omega) (by decide) (by omega)
    unfold quantize
    simp only [DEFAULT_Q4_0_BLOCK_SIZE, h0]
    rw [if_neg (by omega)]
    simp

/-- When the byte count of the q8_0 record wraps, `quantize` has no defined result. -/
theorem quantize_q8_none {F : Type} (ops : FloatOps F) (x : Nat → F) (n : Nat) (hn : 0 < n)
    (hU : n + 31 < U64) (hT : U64 ≤ sizeof_quantized_array_t + (n + 32 - 1) / 32 * 4 + n) :
    quantize ops (some x) n 0 none = none := by
  have hmod : (n + 32 - 1) % U64 = n + 32 - 1 := Nat.mod_eq_of_lt (by omega)
  have h0 := allocate_q8_0_wrap ops n 32 hn (by decide) (by omega) (by rw [hmod]; exact hT)
  unfold quantize
  simp only [DEFAULT_Q8_0_BLOCK_SIZE, h0]
  rw [if_neg (by omega)]
  simp

/-- What a successful `quantize` has stored, by format. -/
theorem quantize_success {F : Type} (ops : FloatOps F) (x : Nat → F) (n ty : Nat)
    (hU : n + 31 < U64) (q : quantized_array_t F)
    (h : quantize ops (some x) n ty none = some (0, some q)) :
    0 < n ∧
    ((ty = 0 ∧ Shaped q 0 n 32 n ∧
        (∀ b, b < (n + 32 - 1) / 32 → q.scales[b]? = some (blk_scale ops 127 x 32 n b)) ∧
        (∀ e, e < n → q.data[e]? = some (toUInt8 (elem_code ops 127 x 32 n e)))) ∨
      (ty = 1 ∧ n ≤ 2 ^ 32 ∧ Shaped q 1 n 32 ((n + 1) / 2) ∧
        (∀ b, b < (n + 32 - 1) / 32 → q.scales[b]? = some (blk_scale ops 7 x 32 n b)) ∧
        (∀ j, j < (n + 1) / 2 →
          q.data[j]? = some (packed_byte (elem_nibble ops x 32 n) n j)))) := by
  have hn : 0 < n := by
    rcases Nat.eq_zero_or_pos n with h0 | h0
    · subst h0; simp [quantize] at h
    · exact h0
  refine ⟨hn, ?_⟩
  by_cases h0 : ty = 0
  · subst h0
    by_cases hT : sizeof_quantized_array_t + (n + 32 - 1) / 32 * 4 + n < U64
    · obtain ⟨q', hq', hr⟩ := quantize_q8_total ops x n hn hU hT
      rw [hq'] at h
      simp only [Option.some.injEq, Prod.mk.injEq, true_and] at h
      subst h
      exact Or.inl ⟨rfl, hr⟩
    · rw [quantize_q8_none ops x n hn hU (by omega)] at h
      cases h
  · by_cases h1 : ty = 1
    · subst h1
      by_cases h32 : n ≤ 2 ^ 32
      · obtain ⟨q', hq', hr⟩ := quantize_q4_total ops x n hn h32
        rw [hq'] at h
        simp only [Option.some.injEq, Prod.mk.injEq, true_and] at h
        subst h
        exact Or.inr ⟨rfl, h32, hr⟩
      · rw [quantize_q4_none ops x n (by omega) hU] at h
        cases h
    · unfold quantize at h
      simp [h0, h1, Nat.pos_iff_ne_zero.mp hn] at h

theorem quant_code_range {F : Type} (ops : FloatOps F) (qmax : Int) (hq : 0 ≤ qmax) (x inv : F) :
    -qmax ≤ quant_code ops qmax x inv ∧ quant_code ops qmax x inv ≤ qmax := by
  unfold quant_code
  dsimp only
  split <;> split <;> omega

theorem toInt8_toUInt8 (c : Int) (h1 : -128 ≤ c) (h2 : c ≤ 127) : toInt8 (toUInt8 c) = c := by
  unfold toInt8 toUInt8
  have h3 : ((c % 256).toNat : Int) = c % 256 := Int.toNat_of_nonneg (Int.emod_nonneg _ (by decide))
  have h4 : (c % 256).toNat % 256 = (c % 256).toNat := by
    apply Nat.mod_eq_of_lt
    have := Int.emod_lt_of_pos c (show (0 : Int) < 256 by decide)
    omega
  rw [h4]
  split <;> omega

theorem sign_extend4_nibble (c : Int) (h1 : -8 ≤ c) (h2 : c ≤ 7) :
    sign_extend4 (toUInt8 c &&& 0x0F) = c := by
  interval_cases c <;> decide

theorem nibble_hi_fin : ∀ a b : Fin 16, (a.val * 16 + b.val) >>> 4 = a.val := by decide

theorem nibble_lo_fin : ∀ a b : Fin 16, (a.val * 16 + b.val) &&& 0x0F = b.val := by decide

theorem nibble_hi (a b : Nat) (ha : a < 16) (hb : b < 16) : (a * 16 + b) >>> 4 = a :=
  nibble_hi_fin ⟨a, ha⟩ ⟨b, hb⟩

theorem nibble_lo (a b : Nat) (ha : a < 16) (hb : b < 16) : (a * 16 + b) &&& 0x0F = b :=
  nibble_lo_fin ⟨a, ha⟩ ⟨b, hb⟩

/-- The nibble of element `e` read back from the packed byte that holds it. -/
theorem packed_byte_nibble (g : Nat → Nat) (hg : ∀ e, g e < 16) (n e : Nat) (he : e < n) :
    (if e % 2 = 0 then packed_byte g n (e / 2) >>> 4 else packed_byte g n (e / 2) &&& 0x0F)
      = g e := by
  unfold packed_byte
  have hlo : (if 2 * (e / 2) + 1 < n then g (2 * (e / 2) + 1) else 0) < 16 := by
    split
    · exact hg _
    · decide
  have hhi : (if 2 * (e / 2) < n then g (2 * (e / 2)) else 0) < 16 := by
    split
    · exact hg _
    · decide
  by_cases hpar : e % 2 = 0
  · rw [if_pos hpar, nibble_hi _ _ hhi hlo]
    have h1 : 2 * (e / 2) = e := by omega
    rw [h1, if_pos he]
  · rw [if_neg hpar, nibble_lo _ _ hhi hlo]
    have h1 : 2 * (e / 2) + 1 = e := by omega
    rw [h1, if_pos he]

theorem dequantize_q8_total {F : Type} (ops : FloatOps F) (x : Nat → F) (n : Nat)
    (hU : n + 31 < U64) (q : quantized_array_t F) (hq : Shaped q 0 n 32 n)
    (hS : ∀ b, b < (n + 32 - 1) / 32 → q.scales[b]? = some (blk_scale ops 127 x 32 n b))
    (hD : ∀ e, e < n → q.data[e]? = some (toUInt8 (elem_code ops 127 x 32 n e)))
    (out0 : Nat → F) :
    ∃ out, dequantize ops (some q) (some out0) = some (0, some out) ∧
      ∀ e, out e = if e < n then ops.mul (blk_scale ops 127 x 32 n (e / 32))
        (ops.ofInt (elem_code ops 127 x 32 n e)) else out0 e := by
  obtain ⟨out, ho, hv⟩ := dequantize_q8_0_spec ops 0 n 32 (by decide) (by omega) q hq
    (blk_scale ops 127 x 32 n) (fun e => toUInt8 (elem_code ops 127 x 32 n e)) hS hD out0
  refine ⟨out, ?_, ?_⟩
  · unfold dequantize
    simp [hq.ty_eq, ho]
  · intro e
    rw [hv e]
    split
    · have hr := quant_code_range ops 127 (by decide) (x e)
        (block_inv_scale ops (blk_scale ops 127 x 32 n (e / 32)))
      rw [toInt8_toUInt8]
      · unfold elem_code; omega
      · unfold elem_code; omega
    · rfl

theorem dequantize_q4_total {F : Type} (ops : FloatOps F) (x : Nat → F) (n : Nat)
    (hn32 : n ≤ 2 ^ 32) (q : quantized_array_t F) (hq : Shaped q 1 n 32 ((n + 1) / 2))
    (hS : ∀ b, b < (n + 32 - 1) / 32 → q.scales[b]? = some (blk_scale ops 7 x 32 n b))
    (hD : ∀ j, j < (n + 1) / 2 →
      q.data[j]? = some (packed_byte (elem_nibble ops x 32 n) n j))
    (out0 : Nat → F) :
    ∃ out, dequantize ops (some q) (some out0) = some (0, some out) ∧
      ∀ e, out e = if e < n then ops.mul (blk_scale ops 7 x 32 n (e / 32))
        (ops.ofInt (elem_code ops 7 x 32 n e)) else out0 e := by
  obtain ⟨out, ho, hv⟩ := dequantize_q4_0_spec ops 1 n 32 (by decide) (by decide) hn32
    (by unfold U64; omega) q hq
    (blk_scale ops 7 x 32 n) (packed_byte (elem_nibble ops x 32 n) n) hS hD out0
  refine ⟨out, ?_, ?_⟩
  · unfold dequantize
    simp [hq.ty_eq, ho]
  · intro e
    rw [hv e]
    by_cases he : e < n
    · rw [if_pos he, if_pos he, packed_byte_nibble _ (elem_nibble_lt ops x 32 n) n e he]
      have hr := quant_code_range ops 7 (by decide) (x e)
        (block_inv_scale ops (blk_scale ops 7 x 32 n (e / 32)))
      unfold elem_nibble
      rw [sign_extend4_nibble]
      · unfold elem_code; omega
      · unfold elem_code; omega
    · rw [if_neg he, if_neg he]

/-! ## Exact arithmetic -/

theorem rintQ_error (q : ℚ) : |(rintQ q : ℚ) - q| ≤ 1 / 2 := by
  have h1 := Int.floor_le q
  have h2 := Int.lt_floor_add_one q
  unfold rintQ
  split_ifs with ha hb hc
  · rw [abs_le]; constructor <;> linarith
  · push_cast; rw [abs_le]; constructor <;> linarith
  · rw [abs_le]; constructor <;> linarith
  · push_cast; rw [abs_le]; constructor <;> linarith

theorem rintQ_le (q : ℚ) (Q : Int) (h : q ≤ Q) : rintQ q ≤ Q := by
  have h1 := rintQ_error q
  rw [abs_le] at h1
  have h2 : (rintQ q : ℚ) < (Q : ℚ) + 1 := by linarith
  have h3 : rintQ q < Q + 1 := by exact_mod_cast h2
  omega

theorem rintQ_ge (q : ℚ) (Q : Int) (h : (Q : ℚ) ≤ q) : Q ≤ rintQ q := by
  have h1 := rintQ_error q
  rw [abs_le] at h1
  have h2 : (Q : ℚ) - 1 < (rintQ q : ℚ) := by linarith
  have h3 : Q - 1 < rintQ q := by exact_mod_cast h2
  omega

theorem block_abs_max_exact (x : Nat → ℚ) (start remain : Nat) (hU : start + remain ≤ U64) :
    0 ≤ block_abs_max exactOps x start remain ∧
      ∀ i, i < remain → |x (start + i)| ≤ block_abs_max exactOps x start remain := by
  unfold block_abs_max
  apply forLoop_inv (fun k (m : ℚ) => 0 ≤ m ∧ ∀ i, i < k → |x (start + i)| ≤ m)
  · exact ⟨le_refl _, fun i hi => by omega⟩
  · intro k hk m ⟨hm, hall⟩
    have hidx : (start + k) % U64 = start + k := Nat.mod_eq_of_lt (by omega)
    simp only [exactOps, hidx, decide_eq_true_eq]
    split_ifs with hlt
    · refine ⟨abs_nonneg _, ?_⟩
      intro i hi
      rcases Nat.lt_succ_iff_lt_or_eq.mp hi with h | h
      · exact le_trans (hall i h) (le_of_lt hlt)
      · rw [h]
    · refine ⟨hm, ?_⟩
      intro i hi
      rcases Nat.lt_succ_iff_lt_or_eq.mp hi with h | h
      · exact hall i h
      · rw [h]; exact not_lt.mp hlt

/-- In exact arithmetic the decoded value of an element is within half a scale of the input,
for a block whose maximum magnitude `m` bounds the element. -/
theorem exact_element_bound (Q : Int) (hQ : 0 < Q) (xe m : ℚ) (hm : 0 ≤ m) (hx : |xe| ≤ m) :
    |exactOps.mul (block_scale exactOps Q m)
        (exactOps.ofInt (quant_code exactOps Q xe (block_inv_scale exactOps
          (block_scale exactOps Q m)))) - xe| ≤ block_scale exactOps Q m / 2 := by
  have hQ' : (0 : ℚ) < (Q : ℚ) := by exact_mod_cast hQ
  unfold block_scale block_inv_scale quant_code
  simp only [exactOps, decide_eq_true_eq]
  by_cases hpos : 0 < m
  · have hs : 0 < m / (Q : ℚ) := div_pos hpos hQ'
    rw [if_pos hpos, if_pos hs]
    have hval : xe * ((1 : Int) / (m / (Q : ℚ))) = xe * Q / m := by
      push_cast; field_simp
    rw [hval]
    have hb := abs_le.mp hx
    have hv1 : xe * Q / m ≤ (Q : ℚ) := by
      rw [div_le_iff₀ hpos]; nlinarith
    have hv2 : ((-Q : Int) : ℚ) ≤ xe * Q / m := by
      push_cast
      rw [le_div_iff₀ hpos]; nlinarith
    have hr1 := rintQ_le _ Q hv1
    have hr2 := rintQ_ge _ (-Q) hv2
    rw [if_neg (by omega), if_neg (by omega)]
    have herr := rintQ_error (xe * Q / m)
    have hxe : xe = m / Q * (xe * Q / m) := by field_simp; ring
    have : m / (Q : ℚ) * (rintQ (xe * Q / m) : ℚ) - xe
        = m / Q * ((rintQ (xe * Q / m) : ℚ) - xe * Q / m) := by
      rw [mul_sub, ← hxe]
    rw [this, abs_mul, abs_of_pos hs]
    calc m / (Q : ℚ) * |(rintQ (xe * Q / m) : ℚ) - xe * Q / m|
        ≤ m / Q * (1 / 2) := mul_le_mul_of_nonneg_left herr (le_of_lt hs)
      _ = m / Q / 2 := by ring
  · have hm0 : m = 0 := le_antisymm (not_lt.mp hpos) hm
    have hx0 : xe = 0 := by
      rw [hm0] at hx
      exact abs_eq_zero.mp (le_antisymm hx (abs_nonneg _))
    rw [if_neg hpos]
    simp [hx0]

/-! ## Encoder and decoder composed; the bound in exact arithmetic -/

/-- A successful `quantize` followed by a successful `dequantize`: the stored scale of the block
of element `e`, and the decoded value, in terms of the encoder's scale and code. -/
theorem quantize_dequantize {F : Type} (ops : FloatOps F) (x : Nat → F) (n ty : Nat)
    (hU : n + 31 < U64) (q : quantized_array_t F) (out0 y : Nat → F)
    (hq : quantize ops (some x) n ty none = some (0, some q))
    (hy : dequantize ops (some q) (some out0) = some (0, some y)) (e : Nat) (he : e < n) :
    q.scales[e / 32]? = some (blk_scale ops (code_max ty) x 32 n (e / 32)) ∧
      y e = ops.mul (blk_scale ops (code_max ty) x 32 n (e / 32))
        (ops.ofInt (elem_code ops (code_max ty) x 32 n e)) := by
  obtain ⟨hn, h | h⟩ := quantize_success ops x n ty hU q hq
  · obtain ⟨hty, hsh, hS, hD⟩ := h
    subst hty
    obtain ⟨out, ho, hv⟩ := dequantize_q8_total ops x n hU q hsh hS hD out0
    rw [ho] at hy
    simp only [Option.some.injEq, Prod.mk.injEq, true_and] at hy
    subst hy
    refine ⟨hS _ (lt_num_blocks_of_lt n 32 e (by decide) he), ?_⟩
    rw [hv e, if_pos he]
    rfl
  · obtain ⟨hty, hn32, hsh, hS, hD⟩ := h
    subst hty
    obtain ⟨out, ho, hv⟩ := dequantize_q4_total ops x n hn32 q hsh hS hD out0
    rw [ho] at hy
    simp only [Option.some.injEq, Prod.mk.injEq, true_and] at hy
    subst hy
    refine ⟨hS _ (lt_num_blocks_of_lt n 32 e (by decide) he), ?_⟩
    rw [hv e, if_pos he]
    rfl

theorem code_max_pos (ty : Nat) : 0 < code_max ty := by
  unfold code_max; split <;> decide

/-- The bound in exact arithmetic: with exact rational arithmetic in place of binary32 rounding,
for every input array of `n` values (`4 * n ≤ 2 ^ 64`) and either format, whenever `quantize` and
then `dequantize` succeed, every element satisfies `|y[e] - x[e]| ≤ scale / 2` with `scale` the
stored scale of block `e / 32`. -/
theorem exact_quantization_bound (x : Nat → ℚ) (n ty : Nat) (hmem : 4 * n ≤ U64)
    (q : quantized_array_t ℚ) (out0 y : Nat → ℚ)
    (hq : quantize exactOps (some x) n ty none = some (0, some q))
    (hy : dequantize exactOps (some q) (some out0) = some (0, some y)) (e : Nat) (he : e < n) :
    |y e - x e| ≤ q.scales.getD (e / 32) 0 / 2 := by
  have hU : n + 31 < U64 := by unfold U64 at *; omega
  obtain ⟨hs, hv⟩ := quantize_dequantize exactOps x n ty hU q out0 y hq hy e he
  have hb := lt_num_blocks_of_lt n 32 e (by decide) he
  have hstart := block_start_eq n 32 (e / 32) (by decide) (by omega) hb
  have hrem := block_remain_eq n 32 (e / 32) (by decide) (by omega) hb
  have hlt := block_lt_of_lt_num_blocks n 32 (e / 32) (by decide) hb
  obtain ⟨hm0, hmax⟩ := block_abs_max_exact x (e / 32 * 32) (min 32 (n - e / 32 * 32))
    (by omega)
  have hxe := hmax (e % 32) (by omega)
  have hidx : e / 32 * 32 + e % 32 = e := by omega
  rw [hidx] at hxe
  have hgetD : q.scales.getD (e / 32) 0 = blk_scale exactOps (code_max ty) x 32 n (e / 32) := by
    rw [List.getD_eq_getElem?_getD, hs]; rfl
  rw [hgetD, hv]
  have := exact_element_bound (code_max ty) (code_max_pos ty) (x e) _ hm0 hxe
  unfold elem_code blk_scale
  rw [hstart, hrem]
  exact this

/-! ## C5: block count -/

theorem ceil_div_eq (n bs : Nat) (hn : 0 < n) (hbs : 0 < bs) :
    ⌈(n : ℚ) / bs⌉₊ = (n + bs - 1) / bs := by
  have h1 := Nat.div_mul_le_self (n + bs - 1) bs
  have h2 := Nat.lt_div_mul_add (a := n + bs - 1) hbs
  have hk : 0 < (n + bs - 1) / bs := Nat.div_pos (by omega) hbs
  have hbsq : (0 : ℚ) < (bs : ℚ) := by exact_mod_cast hbs
  rw [Nat.ceil_eq_iff (by omega)]
  constructor
  · rw [lt_div_iff₀ hbsq]
    have h3 : ((n + bs - 1) / bs - 1) * bs < n := by
      have : ((n + bs - 1) / bs - 1) * bs = (n + bs - 1) / bs * bs - bs := by
        rw [Nat.sub_mul, Nat.one_mul]
      omega
    exact_mod_cast h3
  · rw [div_le_iff₀ hbsq]
    have h3 : n ≤ (n + bs - 1) / bs * bs := by omega
    exact_mod_cast h3

/-- Without wrap-around of `num_elements + block_size - 1` and of the byte count the allocators
store the ceiling of `num_elements / block_size`. -/
theorem allocate_num_blocks {F : Type} (ops : FloatOps F) (n bs : Nat) (hn : 0 < n)
    (hbs : 0 < bs) (hU : n + bs - 1 < U64)
    (hT : sizeof_quantized_array_t + (n + bs - 1) / bs * 4 + n < U64) :
    (allocate_q8_0_array ops n bs).map (Option.map fun q => q.num_blocks)
        = some (some ⌈(n : ℚ) / bs⌉₊) ∧
      (allocate_q4_0_array ops n bs).map (Option.map fun q => q.num_blocks)
        = some (some ⌈(n : ℚ) / bs⌉₊) := by
  have hmod : (n + bs - 1) % U64 = n + bs - 1 := Nat.mod_eq_of_lt hU
  obtain ⟨q8, h8, _, _, _, hb8, _⟩ := allocate_q8_0_shaped ops n bs hn hbs (by rw [hmod]; exact hT)
  obtain ⟨q4, h4, _, _, _, hb4, _⟩ := allocate_q4_0_shaped ops n bs hn hbs (by
    rw [hmod]
    have : (n + 1) % U64 / 2 ≤ n := by
      have := Nat.mod_le (n + 1) U64
      omega
    omega)
  rw [h8, h4, Option.map_some', Option.map_some', Option.map_some', Option.map_some', hb8, hb4,
    hmod, ceil_div_eq n bs hn hbs]
  exact ⟨rfl, rfl⟩

/-- C5 (code evaluated at the failing input): for `num_elements = 2 ^ 64 - 1` and
`block_size = 2` the sum `num_elements + block_size - 1` wraps to 0, so both allocators compute
`num_blocks = 0`, while the ceiling of `num_elements / block_size` is `2 ^ 63`.
`allocate_q4_0_array` returns a record with `num_blocks = 0` (its byte count is the 48 bytes of
the header). For `allocate_q8_0_array` the byte count `48 + 0 + (2 ^ 64 - 1)` wraps to 47, less
than the header the function then writes, so that call has no defined result. -/
theorem C5_block_count_wraps :
    (allocate_q4_0_array f32Ops (2 ^ 64 - 1) 2).map (Option.map fun q => q.num_blocks)
        = some (some 0) ∧
      allocate_q8_0_array f32Ops (2 ^ 64 - 1) 2 = none ∧
      (2 ^ 64 - 1 + 2 - 1) % U64 / 2 = 0 ∧
      ⌈((2 ^ 64 - 1 : Nat) : ℚ) / (2 : Nat)⌉₊ = 2 ^ 63 := by
  refine ⟨by decide, by decide, by decide, ?_⟩
  rw [ceil_div_eq _ _ (by decide) (by decide)]
  norm_num

/-! ## C6: rounding policy -/

theorem rintQ_natCast_div (m d : Nat) (hd : 0 < d) :
    rintQ ((m : ℚ) / d) = (F32.roundNE m d : Int) := by
  have hdq : (0 : ℚ) < (d : ℚ) := by exact_mod_cast hd
  have hfloor : ⌊(m : ℚ) / d⌋ = ((m / d : Nat) : Int) := by
    rw [Int.floor_eq_iff]
    constructor
    · rw [le_div_iff₀ hdq]
      have := Nat.div_mul_le_self m d
      exact_mod_cast this
    · rw [div_lt_iff₀ hdq]
      have := Nat.lt_div_mul_add (a := m) hd
      have h2 : m < (m / d + 1) * d := by rw [Nat.add_mul, Nat.one_mul]; exact this
      exact_mod_cast h2
  have hfrac : (m : ℚ) / d - (((m / d : Nat) : Int) : ℚ) = ((m % d : Nat) : ℚ) / d := by
    have h := Nat.div_add_mod m d
    have h' : (m : ℚ) = (d : ℚ) * ((m / d : Nat) : ℚ) + ((m % d : Nat) : ℚ) := by
      exact_mod_cast h.symm
    have h3 : (((m / d : Nat) : Int) : ℚ) = ((m / d : Nat) : ℚ) := Int.cast_natCast _
    rw [h3, eq_div_iff (ne_of_gt hdq), sub_mul, div_mul_cancel₀ _ (ne_of_gt hdq)]
    linarith
  unfold rintQ F32.roundNE
  rw [hfloor, hfrac]
  dsimp only
  have c1 : ((m % d : Nat) : ℚ) / d < 1 / 2 ↔ 2 * (m % d) < d := by
    rw [div_lt_iff₀ hdq]
    constructor
    · intro h
      have : (2 : ℚ) * ((m % d : Nat) : ℚ) < d := by linarith
      exact_mod_cast this
    · intro h
      have : (2 : ℚ) * ((m % d : Nat) : ℚ) < d := by exact_mod_cast h
      linarith
  have c2 : (1 : ℚ) / 2 < ((m % d : Nat) : ℚ) / d ↔ d < 2 * (m % d) := by
    rw [lt_div_iff₀ hdq]
    constructor
    · intro h
      have : (d : ℚ) < 2 * ((m % d : Nat) : ℚ) := by linarith
      exact_mod_cast this
    · intro h
      have : (d : ℚ) < 2 * ((m % d : Nat) : ℚ) := by exact_mod_cast h
      linarith
  have c3 : ((m / d : Nat) : Int) % 2 = 0 ↔ m / d % 2 = 0 := by omega
  simp only [c1, c2, c3]
  split_ifs <;> simp

theorem rintQ_neg (q : ℚ) : rintQ (-q) = -rintQ q := by
  have h1 := Int.floor_le q
  have h2 := Int.lt_floor_add_one q
  by_cases hint : (⌊q⌋ : ℚ) = q
  · have hf : ⌊-q⌋ = -⌊q⌋ := by
      rw [Int.floor_eq_iff]; push_cast; constructor <;> linarith
    unfold rintQ
    rw [hf]
    push_cast
    have e1 : -q - -(⌊q⌋ : ℚ) = 0 := by linarith
    have e2 : q - (⌊q⌋ : ℚ) = 0 := by linarith
    rw [e1, e2]
    norm_num
  · have hlt : (⌊q⌋ : ℚ) < q := lt_of_le_of_ne h1 hint
    have hf : ⌊-q⌋ = -⌊q⌋ - 1 := by
      rw [Int.floor_eq_iff]; push_cast; constructor <;> linarith
    unfold rintQ
    rw [hf]
    push_cast
    have hpar : (-⌊q⌋ - 1) % 2 = 0 ↔ ¬ (⌊q⌋ % 2 = 0) := by omega
    by_cases ha : q - ⌊q⌋ < 1 / 2
    · have hb : ¬ (-q - (-(⌊q⌋ : ℚ) - 1) < 1 / 2) := by linarith
      have hc : 1 / 2 < -q - (-(⌊q⌋ : ℚ) - 1) := by linarith
      rw [if_pos ha, if_neg hb, if_pos hc]; ring
    · by_cases hb : 1 / 2 < q - ⌊q⌋
      · have hc : -q - (-(⌊q⌋ : ℚ) - 1) < 1 / 2 := by linarith
        rw [if_neg ha, if_pos hb, if_pos hc]; ring
      · have hc : ¬ (-q - (-(⌊q⌋ : ℚ) - 1) < 1 / 2) := by linarith
        have hd : ¬ (1 / 2 < -q - (-(⌊q⌋ : ℚ) - 1)) := by linarith
        rw [if_neg ha, if_neg hb, if_neg hc, if_neg hd]
        by_cases he : ⌊q⌋ % 2 = 0
        · rw [if_pos he, if_neg (by omega)]; ring
        · rw [if_neg he, if_pos (by omega)]; ring

theorem rintQ_sign_mag (neg : Bool) (m D : Nat) (hD : 0 < D) :
    rintQ (((if neg then -(m : Int) else (m : Int) : Int) : ℚ) / D)
      = if neg then -(F32.roundNE m D : Int) else (F32.roundNE m D : Int) := by
  cases neg
  · simp only [Bool.false_eq_true, if_false]
    rw [← rintQ_natCast_div m D hD]; push_cast; rfl
  · simp only [if_true]
    rw [← rintQ_natCast_div m D hD, ← rintQ_neg]; push_cast; rw [neg_div]

/-- On a finite float of magnitude at most `LONG_MAX`, `lrintf` is rounding to nearest with
ties to even. -/
theorem lrintf_eq_rintQ (v : F32) (hfin : v.isFinite = true)
    (hrange : |F32.toRat v| ≤ 2 ^ 63 - 1) : F32.lrintf v = rintQ (F32.toRat v) := by
  have hpow : ((2 : ℚ) ^ 149) = (((2 : Nat) ^ 149 : Nat) : ℚ) := by norm_cast
  unfold F32.toRat F32.key at hrange ⊢
  rw [hpow] at hrange ⊢
  unfold F32.lrintf
  generalize hD : (2 : Nat) ^ 149 = D at *
  have hDpos : 0 < D := by rw [← hD]; exact Nat.two_pow_pos 149
  have hsm := rintQ_sign_mag v.sign (F32.mag v) D hDpos
  simp only [Bool.if_true_left] at hsm
  have hlt : F32.roundNE (F32.mag v) D < 2 ^ 63 := by
    have h1 := rintQ_natCast_div (F32.mag v) D hDpos
    have h2 : ((F32.mag v : ℚ) / D) ≤ ((2 ^ 63 - 1 : Int) : ℚ) := by
      have h3 : |((if v.sign = true then -(F32.mag v : Int) else (F32.mag v : Int) : Int) : ℚ)
          / (D : ℚ)| = (F32.mag v : ℚ) / D := by
        have hnn : (0 : ℚ) ≤ (F32.mag v : ℚ) / D :=
          div_nonneg (Nat.cast_nonneg _) (Nat.cast_nonneg _)
        split
        · push_cast; rw [neg_div, abs_neg, abs_of_nonneg hnn]
        · push_cast; rw [abs_of_nonneg hnn]
      rw [h3] at hrange
      have h5 : ((2 ^ 63 - 1 : Int) : ℚ) = 2 ^ 63 - 1 := by norm_num
      rw [h5]
      exact hrange
    have h4 := rintQ_le _ _ h2
    rw [h1] at h4
    omega
  simp only [hfin, hlt, decide_True, Bool.and_self, if_true]
  rw [hsm]

/-- After a successful `quantize` the code read back for element `e` is the clamped code the
encoder computed for it. -/
theorem stored_code_eq {F : Type} (ops : FloatOps F) (x : Nat → F) (n ty : Nat)
    (hU : n + 31 < U64) (q : quantized_array_t F)
    (hq : quantize ops (some x) n ty none = some (0, some q)) (e : Nat) (he : e < n) :
    stored_code q e = elem_code ops (code_max ty) x 32 n e := by
  obtain ⟨hn, h | h⟩ := quantize_success ops x n ty hU q hq
  · obtain ⟨hty, hsh, hS, hD⟩ := h
    subst hty
    unfold stored_code
    rw [if_pos hsh.ty_eq, List.getD_eq_getElem?_getD, hD e he]
    have hr := quant_code_range ops 127 (by decide) (x e)
      (block_inv_scale ops (blk_scale ops 127 x 32 n (e / 32)))
    simp only [Option.getD_some]
    rw [toInt8_toUInt8]
    · rfl
    · unfold elem_code; omega
    · unfold elem_code; omega
  · obtain ⟨hty, hn32, hsh, hS, hD⟩ := h
    subst hty
    unfold stored_code
    rw [if_neg (by rw [hsh.ty_eq]; decide), List.getD_eq_getElem?_getD, hD (e / 2) (by omega)]
    simp only [Option.getD_some]
    rw [packed_byte_nibble _ (elem_nibble_lt ops x 32 n) n e he]
    have hr := quant_code_range ops 7 (by decide) (x e)
      (block_inv_scale ops (blk_scale ops 7 x 32 n (e / 32)))
    unfold elem_nibble
    rw [sign_extend4_nibble]
    · rfl
    · unfold elem_code; omega
    · unfold elem_code; omega

theorem quant_code_eq_clamp {F : Type} (ops : FloatOps F) (qmax : Int) (hq : 0 ≤ qmax)
    (x inv : F) :
    quant_code ops qmax x inv = clamp_code qmax (ops.lrintf (ops.mul x inv)) := by
  unfold quant_code clamp_code
  dsimp only
  split <;> split <;> omega

/-- C6 (amended): for every element whose float product `x[e] * inv_scale` is finite and at most
`LONG_MAX` in magnitude, the code stored by `quantize` (either format) is that product rounded
to the nearest integer with halves rounded to the even neighbour, then clamped to the code range
of the format. -/
theorem C6_rounding_half_even (x : Nat → F32) (n ty : Nat) (hmem : 4 * n ≤ U64)
    (q : quantized_array_t F32)
    (hq : quantize f32Ops (some x) n ty none = some (0, some q)) (e : Nat) (he : e < n)
    (hfin : (F32.mul (x e) (block_inv_scale f32Ops
      (q.scales.getD (e / 32) F32.zero))).isFinite = true)
    (hrange : |F32.toRat (F32.mul (x e) (block_inv_scale f32Ops
      (q.scales.getD (e / 32) F32.zero)))| ≤ 2 ^ 63 - 1) :
    stored_code q e = clamp_code (code_max ty) (rintQ (F32.toRat
      (F32.mul (x e) (block_inv_scale f32Ops (q.scales.getD (e / 32) F32.zero))))) := by
  have hU : n + 31 < U64 := by unfold U64 at *; omega
  have hs : q.scales[e / 32]? = some (blk_scale f32Ops (code_max ty) x 32 n (e / 32)) := by
    have hb := lt_num_blocks_of_lt n 32 e (by decide) he
    obtain ⟨_, h | h⟩ := quantize_success f32Ops x n ty hU q hq
    · obtain ⟨hty, _, hS, _⟩ := h
      subst hty; exact hS _ hb
    · obtain ⟨hty, _, _, hS, _⟩ := h
      subst hty; exact hS _ hb
  have hgetD : q.scales.getD (e / 32) F32.zero
      = blk_scale f32Ops (code_max ty) x 32 n (e / 32) := by
    rw [List.getD_eq_getElem?_getD, hs]; rfl
  rw [hgetD] at hfin hrange ⊢
  rw [stored_code_eq f32Ops x n ty hU q hq e he]
  unfold elem_code
  rw [quant_code_eq_clamp f32Ops _ (le_of_lt (code_max_pos ty))]
  show clamp_code (code_max ty) (F32.lrintf (F32.mul (x e) _)) = _
  rw [lrintf_eq_rintQ _ hfin hrange]

theorem toRat_of_key (v : F32) (k : Int) (h : F32.key v = k) : F32.toRat v = (k : ℚ) / 2 ^ 149 := by
  unfold F32.toRat; rw [h]

/-- C6 counterexample: q8_0 on `[127.0, 0.5, 2.5, -0.5]`. The scale and its inverse are 1.0, the
products are exactly 0.5, 2.5 and -0.5, and the stored codes are 0, 2 and 0; rounding halves away
from zero gives 1, 3 and -1. -/
theorem C6_counterexample :
    quantize f32Ops (some ties_input) 4 0 none = some (0, some ties_encoded) ∧
      (stored_code ties_encoded 1 = 0 ∧
        clamp_code 127 (round_half_away (F32.toRat (F32.mul (ties_input 1)
          (block_inv_scale f32Ops (ties_encoded.scales.getD (1 / 32) F32.zero))))) = 1) ∧
      (stored_code ties_encoded 2 = 2 ∧
        clamp_code 127 (round_half_away (F32.toRat (F32.mul (ties_input 2)
          (block_inv_scale f32Ops (ties_encoded.scales.getD (2 / 32) F32.zero))))) = 3) ∧
      (stored_code ties_encoded 3 = 0 ∧
        clamp_code 127 (round_half_away (F32.toRat (F32.mul (ties_input 3)
          (block_inv_scale f32Ops (ties_encoded.scales.getD (3 / 32) F32.zero))))) = -1) := by
  have k1 : F32.key (F32.mul (ties_input 1)
      (block_inv_scale f32Ops (ties_encoded.scales.getD (1 / 32) F32.zero))) = 2 ^ 148 := by
    decide!
  have k2 : F32.key (F32.mul (ties_input 2)
      (block_inv_scale f32Ops (ties_encoded.scales.getD (2 / 32) F32.zero))) = 5 * 2 ^ 148 := by
    decide!
  have k3 : F32.key (F32.mul (ties_input 3)
      (block_inv_scale f32Ops (ties_encoded.scales.getD (3 / 32) F32.zero))) = -(2 ^ 148) := by
    decide!
  have f1 : ⌊((1 : ℚ) / 2 + 1 / 2)⌋ = 1 := by norm_num
  have f2 : ⌊((5 : ℚ) / 2 + 1 / 2)⌋ = 3 := by norm_num
  refine ⟨by decide!, ⟨by decide, ?_⟩, ⟨by decide, ?_⟩, ⟨by decide, ?_⟩⟩
  · rw [toRat_of_key _ _ k1]
    have e : (((2 : Int) ^ 148 : Int) : ℚ) / 2 ^ 149 = 1 / 2 := by norm_num
    rw [e]
    unfold round_half_away
    rw [if_pos (by norm_num), f1]; decide
  · rw [toRat_of_key _ _ k2]
    have e : (((5 * 2 ^ 148 : Int)) : ℚ) / 2 ^ 149 = 5 / 2 := by norm_num
    rw [e]
    unfold round_half_away
    rw [if_pos (by norm_num), f2]; decide
  · rw [toRat_of_key _ _ k3]
    have e : (((-(2 ^ 148) : Int)) : ℚ) / 2 ^ 149 = -(1 / 2) := by norm_num
    rw [e]
    unfold round_half_away
    rw [if_neg (by norm_num), neg_neg, f1]; decide

theorem C6_rounding_half_even_witness :
    stored_code ties_encoded 1 = clamp_code (code_max 0) (rintQ (F32.toRat
      (F32.mul (ties_input 1) (block_inv_scale f32Ops
        (ties_encoded.scales.getD (1 / 32) F32.zero))))) :=
  C6_rounding_half_even ties_input 4 0 (by decide) ties_encoded (by decide!) 1 (by decide)
    (by decide!)
    (by
      have k1 : F32.key (F32.mul (ties_input 1)
          (block_inv_scale f32Ops (ties_encoded.scales.getD (1 / 32) F32.zero))) = 2 ^ 148 := by
        decide!
      rw [toRat_of_key _ _ k1]
      norm_num [abs_le])

/-! ## C7 and C9: code range and q4_0 packing -/

/-- C7: in every array produced by `quantize`, each q8_0 code byte read as `int8_t` lies in
`[-127, 127]`, and both nibbles of each q4_0 byte, sign-extended from 4 bits, lie in `[-7, 7]`. -/
theorem C7_code_range {F : Type} (ops : FloatOps F) (x : Nat → F) (n ty : Nat)
    (hmem : 4 * n ≤ U64) (q : quantized_array_t F)
    (hq : quantize ops (some x) n ty none = some (0, some q)) :
    (ty = 0 → ∀ j, j < q.data.length →
      -127 ≤ toInt8 (q.data.getD j 0) ∧ toInt8 (q.data.getD j 0) ≤ 127) ∧
    (ty = 1 → ∀ j, j < q.data.length →
      (-7 ≤ sign_extend4 (q.data.getD j 0 >>> 4) ∧ sign_extend4 (q.data.getD j 0 >>> 4) ≤ 7) ∧
      (-7 ≤ sign_extend4 (q.data.getD j 0 &&& 0x0F) ∧
        sign_extend4 (q.data.getD j 0 &&& 0x0F) ≤ 7)) := by
  have hU : n + 31 < U64 := by unfold U64 at *; omega
  obtain ⟨hn, h | h⟩ := quantize_success ops x n ty hU q hq
  · obtain ⟨hty, hsh, hS, hD⟩ := h
    subst hty
    refine ⟨fun _ j hj => ?_, fun h => absurd h (by decide)⟩
    rw [hsh.data_len] at hj
    rw [List.getD_eq_getElem?_getD, hD j hj]
    simp only [Option.getD_some]
    have hr := quant_code_range ops 127 (by decide) (x j)
      (block_inv_scale ops (blk_scale ops 127 x 32 n (j / 32)))
    rw [toInt8_toUInt8]
    · unfold elem_code; exact hr
    · unfold elem_code; omega
    · unfold elem_code; omega
  · obtain ⟨hty, hn32, hsh, hS, hD⟩ := h
    subst hty
    refine ⟨fun h => absurd h (by decide), fun _ j hj => ?_⟩
    rw [hsh.data_len] at hj
    rw [List.getD_eq_getElem?_getD, hD j hj]
    simp only [Option.getD_some]
    have hnib : ∀ e, -7 ≤ sign_extend4 (if e < n then elem_nibble ops x 32 n e else 0) ∧
        sign_extend4 (if e < n then elem_nibble ops x 32 n e else 0) ≤ 7 := by
      intro e
      split
      · have hr := quant_code_range ops 7 (by decide) (x e)
          (block_inv_scale ops (blk_scale ops 7 x 32 n (e / 32)))
        unfold elem_nibble
        rw [sign_extend4_nibble]
        · unfold elem_code; exact hr
        · unfold elem_code; omega
        · unfold elem_code; omega
      · decide
    have hlt : ∀ e, (if e < n then elem_nibble ops x 32 n e else 0) < 16 := by
      intro e
      split
      · exact elem_nibble_lt ops x 32 n e
      · decide
    unfold packed_byte
    rw [nibble_hi _ _ (hlt _) (hlt _), nibble_lo _ _ (hlt _) (hlt _)]
    exact ⟨hnib _, hnib _⟩

theorem C7_code_range_witness :
    (0 = 0 → ∀ j, j < ties_encoded.data.length →
      -127 ≤ toInt8 (ties_encoded.data.getD j 0) ∧ toInt8 (ties_encoded.data.getD j 0) ≤ 127) ∧
    (0 = 1 → ∀ j, j < ties_encoded.data.length →
      (-7 ≤ sign_extend4 (ties_encoded.data.getD j 0 >>> 4) ∧
        sign_extend4 (ties_encoded.data.getD j 0 >>> 4) ≤ 7) ∧
      (-7 ≤ sign_extend4 (ties_encoded.data.getD j 0 &&& 0x0F) ∧
        sign_extend4 (ties_encoded.data.getD j 0 &&& 0x0F) ≤ 7)) :=
  C7_code_range f32Ops ties_input 4 0 (by decide) ties_encoded (by decide!)

/-- C9: in a q4_0 array produced by `quantize`, the code of the element at local position `i` of
block `b` is in byte `16 * b + i / 2` of the code region, in the high 4 bits when `i` is even and
in the low 4 bits when `i` is odd, as the low 4 bits of its two's-complement value; when the
element count is odd the low nibble of the last byte is 0. -/
theorem C9_q4_packing {F : Type} (ops : FloatOps F) (x : Nat → F) (n : Nat)
    (hmem : 4 * n ≤ U64) (q : quantized_array_t F)
    (hq : quantize ops (some x) n 1 none = some (0, some q)) :
    (∀ b i, i < 32 → 32 * b + i < n →
      16 * b + i / 2 < q.data.length ∧
      (if i % 2 = 0 then q.data.getD (16 * b + i / 2) 0 >>> 4
        else q.data.getD (16 * b + i / 2) 0 &&& 0x0F)
        = toUInt8 (elem_code ops 7 x 32 n (32 * b + i)) &&& 0x0F) ∧
    (n % 2 = 1 → q.data.getD (q.data.length - 1) 0 &&& 0x0F = 0) := by
  have hU : n + 31 < U64 := by unfold U64 at *; omega
  obtain ⟨hn, h | h⟩ := quantize_success ops x n 1 hU q hq
  · exact absurd h.1 (by decide)
  · obtain ⟨_, hn32, hsh, hS, hD⟩ := h
    constructor
    · intro b i hi he
      have hidx : 16 * b + i / 2 = (32 * b + i) / 2 := by omega
      have hpar : i % 2 = (32 * b + i) % 2 := by omega
      have hj : (32 * b + i) / 2 < (n + 1) / 2 := by omega
      rw [hsh.data_len, hidx, hpar, List.getD_eq_getElem?_getD, hD _ hj]
      simp only [Option.getD_some]
      refine ⟨hj, ?_⟩
      rw [packed_byte_nibble _ (elem_nibble_lt ops x 32 n) n _ he]
      rfl
    · intro hodd
      have hj : q.data.length - 1 < (n + 1) / 2 := by rw [hsh.data_len]; omega
      rw [List.getD_eq_getElem?_getD, hD _ hj]
      simp only [Option.getD_some]
      unfold packed_byte
      have hl := hsh.data_len
      have h1 : 2 * (q.data.length - 1) < n := by omega
      have h2 : ¬ (2 * (q.data.length - 1) + 1 < n) := by omega
      rw [if_pos h1, if_neg h2, nibble_lo _ _ (elem_nibble_lt ops x 32 n _) (by decide)]

theorem C9_q4_packing_witness :
    (∀ b i, i < 32 → 32 * b + i < 3 →
      16 * b + i / 2 < q4_encoded.data.length ∧
      (if i % 2 = 0 then q4_encoded.data.getD (16 * b + i / 2) 0 >>> 4
        else q4_encoded.data.getD (16 * b + i / 2) 0 &&& 0x0F)
        = toUInt8 (elem_code f32Ops 7 q4_input 32 3 (32 * b + i)) &&& 0x0F) ∧
    (3 % 2 = 1 → q4_encoded.data.getD (q4_encoded.data.length - 1) 0 &&& 0x0F = 0) :=
  C9_q4_packing f32Ops q4_input 3 (by decide) q4_encoded (by decide!)

/-! ## C8: zero blocks -/

theorem isZero_cases (v : F32) (h : v.isZero = true) : v = ⟨false, 0, 0⟩ ∨ v = ⟨true, 0, 0⟩ := by
  obtain ⟨s, e, m⟩ := v
  simp only [F32.isZero, Bool.and_eq_true, beq_iff_eq] at h
  have he : e = 0 := Fin.ext h.1
  have hm : m = 0 := Fin.ext h.2
  subst he hm
  cases s
  · exact Or.inl rfl
  · exact Or.inr rfl

theorem block_abs_max_zero (x : Nat → F32) (start remain : Nat)
    (hz : ∀ i, i < remain → (x ((start + i) % U64)).isZero = true) :
    block_abs_max f32Ops x start remain = F32.zero := by
  unfold block_abs_max
  apply forLoop_inv (fun _ (m : F32) => m = F32.zero)
  · rfl
  · intro k hk m hm
    subst hm
    rcases isZero_cases _ (hz k hk) with h | h <;> rw [h] <;> decide

theorem zero_block_code (qmax : Int) (hq : qmax = 127 ∨ qmax = 7) (v : F32)
    (hv : v.isZero = true) :
    block_scale f32Ops qmax F32.zero = F32.zero ∧
      f32Ops.mul (block_scale f32Ops qmax F32.zero) (f32Ops.ofInt (quant_code f32Ops qmax v
        (block_inv_scale f32Ops (block_scale f32Ops qmax F32.zero)))) = F32.zero := by
  rcases hq with h | h <;> subst h <;> rcases isZero_cases v hv with h | h <;> subst h <;>
    exact ⟨by decide, by decide!⟩

/-- C8: for either format, if every input element of block `b` is a zero, `quantize` stores the
scale `+0.0` for that block and `dequantize` outputs exactly `+0.0` for each of its elements. -/
theorem C8_zero_block (x : Nat → F32) (n ty : Nat) (hmem : 4 * n ≤ U64)
    (q : quantized_array_t F32) (out0 y : Nat → F32)
    (hq : quantize f32Ops (some x) n ty none = some (0, some q))
    (hy : dequantize f32Ops (some q) (some out0) = some (0, some y))
    (b : Nat) (hb : 32 * b < n)
    (hz : ∀ e, 32 * b ≤ e → e < 32 * b + 32 → e < n → (x e).isZero = true) :
    q.scales[b]? = some F32.zero ∧
      ∀ e, 32 * b ≤ e → e < 32 * b + 32 → e < n → y e = F32.zero := by
  have hU : n + 31 < U64 := by unfold U64 at *; omega
  have hbn : b < (n + 32 - 1) / 32 := by omega
  have hstart := block_start_eq n 32 b (by decide) (by omega) hbn
  have hrem := block_remain_eq n 32 b (by decide) (by omega) hbn
  have hmax : block_abs_max f32Ops x (b * 32) (min 32 (n - b * 32)) = F32.zero := by
    apply block_abs_max_zero
    intro i hi
    have hidx : (b * 32 + i) % U64 = b * 32 + i := Nat.mod_eq_of_lt (by omega)
    rw [hidx]
    exact hz _ (by omega) (by omega) (by omega)
  have hcm : code_max ty = 127 ∨ code_max ty = 7 := by
    unfold code_max; split
    · exact Or.inl rfl
    · exact Or.inr rfl
  have hscale : blk_scale f32Ops (code_max ty) x 32 n b
      = block_scale f32Ops (code_max ty) F32.zero := by
    unfold blk_scale; rw [hstart, hrem, hmax]
  constructor
  · have h0 := quantize_dequantize f32Ops x n ty hU q out0 y hq hy (32 * b) hb
    have hdiv : 32 * b / 32 = b := by omega
    rw [hdiv] at h0
    rw [h0.1, hscale, (zero_block_code _ hcm F32.zero (by decide)).1]
  · intro e h1 h2 h3
    have h0 := quantize_dequantize f32Ops x n ty hU q out0 y hq hy e h3
    have hdiv : e / 32 = b := by omega
    rw [h0.2]
    unfold elem_code
    rw [hdiv, hscale]
    exact (zero_block_code _ hcm (x e) (hz e h1 h2 h3)).2

theorem C8_zero_block_witness :
    zero_encoded.scales[0]? = some F32.zero ∧
      ∀ e, 32 * 0 ≤ e → e < 32 * 0 + 32 → e < 2 → decoded f32Ops zero_encoded e = F32.zero :=
  C8_zero_block zero_input 2 0 (by decide) zero_encoded (fun _ => f32Ops.zero)
    (decoded f32Ops zero_encoded) (by decide!) (by rfl) 0 (by decide)
    (by intro e _ _ h3; interval_cases e <;> rfl)

/-! ## Binary32 rounding: magnitude bounds -/

namespace F32

theorem bitlenAux_le (fuel n k : Nat) (h : n < 2 ^ k) : bitlenAux fuel n ≤ k := by
  induction fuel generalizing n k with
  | zero => simp [bitlenAux]
  | succ f ih =>
    unfold bitlenAux
    split
    · omega
    · rename_i hn
      cases k with
      | zero => simp at h; omega
      | succ k' =>
        have : n / 2 < 2 ^ k' := by
          rw [Nat.div_lt_iff_lt_mul (by decide : 0 < 2)]
          rw [Nat.pow_succ] at h; omega
        have := ih (n / 2) k' this
        omega

theorem roundNE_le (a d K : Nat) (hd : 0 < d) (h : a ≤ K * d) : roundNE a d ≤ K := by
  have hq : a / d ≤ K := Nat.div_le_of_le_mul (by rw [Nat.mul_comm]; exact h)
  unfold roundNE
  dsimp only
  rcases Nat.lt_or_eq_of_le hq with hlt | heq
  · split
    · omega
    · split
      · omega
      · split <;> omega
  · have hr : a % d = 0 := by
      have h1 := Nat.div_add_mod a d
      rw [heq] at h1
      have h2 : d * K = K * d := Nat.mul_comm _ _
      omega
    rw [hr, if_pos (by omega)]
    omega

theorem mag_ofFields (sgn : Bool) (e m : Nat) (he : e < 256) (hm : m < 8388608) :
    mag (ofFields sgn e m) = (if e = 0 then m else m + 2 ^ 23) * 2 ^ (e - 1) := by
  unfold mag sig sh ofFields
  simp only [Nat.mod_eq_of_lt he, Nat.mod_eq_of_lt hm]

theorem mag_pack_le (sgn : Bool) (m s : Nat) : mag (pack sgn m s) ≤ m * 2 ^ s := by
  unfold pack
  split
  · rename_i h
    rw [mag_ofFields _ _ _ (by decide) (by omega)]
    simp only [if_true, Nat.sub_self, Nat.zero_sub, pow_zero, Nat.mul_one]
    exact Nat.le_mul_of_pos_right _ (Nat.two_pow_pos s)
  · rename_i h
    split
    · rename_i h2
      split
      · rename_i h3
        rw [mag_ofFields _ _ _ (by omega) (by omega)]
        rw [if_neg (by omega)]
        have : m - 2 ^ 23 + 2 ^ 23 = m := by omega
        rw [this, Nat.add_sub_cancel]
      · rename_i h3
        have hinf : mag (inf sgn) = 2 ^ 23 * 2 ^ 254 := by cases sgn <;> decide
        rw [hinf]
        have h4 : 2 ^ 254 ≤ 2 ^ s := Nat.pow_le_pow_right (by decide) (by omega)
        exact Nat.mul_le_mul (by omega) h4
    · rename_i h2
      split
      · rename_i h3
        rw [mag_ofFields _ _ _ (by omega) (by decide)]
        rw [if_neg (by omega)]
        have e1 : s + 2 - 1 = s + 1 := by omega
        have e2 : (0 + 2 ^ 23) * 2 ^ (s + 1) = 2 ^ 24 * 2 ^ s := by ring
        rw [e1, e2]
        exact Nat.mul_le_mul_right _ (by omega)
      · rename_i h3
        have hinf : mag (inf sgn) = 2 ^ 23 * 2 ^ 254 := by cases sgn <;> decide
        rw [hinf]
        have h4 : 2 ^ 253 ≤ 2 ^ s := Nat.pow_le_pow_right (by decide) (by omega)
        have h5 : 2 ^ 23 * 2 ^ 254 = 2 ^ 24 * 2 ^ 253 := by decide
        rw [h5]
        exact Nat.mul_le_mul (by omega) h4

theorem round_mag_le (sgn : Bool) (num den : Nat) (e : Int) (K : Nat) (hK : K < 2 ^ 24)
    (hden : 0 < den)
    (h : (if 0 ≤ e + 149 then num * 2 ^ (e + 149).toNat else num)
      ≤ K * 2 ^ 149 * (if 0 ≤ e + 149 then den else den * 2 ^ (-(e + 149)).toNat)) :
    mag (round sgn num den e) ≤ K * 2 ^ 149 := by
  unfold round
  dsimp only
  generalize ha : (if 0 ≤ e + 149 then num * 2 ^ (e + 149).toNat else num) = a at h ⊢
  generalize hb : (if 0 ≤ e + 149 then den else den * 2 ^ (-(e + 149)).toNat) = b at h ⊢
  have hbpos : 0 < b := by
    rw [← hb]; split
    · exact hden
    · exact Nat.mul_pos hden (Nat.two_pow_pos _)
  have hW : a / b ≤ K * 2 ^ 149 := Nat.div_le_of_le_mul (by rw [Nat.mul_comm]; exact h)
  have hW2 : a / b < 2 ^ 173 := by
    have : K * 2 ^ 149 < 2 ^ 24 * 2 ^ 149 := Nat.mul_lt_mul_of_pos_right hK (Nat.two_pow_pos _)
    have e1 : (2 : Nat) ^ 24 * 2 ^ 149 = 2 ^ 173 := by rw [← Nat.pow_add]
    omega
  have hs : bitlen (a / b) - 24 ≤ 149 := by
    have := bitlenAux_le (a / b) (a / b) 173 hW2
    unfold bitlen; omega
  generalize bitlen (a / b) - 24 = s at hs ⊢
  have hM : roundNE a (b * 2 ^ s) ≤ K * 2 ^ (149 - s) := by
    apply roundNE_le _ _ _ (Nat.mul_pos hbpos (Nat.two_pow_pos _))
    have e2 : K * 2 ^ (149 - s) * (b * 2 ^ s) = K * (2 ^ (149 - s) * 2 ^ s) * b := by ring
    rw [e2, ← Nat.pow_add, Nat.sub_add_cancel hs]
    exact h
  calc mag (pack sgn (roundNE a (b * 2 ^ s)) s)
      ≤ roundNE a (b * 2 ^ s) * 2 ^ s := mag_pack_le _ _ _
    _ ≤ K * 2 ^ (149 - s) * 2 ^ s := Nat.mul_le_mul_right _ hM
    _ = K * 2 ^ 149 := by rw [Nat.mul_assoc, ← Nat.pow_add, Nat.sub_add_cancel hs]

theorem pack_sign (sgn : Bool) (m s : Nat) : (pack sgn m s).sign = sgn := by
  unfold pack ofFields inf
  split
  · rfl
  · split <;> split <;> rfl

theorem pack_isNaN (sgn : Bool) (m s : Nat) : (pack sgn m s).isNaN = false := by
  unfold pack
  split
  · simp [isNaN, ofFields]
  · split
    · split
      · rename_i h
        have : (s + 1) % 256 ≠ 255 := by omega
        simp [isNaN, ofFields, this]
      · simp [isNaN, inf]
    · split
      · simp [isNaN, ofFields]
      · simp [isNaN, inf]

theorem round_sign (sgn : Bool) (num den : Nat) (e : Int) : (round sgn num den e).sign = sgn :=
  pack_sign _ _ _

theorem round_isNaN (sgn : Bool) (num den : Nat) (e : Int) :
    (round sgn num den e).isNaN = false :=
  pack_isNaN _ _ _

theorem mag_inf_of_isInf (v : F32) (h : v.isInf = true) : mag v = 2 ^ 23 * 2 ^ 254 := by
  obtain ⟨s, e, m⟩ := v
  simp only [isInf, Bool.and_eq_true, beq_iff_eq] at h
  have he : e = 255 := Fin.ext h.1
  have hm : m = 0 := Fin.ext h.2
  subst he hm
  cases s <;> decide

theorem isInf_false_of_mag_lt (v : F32) (h : mag v < 2 ^ 23 * 2 ^ 254) : v.isInf = false := by
  cases hv : v.isInf with
  | false => rfl
  | true => rw [mag_inf_of_isInf v hv] at h; omega

theorem mul_finite (a b : F32) (hna : a.isNaN = false) (hnb : b.isNaN = false)
    (hia : a.isInf = false) (hib : b.isInf = false) :
    mul a b = round (xor a.sign b.sign) (sig a * sig b) 1 (ex a + ex b) := by
  unfold mul
  simp [hna, hnb, hia, hib]

theorem mul_mag_le (a b : F32) (K : Nat) (hK : K < 2 ^ 24) (ha : mag a ≤ K * 2 ^ 149)
    (hb : mag b ≤ 2 ^ 149) (hna : a.isNaN = false) (hnb : b.isNaN = false) :
    mag (mul a b) ≤ K * 2 ^ 149 ∧ (mul a b).isNaN = false ∧
      (mul a b).sign = xor a.sign b.sign ∧ (mag b = 0 → mag (mul a b) = 0) := by
  have hia : a.isInf = false := by
    apply isInf_false_of_mag_lt
    have : K * 2 ^ 149 < 2 ^ 24 * 2 ^ 149 := Nat.mul_lt_mul_of_pos_right hK (Nat.two_pow_pos _)
    have : (2 : Nat) ^ 24 * 2 ^ 149 < 2 ^ 23 * 2 ^ 254 := by decide
    omega
  have hib : b.isInf = false := by
    apply isInf_false_of_mag_lt
    have : (2 : Nat) ^ 149 < 2 ^ 23 * 2 ^ 254 := by decide
    omega
  rw [mul_finite a b hna hnb hia hib]
  have key : ∀ K', mag a ≤ K' * 2 ^ 149 →
      (if 0 ≤ ex a + ex b + 149 then sig a * sig b * 2 ^ (ex a + ex b + 149).toNat
        else sig a * sig b)
      ≤ K' * 2 ^ 149 * (if 0 ≤ ex a + ex b + 149 then 1
        else 1 * 2 ^ (-(ex a + ex b + 149)).toNat) := by
    intro K' ha'
    have hprod : sig a * sig b * 2 ^ (sh a + sh b) ≤ K' * 2 ^ 149 * 2 ^ 149 := by
      have := Nat.mul_le_mul ha' hb
      unfold mag at this
      have e1 : sig a * 2 ^ sh a * (sig b * 2 ^ sh b) = sig a * sig b * 2 ^ (sh a + sh b) := by
        rw [Nat.pow_add]; ring
      rw [e1] at this
      exact this
    unfold ex
    split
    · rename_i hpos
      have hge : 149 ≤ sh a + sh b := by omega
      have e2 : ((sh a : Int) - 149 + ((sh b : Int) - 149) + 149).toNat = sh a + sh b - 149 := by
        omega
      rw [e2, Nat.mul_one]
      have e3 : sig a * sig b * 2 ^ (sh a + sh b)
          = sig a * sig b * 2 ^ (sh a + sh b - 149) * 2 ^ 149 := by
        rw [Nat.mul_assoc (sig a * sig b), ← Nat.pow_add, Nat.sub_add_cancel hge]
      rw [e3] at hprod
      exact Nat.le_of_mul_le_mul_right hprod (Nat.two_pow_pos _)
    · rename_i hneg
      have hlt : sh a + sh b < 149 := by omega
      have e2 : (-((sh a : Int) - 149 + ((sh b : Int) - 149) + 149)).toNat
          = 149 - (sh a + sh b) := by omega
      rw [e2, Nat.one_mul]
      have e3 : K' * 2 ^ 149 * 2 ^ 149
          = K' * 2 ^ 149 * 2 ^ (149 - (sh a + sh b)) * 2 ^ (sh a + sh b) := by
        rw [Nat.mul_assoc (K' * 2 ^ 149), ← Nat.pow_add, Nat.sub_add_cancel (le_of_lt hlt)]
      rw [e3] at hprod
      exact Nat.le_of_mul_le_mul_right hprod (Nat.two_pow_pos _)
  refine ⟨round_mag_le _ _ _ _ K hK (by decide) (key K ha), round_isNaN _ _ _ _,
    round_sign _ _ _ _, ?_⟩
  intro hb0
  have hsig : sig b = 0 := by
    unfold mag at hb0
    rcases Nat.mul_eq_zero.mp hb0 with h | h
    · exact h
    · exact absurd h (Nat.ne_of_gt (Nat.two_pow_pos _))
  have h0 := round_mag_le (xor a.sign b.sign) (sig a * sig b) 1 (ex a + ex b) 0 (by decide)
    (by decide) (by rw [hsig]; simp)
  omega

theorem ofInt_natCast (n : Nat) (hn : n < 2 ^ 24) :
    mag (ofInt (n : Int)) ≤ n * 2 ^ 149 ∧ (ofInt (n : Int)).isNaN = false ∧
      (ofInt (n : Int)).sign = false := by
  unfold ofInt
  refine ⟨round_mag_le _ _ _ _ n hn (by decide) ?_, round_isNaN _ _ _ _, ?_⟩
  · simp
  · rw [round_sign]; simp

end F32

/-! ## C4: retained count -/

theorem floor_natCast_div (m d : Nat) (hd : 0 < d) : ⌊(m : ℚ) / d⌋ = ((m / d : Nat) : Int) := by
  have hdq : (0 : ℚ) < (d : ℚ) := by exact_mod_cast hd
  rw [Int.floor_eq_iff]
  constructor
  · rw [le_div_iff₀ hdq]
    have := Nat.div_mul_le_self m d
    exact_mod_cast this
  · rw [div_lt_iff₀ hdq]
    have := Nat.lt_div_mul_add (a := m) hd
    have h2 : m < (m / d + 1) * d := by rw [Nat.add_mul, Nat.one_mul]; exact this
    exact_mod_cast h2

/-- For a float that is non-negative or a zero, `roundf` is rounding to nearest with halves away
from zero, and its integer value is `(2 * mag + 2 ^ 149) / 2 ^ 150`. -/
theorem roundfInt_spec (v : F32) (hs : v.sign = false ∨ F32.mag v = 0) :
    F32.roundfInt v = (((2 * F32.mag v + 2 ^ 149) / 2 ^ 150 : Nat) : Int) ∧
      round_half_away (F32.toRat v) = (((2 * F32.mag v + 2 ^ 149) / 2 ^ 150 : Nat) : Int) := by
  have hpow : ((2 : ℚ) ^ 149) = (((2 : Nat) ^ 149 : Nat) : ℚ) := by norm_cast
  have h150 : (2 : Nat) ^ 150 = 2 * 2 ^ 149 := by decide
  unfold F32.roundfInt round_half_away F32.toRat F32.key
  rw [hpow, h150]
  generalize hD : (2 : Nat) ^ 149 = D
  have hDpos : 0 < D := by rw [← hD]; exact Nat.two_pow_pos 149
  clear hD hpow h150
  have hDq : (0 : ℚ) < (D : ℚ) := by exact_mod_cast hDpos
  have hmain : ⌊((F32.mag v : Nat) : ℚ) / D + 1 / 2⌋
      = (((2 * F32.mag v + D) / (2 * D) : Nat) : Int) := by
    rw [← floor_natCast_div _ _ (by omega)]
    congr 1
    push_cast
    field_simp
    ring
  rcases hs with h | h
  · simp only [h, Bool.false_eq_true, if_false]
    refine ⟨trivial, ?_⟩
    have hnn : (0 : ℚ) ≤ ((F32.mag v : Int) : ℚ) / (D : ℚ) := by
      push_cast; exact div_nonneg (Nat.cast_nonneg _) (Nat.cast_nonneg _)
    rw [if_pos hnn]
    push_cast at hmain ⊢
    exact hmain
  · rw [h] at hmain ⊢
    have hz : (2 * 0 + D) / (2 * D) = 0 := Nat.div_eq_of_lt (by omega)
    rw [hz] at hmain ⊢
    constructor
    · split <;> simp
    · split
      · push_cast; simp only [neg_zero, zero_div, le_refl, if_true]
        simpa using hmain
      · push_cast; simp only [zero_div, le_refl, if_true]
        simpa using hmain

theorem ratio_facts (ratio : F32) (h0 : F32.le F32.zero ratio = true)
    (h1 : F32.le ratio (F32.ofInt 1) = true) :
    ratio.isNaN = false ∧ F32.mag ratio ≤ 2 ^ 149 ∧ (ratio.sign = false ∨ F32.mag ratio = 0) ∧
      F32.lt ratio F32.zero = false ∧ F32.gt ratio (F32.ofInt 1) = false ∧
      (F32.gt ratio F32.zero = true ↔ 0 < F32.mag ratio) := by
  have hone : F32.ofInt 1 = ⟨false, 127, 0⟩ := by decide!
  have hk1 : F32.key ⟨false, 127, 0⟩ = ((2 ^ 149 : Nat) : Int) := by decide!
  have hk0 : F32.key F32.zero = 0 := by decide
  have hz : F32.zero.isNaN = false := by decide
  rw [hone] at h1 ⊢
  simp only [F32.le, Bool.and_eq_true, Bool.not_eq_true', decide_eq_true_eq, hk0, hk1] at h0 h1
  obtain ⟨⟨_, hnan⟩, hge⟩ := h0
  obtain ⟨_, hle⟩ := h1
  have hkey : F32.key ratio = if ratio.sign then -(F32.mag ratio : Int) else (F32.mag ratio : Int) :=
    rfl
  have hone_nan : (⟨false, 127, 0⟩ : F32).isNaN = false := by decide
  generalize (2 : Nat) ^ 149 = D at hk1 hle ⊢
  refine ⟨hnan, ?_, ?_, ?_, ?_, ?_⟩
  · rw [hkey] at hle hge
    cases hs : ratio.sign with
    | false => rw [hs] at hle; simp only [Bool.false_eq_true, if_false] at hle; omega
    | true => rw [hs] at hge; simp only [if_true] at hge; omega
  · rw [hkey] at hge
    cases hs : ratio.sign with
    | false => exact Or.inl rfl
    | true => rw [hs] at hge; simp only [if_true] at hge; right; omega
  · simp only [F32.lt, hnan, hz, hk0, Bool.not_false, Bool.true_and, decide_eq_false_iff_not]
    omega
  · simp only [F32.gt, F32.lt, hnan, hone_nan, hk1, Bool.not_false, Bool.true_and,
      decide_eq_false_iff_not]
    omega
  · simp only [F32.gt, F32.lt, hnan, hz, hk0, Bool.not_false, Bool.true_and, decide_eq_true_eq]
    rw [hkey] at hge ⊢
    split <;> rename_i hs
    · rw [hs] at hge; simp only [if_true] at hge; omega
    · omega

/-- The record `allocate_sparse_array` returns for valid dimensions and a ratio in `[0, 1]`. -/
theorem allocate_sparse_array_spec (nt nf : Nat) (ratio : F32) (hnt : 0 < nt) (hnf : 0 < nf)
    (hnf16 : nf < U16) (h0 : F32.le F32.zero ratio = true)
    (h1 : F32.le ratio (F32.ofInt 1) = true) :
    ∃ k, k ≤ nf ∧ (F32.gt ratio F32.zero = true → 1 ≤ k) ∧
      allocate_sparse_array nt nf ratio = some ⟨nt, nf, k, List.replicate (nt * k % U32) 0,
        List.replicate (nt * k % U32) F32.zero⟩ ∧
      (k : Int) = if F32.gt ratio F32.zero = true
        then clamp_int (round_half_away (F32.toRat (F32.mul (F32.ofInt nf) ratio))) 1 nf
        else 0 := by
  obtain ⟨hnan, hmag, hsign, hlt, hgt, hpos⟩ := ratio_facts ratio h0 h1
  have hnf24 : nf < 2 ^ 24 := by unfold U16 at hnf16; omega
  obtain ⟨hfm, hfn, hfs⟩ := F32.ofInt_natCast nf hnf24
  obtain ⟨hrm, hrn, hrs, hrz⟩ := F32.mul_mag_le (F32.ofInt nf) ratio nf hnf24 hfm hmag hfn hnan
  have hrsign : (F32.mul (F32.ofInt nf) ratio).sign = false ∨
      F32.mag (F32.mul (F32.ofInt nf) ratio) = 0 := by
    rcases hsign with h | h
    · left; rw [hrs, hfs, h]; rfl
    · right; exact hrz h
  obtain ⟨hri, hrh⟩ := roundfInt_spec _ hrsign
  have h150 : (2 : Nat) ^ 150 = 2 * 2 ^ 149 := by decide
  have hr_le : (2 * F32.mag (F32.mul (F32.ofInt nf) ratio) + 2 ^ 149) / 2 ^ 150 ≤ nf := by
    rw [h150]
    have hDpos : 0 < (2 : Nat) ^ 149 := Nat.two_pow_pos 149
    clear hfm hmag h150 hri hrh
    generalize (2 : Nat) ^ 149 = D at hrm hDpos ⊢
    generalize F32.mag (F32.mul (F32.ofInt nf) ratio) = m at hrm ⊢
    have h2 : 2 * m + D < (nf + 1) * (2 * D) := by
      have : (nf + 1) * (2 * D) = 2 * (nf * D) + 2 * D := by ring
      omega
    have := (Nat.div_lt_iff_lt_mul (by omega : 0 < 2 * D)).mpr h2
    omega
  generalize hr : (2 * F32.mag (F32.mul (F32.ofInt nf) ratio) + 2 ^ 149) / 2 ^ 150 = r
    at hri hrh hr_le
  have hu16 : F32.roundfToUInt16 (F32.mul (F32.ofInt nf) ratio) = r := by
    unfold F32.roundfToUInt16
    rw [hrn, hri]
    simp only [Bool.false_eq_true, if_false]
    unfold U16 at hnf16
    omega
  have hvalid : ¬ (nt = 0 ∨ nf = 0) := by omega
  have hr0 : F32.gt ratio F32.zero = false → r = 0 := by
    intro hg
    have hm0 : F32.mag ratio = 0 := by
      rcases Nat.eq_zero_or_pos (F32.mag ratio) with h | h
      · exact h
      · rw [hpos.mpr h] at hg; cases hg
    rw [← hr, hrz hm0]
    decide
  refine ⟨if r = 0 ∧ F32.gt ratio F32.zero = true then 1 else r, ?_, ?_, ?_, ?_⟩
  · split <;> omega
  · intro hg
    by_cases hz : r = 0
    · rw [if_pos ⟨hz, hg⟩]
    · rw [if_neg (fun h => hz h.1)]; omega
  · unfold allocate_sparse_array
    simp only [if_neg hvalid, hlt, hgt, Bool.or_self, Bool.false_eq_true, if_false, hu16]
    rw [if_neg (by omega)]
  · rw [hrh]
    unfold clamp_int
    cases hg : F32.gt ratio F32.zero with
    | false =>
      have := hr0 hg
      simp [this]
    | true =>
      simp only [if_true, and_true]
      split <;> omega

/-- C4: for every `token_count > 0`, `feature_count > 0` (a `uint16_t`) and ratio in `[0, 1]`,
`allocate_sparse_array` returns a record whose `num_sparse_features` is
`clamp(round(feature_count * ratio), 1, feature_count)` when `ratio > 0` and 0 when `ratio = 0`,
where the product is the float product the code forms and `round` rounds to the nearest integer
with halves away from zero. -/
theorem C4_retained_count (num_tokens num_features : Nat) (sparse_ratio : F32)
    (hnt : 0 < num_tokens) (hnf : 0 < num_features)
    (hnf16 : num_features < U16) (h0 : F32.le F32.zero sparse_ratio = true)
    (h1 : F32.le sparse_ratio (F32.ofInt 1) = true) :
    ∃ sa, allocate_sparse_array num_tokens num_features sparse_ratio = some sa ∧
      (sa.num_sparse_features : Int) = if F32.gt sparse_ratio F32.zero = true
        then clamp_int (round_half_away (F32.toRat
          (F32.mul (F32.ofInt num_features) sparse_ratio))) 1 num_features
        else 0 := by
  obtain ⟨k, _, _, hsa, hk⟩ :=
    allocate_sparse_array_spec num_tokens num_features sparse_ratio hnt hnf hnf16 h0 h1
  exact ⟨_, hsa, hk⟩

theorem C4_retained_count_witness :
    ∃ sa, allocate_sparse_array 1 8 ⟨false, 125, 0⟩ = some sa ∧
      (sa.num_sparse_features : Int) = if F32.gt ⟨false, 125, 0⟩ F32.zero = true
        then clamp_int (round_half_away (F32.toRat
          (F32.mul (F32.ofInt (8 : Nat)) ⟨false, 125, 0⟩))) 1 (8 : Nat)
        else 0 :=
  C4_retained_count 1 8 ⟨false, 125, 0⟩ (by decide) (by decide) (by decide) (by decide)
    (by decide!)

/-- C4 counterexample: 3 features and the ratio `13981013 / 2^24` (about 0.8333333). The exact
product is `2.5 - 2^-24`, whose nearest integer is 2; the float product the code forms rounds to
2.5, `roundf` gives 3, and the record stores 3. -/
theorem C4_counterexample :
    F32.le F32.zero ⟨false, 126, 5592405⟩ = true ∧
      F32.le ⟨false, 126, 5592405⟩ (F32.ofInt 1) = true ∧
      F32.gt ⟨false, 126, 5592405⟩ F32.zero = true ∧
      (allocate_sparse_array 1 3 ⟨false, 126, 5592405⟩).map
        (fun sa => sa.num_sparse_features) = some 3 ∧
      F32.toRat ⟨false, 126, 5592405⟩ = 13981013 / 16777216 ∧
      clamp_int (round_half_away (3 * F32.toRat ⟨false, 126, 5592405⟩)) 1 3 = 2 := by
  have hk : F32.key ⟨false, 126, 5592405⟩ = 13981013 * 2 ^ 125 := by decide!
  have hr : F32.toRat ⟨false, 126, 5592405⟩ = 13981013 / 16777216 := by
    rw [toRat_of_key _ _ hk]
    norm_num
  refine ⟨by decide!, by decide!, by decide!, by decide!, hr, ?_⟩
  rw [hr]
  have hfl : round_half_away (3 * (13981013 / 16777216 : ℚ)) = 2 := by
    unfold round_half_away
    rw [if_pos (by norm_num)]
    rw [Int.floor_eq_iff]
    constructor <;> norm_num
  rw [hfl]
  decide

/-! ## Sorting -/

theorem orderedInsert_sorted_of_local {α : Type} (r : α → α → Prop) [DecidableRel r] (a : α)
    (l : List α) (hs : l.Sorted r) (htot : ∀ b ∈ l, r a b ∨ r b a)
    (htr : ∀ b ∈ l, ∀ c ∈ l, r a b → r b c → r a c) : (l.orderedInsert r a).Sorted r := by
  induction l with
  | nil => simp
  | cons b l ih =>
    rw [List.orderedInsert]
    have hs' := List.sorted_cons.mp hs
    split
    · rename_i hab
      apply List.sorted_cons.mpr
      refine ⟨?_, hs⟩
      intro c hc
      rcases List.mem_cons.mp hc with h | h
      · rw [h]; exact hab
      · exact htr b (List.mem_cons_self _ _) c (List.mem_cons_of_mem _ h) hab (hs'.1 c h)
    · rename_i hab
      have hba : r b a := by
        rcases htot b (List.mem_cons_self _ _) with h | h
        · exact absurd h hab
        · exact h
      apply List.sorted_cons.mpr
      constructor
      · intro c hc
        rcases (List.mem_orderedInsert r).mp hc with h | h
        · rw [h]; exact hba
        · exact hs'.1 c h
      · exact ih hs'.2 (fun c hc => htot c (List.mem_cons_of_mem _ hc))
          (fun c hc d hd => htr c (List.mem_cons_of_mem _ hc) d (List.mem_cons_of_mem _ hd))

theorem insertionSort_sorted_of_local {α : Type} (r : α → α → Prop) [DecidableRel r]
    (l : List α) (htot : l.Pairwise (fun a b => r a b ∨ r b a))
    (htr : ∀ a ∈ l, ∀ b ∈ l, ∀ c ∈ l, r a b → r b c → r a c) : (l.insertionSort r).Sorted r := by
  induction l with
  | nil => simp
  | cons a l ih =>
    rw [List.insertionSort]
    have hp := List.pairwise_cons.mp htot
    apply orderedInsert_sorted_of_local
    · exact ih hp.2 (fun b hb c hc d hd => htr b (List.mem_cons_of_mem _ hb) c
        (List.mem_cons_of_mem _ hc) d (List.mem_cons_of_mem _ hd))
    · intro b hb
      exact hp.1 b ((List.mem_insertionSort r).mp hb)
    · intro b hb c hc
      exact htr a (List.mem_cons_self _ _) b
        (List.mem_cons_of_mem _ ((List.mem_insertionSort r).mp hb)) c
        (List.mem_cons_of_mem _ ((List.mem_insertionSort r).mp hc))

/-- A successful `qsort` returns a permutation of its input in ascending comparator order. -/
theorem qsort_spec {α : Type} (cmp : α → α → Int) (l s : List α) (h : qsort cmp l = some s) :
    cmp_consistent cmp l ∧ s.Perm l ∧ s.Sorted (fun a b => cmp a b ≤ 0) := by
  unfold qsort at h
  split at h
  · rename_i hc
    simp only [Option.some.injEq] at h
    subst h
    refine ⟨hc, List.perm_insertionSort _ _, ?_⟩
    apply insertionSort_sorted_of_local
    · apply List.Pairwise.imp _ hc.1
      intro a b hab
      rcases le_or_lt (cmp a b) 0 with h1 | h1
      · exact Or.inl h1
      · right
        have h2 : Int.sign (cmp a b) = 1 := Int.sign_eq_one_of_pos h1
        rw [h2] at hab
        have h3 : Int.sign (cmp b a) = -1 := by omega
        have := Int.sign_eq_neg_one_iff_neg.mp h3
        omega
    · exact hc.2
  · cases h

/-! ## compress: what is stored; C3 -/

/-- Whatever the ratio, a record returned by `allocate_sparse_array` has the requested
dimensions, a retained count of at most the feature count, and zero-filled regions. -/
theorem allocate_sparse_array_shape (nt nf : Nat) (ratio : F32) (sa : sparse_array_t)
    (h : allocate_sparse_array nt nf ratio = some sa) :
    0 < nt ∧ 0 < nf ∧ ∃ k, k ≤ nf ∧ sa = ⟨nt, nf, k, List.replicate (nt * k % U32) 0,
      List.replicate (nt * k % U32) F32.zero⟩ := by
  unfold allocate_sparse_array at h
  split at h
  · cases h
  · rename_i hv
    split at h
    · cases h
    · simp only [Option.some.injEq] at h
      refine ⟨by omega, by omega, _, ?_, h.symm⟩
      split
      · exact le_refl _
      · split <;> omega

/-- The keep loop of one row of `compress`, as a function of the state. -/
theorem compress_keep_loop (x : Nat → F32) (entries : List sort_entry_t) (dense_base base k : Nat)
    (sa : sparse_array_t) (hk : k ≤ entries.length)
    (hsi : base + k ≤ sa.sparse_indices.length) (hv : base + k ≤ sa.values.length)
    (hU : base + k ≤ U32) (hkeq : sa.num_sparse_features = k) :
    ∃ sa', forLoopM sa.num_sparse_features (compress_keep x entries dense_base base) sa
        = some sa' ∧
      sa'.num_tokens = sa.num_tokens ∧ sa'.num_features = sa.num_features ∧
      sa'.num_sparse_features = sa.num_sparse_features ∧
      sa'.sparse_indices.length = sa.sparse_indices.length ∧
      sa'.values.length = sa.values.length ∧
      (∀ p, sa'.sparse_indices[p]? = if base ≤ p ∧ p < base + k
        then (entries[p - base]?).map (fun entry => entry.index) else sa.sparse_indices[p]?) ∧
      (∀ p, sa'.values[p]? = if base ≤ p ∧ p < base + k
        then (entries[p - base]?).map (fun entry => x ((dense_base + entry.index) % U32))
        else sa.values[p]?) := by
  rw [hkeq]
  obtain ⟨sa', h', hP⟩ := forLoopM_total
    (fun i (s : sparse_array_t) =>
      s.num_tokens = sa.num_tokens ∧ s.num_features = sa.num_features ∧
      s.num_sparse_features = sa.num_sparse_features ∧
      s.sparse_indices.length = sa.sparse_indices.length ∧
      s.values.length = sa.values.length ∧
      (∀ p, s.sparse_indices[p]? = if base ≤ p ∧ p < base + i
        then (entries[p - base]?).map (fun entry => entry.index) else sa.sparse_indices[p]?) ∧
      (∀ p, s.values[p]? = if base ≤ p ∧ p < base + i
        then (entries[p - base]?).map (fun entry => x ((dense_base + entry.index) % U32))
        else sa.values[p]?))
    k (compress_keep x entries dense_base base) sa
    ⟨rfl, rfl, rfl, rfl, rfl, fun p => by rw [if_neg]; omega, fun p => by rw [if_neg]; omega⟩
    (by
      intro i hi s ⟨h1, h2, h3, h4, h5, h6, h7⟩
      have hidx : (base + i) % U32 = base + i := Nat.mod_eq_of_lt (by omega)
      have hent : entries[i]? = some (entries.get ⟨i, by omega⟩) := by
        rw [List.getElem?_eq_getElem]; rfl
      unfold compress_keep
      rw [getAt_natCast, hent, hidx]
      simp only [Option.some_bind]
      rw [setAt_natCast, if_pos (by omega)]
      simp only [Option.some_bind]
      rw [setAt_natCast, if_pos (by omega)]
      refine ⟨_, rfl, h1, h2, h3, by simp [h4], by simp [h5], ?_, ?_⟩
      · intro p
        by_cases hp : p = base + i
        · subst hp
          have e1 : base + i - base = i := by omega
          simp only [List.getElem?_set, if_true]
          rw [if_pos (by omega), if_pos (by omega), e1, hent]; rfl
        · simp only [List.getElem?_set, if_neg (Ne.symm hp)]
          rw [h6 p]
          have c1 : (base ≤ p ∧ p < base + i) ↔ (base ≤ p ∧ p < base + (i + 1)) := by omega
          simp only [c1]
      · intro p
        by_cases hp : p = base + i
        · subst hp
          have e1 : base + i - base = i := by omega
          simp only [List.getElem?_set, if_true]
          rw [if_pos (by omega), if_pos (by omega), e1, hent]; rfl
        · simp only [List.getElem?_set, if_neg (Ne.symm hp)]
          rw [h7 p]
          have c1 : (base ≤ p ∧ p < base + i) ↔ (base ≤ p ∧ p < base + (i + 1)) := by omega
          simp only [c1])
  exact ⟨sa', h', hP.1, hP.2.1, by rw [hP.2.2.1, hkeq], hP.2.2.2⟩

theorem mul_lt_U32 (a b : Nat) (ha : a < U16) (hb : b < U16) : a * b < U32 := by
  unfold U16 at ha hb
  unfold U32
  have h1 : a * b ≤ 65535 * 65535 := Nat.mul_le_mul (by omega) (by omega)
  omega

theorem row_slot_lt (t nt j k : Nat) (ht : t < nt) (hj : j < k) : t * k + j < nt * k := by
  have h1 : (t + 1) * k ≤ nt * k := Nat.mul_le_mul_right _ ht
  have h2 : (t + 1) * k = t * k + k := by ring
  omega

theorem mem_row_entries (x : Nat → F32) (nf base : Nat) (e : sort_entry_t) :
    e ∈ row_entries x nf base ↔
      ∃ i, i < nf ∧ e = ⟨i, F32.fabsf (x ((base + i) % U32))⟩ := by
  unfold row_entries
  simp only [List.mem_map, List.mem_range]
  constructor
  · rintro ⟨i, hi, rfl⟩; exact ⟨i, hi, rfl⟩
  · rintro ⟨i, hi, rfl⟩; exact ⟨i, hi, rfl⟩

/-- What a successful `compress` has stored: the dimensions, and for every token the first
`num_sparse_features` positions of the sorted row with the input values at those positions. -/
theorem compress_success (x : Nat → F32) (nt nf : Nat) (ratio : F32) (sa : sparse_array_t)
    (hnt16 : nt < U16) (hnf16 : nf < U16)
    (h : compress (some x) nt nf ratio none = some (0, some sa)) :
    0 < nt ∧ 0 < nf ∧ sa.num_tokens = nt ∧ sa.num_features = nf ∧
      sa.num_sparse_features ≤ nf ∧
      sa.sparse_indices.length = nt * sa.num_sparse_features ∧
      sa.values.length = nt * sa.num_sparse_features ∧
      (∃ sa0, allocate_sparse_array nt nf ratio = some sa0 ∧
        sa0.num_sparse_features = sa.num_sparse_features) ∧
      ∀ t, t < nt →
        cmp_consistent abs_sort_cmp (row_entries x nf (t * nf)) ∧
        ∀ j, j < sa.num_sparse_features →
          sa.sparse_indices[t * sa.num_sparse_features + j]? = (row_order x nf t)[j]? ∧
          sa.values[t * sa.num_sparse_features + j]?
            = ((row_order x nf t)[j]?).map (fun idx => x (t * nf + idx)) := by
  unfold compress at h
  dsimp only at h
  split at h
  · cases h
  · rename_i hv
    cases ha : allocate_sparse_array nt nf ratio with
    | none => rw [ha] at h; cases h
    | some sa0 =>
      rw [ha] at h
      obtain ⟨hnt, hnf, k, hk, hsa0⟩ := allocate_sparse_array_shape nt nf ratio sa0 ha
      have hnk : nt * k < U32 := by
        have := mul_lt_U32 nt nf hnt16 hnf16
        have : nt * k ≤ nt * nf := Nat.mul_le_mul_left _ hk
        omega
      have hmod : nt * k % U32 = nt * k := Nat.mod_eq_of_lt hnk
      rw [hmod] at hsa0
      simp only [Option.map_eq_some', Prod.mk.injEq, true_and, Option.some.injEq] at h
      obtain ⟨s, hs, hs2⟩ := h
      subst hs2
      have hinv := forLoopM_invariant
        (fun t (s : sparse_array_t) =>
          s.num_tokens = nt ∧ s.num_features = nf ∧ s.num_sparse_features = k ∧
          s.sparse_indices.length = nt * k ∧ s.values.length = nt * k ∧
          ∀ t', t' < t →
            cmp_consistent abs_sort_cmp (row_entries x nf (t' * nf)) ∧
            ∀ j, j < k →
              s.sparse_indices[t' * k + j]? = (row_order x nf t')[j]? ∧
              s.values[t' * k + j]?
                = ((row_order x nf t')[j]?).map (fun idx => x (t' * nf + idx)))
        nt (compress_row x nf) sa0
        (by rw [hsa0]; exact ⟨rfl, rfl, rfl, by simp, by simp, fun t' ht' => by omega⟩)
        (by
          intro t ht s s' ⟨h1, h2, h3, h4, h5, h6⟩ hrow
          have htn : t * nf < U32 := by
            have := mul_lt_U32 t nf (by omega) hnf16; exact this
          have hdb : t * nf % U32 = t * nf := Nat.mod_eq_of_lt htn
          have hslot : t * k + k ≤ nt * k := by
            have h1 : (t + 1) * k ≤ nt * k := Nat.mul_le_mul_right _ ht
            have h2 : (t + 1) * k = t * k + k := by ring
            omega
          have hsb : t * k % U32 = t * k := Nat.mod_eq_of_lt (by omega)
          unfold compress_row at hrow
          simp only [h3, hdb, hsb] at hrow
          cases hq : qsort abs_sort_cmp (row_entries x nf (t * nf)) with
          | none => rw [hq] at hrow; cases hrow
          | some entries =>
            rw [hq] at hrow
            simp only [Option.some_bind] at hrow
            obtain ⟨hcons, hperm, _⟩ := qsort_spec _ _ _ hq
            have hent : entries = (row_entries x nf (t * nf)).insertionSort
                (fun a b => abs_sort_cmp a b ≤ 0) := by
              unfold qsort at hq
              rw [if_pos hcons] at hq
              exact (Option.some.inj hq).symm
            have hlen : entries.length = nf := by
              rw [hperm.length_eq]; simp [row_entries]
            obtain ⟨sa', hsa', g1, g2, g3, g4, g5, g6, g7⟩ := compress_keep_loop x entries
              (t * nf) (t * k) k s (by omega) (by omega) (by omega) (by omega) h3
            rw [h3] at hsa'
            rw [hsa'] at hrow
            cases hrow
            refine ⟨by rw [g1, h1], by rw [g2, h2], by rw [g3, h3], by rw [g4, h4],
              by rw [g5, h5], ?_⟩
            intro t' ht'
            have horder : row_order x nf t = entries.map (fun entry => entry.index) := by
              unfold row_order; rw [hdb, hent]
            rcases Nat.lt_succ_iff_lt_or_eq.mp ht' with hlt | heq
            · refine ⟨(h6 t' hlt).1, ?_⟩
              intro j hj
              have hout : ¬ (t * k ≤ t' * k + j ∧ t' * k + j < t * k + k) := by
                have := row_slot_lt t' t j k hlt hj
                omega
              rw [g6, g7, if_neg hout, if_neg hout]
              exact (h6 t' hlt).2 j hj
            · subst heq
              refine ⟨hcons, ?_⟩
              intro j hj
              have hin : t' * k ≤ t' * k + j ∧ t' * k + j < t' * k + k := by omega
              have e1 : t' * k + j - t' * k = j := by omega
              rw [g6, g7, if_pos hin, if_pos hin, e1, horder, List.getElem?_map]
              refine ⟨rfl, ?_⟩
              have hj' : j < entries.length := by omega
              rw [List.getElem?_eq_getElem hj']
              simp only [Option.map_some', Option.some.injEq]
              have hmem : entries[j] ∈ row_entries x nf (t' * nf) :=
                hperm.subset (List.getElem_mem _)
              obtain ⟨i, hi, hei⟩ := (mem_row_entries x nf (t' * nf) _).mp hmem
              have hidx : entries[j].index = i := by rw [hei]
              rw [hidx]
              have : t' * nf + i < U32 := by
                have := mul_lt_U32 (t' + 1) nf (by omega) hnf16
                have h2 : (t' + 1) * nf = t' * nf + nf := by ring
                omega
              rw [Nat.mod_eq_of_lt this])
        s hs
      obtain ⟨h1, h2, h3, h4, h5, h6⟩ := hinv
      refine ⟨hnt, hnf, h1, h2, by rw [h3]; exact hk, by rw [h4, h3], by rw [h5, h3],
        ⟨sa0, rfl, by rw [hsa0, h3]⟩, ?_⟩
      rw [h3]
      exact h6

theorem row_entries_map_index (x : Nat → F32) (nf base : Nat) :
    (row_entries x nf base).map (fun entry => entry.index) = List.range nf := by
  unfold row_entries
  rw [List.map_map]
  exact List.map_id'' (fun _ => rfl) _

theorem row_order_perm (x : Nat → F32) (nf t : Nat) :
    (row_order x nf t).Perm (List.range nf) := by
  unfold row_order
  have h := (List.perm_insertionSort (fun a b => abs_sort_cmp a b ≤ 0)
    (row_entries x nf (t * nf % U32))).map (fun entry => entry.index)
  rw [row_entries_map_index] at h
  exact h

theorem row_order_length (x : Nat → F32) (nf t : Nat) : (row_order x nf t).length = nf := by
  rw [(row_order_perm x nf t).length_eq, List.length_range]

theorem row_order_lt (x : Nat → F32) (nf t f : Nat) (h : f ∈ row_order x nf t) : f < nf :=
  List.mem_range.mp ((row_order_perm x nf t).subset h)

/-- Between two entries of a row with different indices, the comparator's `≤ 0` is the order
"larger magnitude first, then ascending index". -/
theorem abs_sort_cmp_spec (x : Nat → F32) (base : Nat) (a b : sort_entry_t)
    (ha : a.abs_val = F32.fabsf (x (base + a.index)))
    (hb : b.abs_val = F32.fabsf (x (base + b.index)))
    (hne : a.index ≠ b.index) (hc : abs_sort_cmp a b ≤ 0) :
    spec_before x base a.index b.index := by
  unfold abs_sort_cmp at hc
  unfold spec_before
  rw [← ha, ← hb]
  cases hn : F32.ne a.abs_val b.abs_val with
  | true =>
    rw [hn] at hc
    simp only [if_true] at hc
    cases hg : F32.gt a.abs_val b.abs_val with
    | true => exact Or.inl rfl
    | false => rw [hg] at hc; simp at hc
  | false =>
    rw [hn] at hc
    simp only [Bool.false_eq_true, if_false] at hc
    right
    exact ⟨rfl, by omega⟩

/-- With a consistent comparator the sorted row lists the positions by decreasing magnitude,
ties by ascending index. -/
theorem row_order_sorted (x : Nat → F32) (nf t : Nat) (htn : t * nf + nf ≤ U32)
    (hc : cmp_consistent abs_sort_cmp (row_entries x nf (t * nf))) :
    (row_order x nf t).Pairwise (spec_before x (t * nf)) := by
  have hdb : t * nf % U32 = t * nf := by
    rcases Nat.eq_zero_or_pos nf with h | h
    · subst h; simp
    · exact Nat.mod_eq_of_lt (by omega)
  have hq : qsort abs_sort_cmp (row_entries x nf (t * nf))
      = some ((row_entries x nf (t * nf)).insertionSort (fun a b => abs_sort_cmp a b ≤ 0)) := by
    unfold qsort; rw [if_pos hc]
  obtain ⟨_, hperm, hsorted⟩ := qsort_spec _ _ _ hq
  have hnodup : (row_order x nf t).Nodup :=
    (row_order_perm x nf t).nodup_iff.mpr (List.nodup_range nf)
  unfold row_order at hnodup ⊢
  rw [hdb] at hnodup ⊢
  rw [List.pairwise_map]
  have hnd : ((row_entries x nf (t * nf)).insertionSort (fun a b => abs_sort_cmp a b ≤ 0)).Pairwise
      (fun a b => a.index ≠ b.index) := by
    have := List.pairwise_map.mp hnodup
    exact this
  have hboth := List.Pairwise.and hsorted hnd
  apply List.Pairwise.imp_of_mem _ hboth
  intro a b hma hmb ⟨hab, hne⟩
  obtain ⟨i, hi, hai⟩ := (mem_row_entries x nf (t * nf) a).mp (hperm.subset hma)
  obtain ⟨j, hj, hbj⟩ := (mem_row_entries x nf (t * nf) b).mp (hperm.subset hmb)
  have hmi : (t * nf + i) % U32 = t * nf + i := Nat.mod_eq_of_lt (by omega)
  have hmj : (t * nf + j) % U32 = t * nf + j := Nat.mod_eq_of_lt (by omega)
  apply abs_sort_cmp_spec x (t * nf) a b _ _ hne hab
  · rw [hai, hmi]
  · rw [hbj, hmj]

/-- C3: in the sparse array returned by `compress`, for every token `t` and every two consecutive
entries `j`, `j + 1` of its segment, either `|values[j]| > |values[j+1]|`, or
`|values[j]| = |values[j+1]|` and `sparse_indices[j] < sparse_indices[j+1]`. -/
theorem C3_segment_order (x : Nat → F32) (nt nf : Nat) (ratio : F32) (sa : sparse_array_t)
    (hnt16 : nt < U16) (hnf16 : nf < U16)
    (h : compress (some x) nt nf ratio none = some (0, some sa)) (t j : Nat) (ht : t < nt)
    (hj : j + 1 < sa.num_sparse_features) :
    F32.gt (F32.fabsf (sa.values.getD (t * sa.num_sparse_features + j) F32.zero))
        (F32.fabsf (sa.values.getD (t * sa.num_sparse_features + (j + 1)) F32.zero)) = true ∨
      (F32.ne (F32.fabsf (sa.values.getD (t * sa.num_sparse_features + j) F32.zero))
          (F32.fabsf (sa.values.getD (t * sa.num_sparse_features + (j + 1)) F32.zero)) = false ∧
        sa.sparse_indices.getD (t * sa.num_sparse_features + j) 0
          < sa.sparse_indices.getD (t * sa.num_sparse_features + (j + 1)) 0) := by
  obtain ⟨hnt, hnf, h1, h2, hk, h4, h5, _, hrows⟩ := compress_success x nt nf ratio sa hnt16 hnf16 h
  obtain ⟨hcons, hseg⟩ := hrows t ht
  have hlen := row_order_length x nf t
  have htn : t * nf + nf ≤ U32 := by
    have := mul_lt_U32 (t + 1) nf (by omega) hnf16
    have h2 : (t + 1) * nf = t * nf + nf := by ring
    omega
  have hsorted := row_order_sorted x nf t htn hcons
  have hj0 : j < (row_order x nf t).length := by omega
  have hj1 : j + 1 < (row_order x nf t).length := by omega
  have hp := List.pairwise_iff_getElem.mp hsorted j (j + 1) hj0 hj1 (by omega)
  obtain ⟨a0, a1⟩ := hseg j (by omega)
  obtain ⟨b0, b1⟩ := hseg (j + 1) hj
  rw [List.getElem?_eq_getElem hj0] at a0 a1
  rw [List.getElem?_eq_getElem hj1] at b0 b1
  simp only [List.getD_eq_getElem?_getD, a0, a1, b0, b1, Option.map_some', Option.getD_some]
  exact hp


theorem C3_segment_order_witness :
    F32.gt (F32.fabsf (scenario_b_sparse.values.getD
          (0 * scenario_b_sparse.num_sparse_features + 0) F32.zero))
        (F32.fabsf (scenario_b_sparse.values.getD
          (0 * scenario_b_sparse.num_sparse_features + (0 + 1)) F32.zero)) = true ∨
      (F32.ne (F32.fabsf (scenario_b_sparse.values.getD
            (0 * scenario_b_sparse.num_sparse_features + 0) F32.zero))
          (F32.fabsf (scenario_b_sparse.values.getD
            (0 * scenario_b_sparse.num_sparse_features + (0 + 1)) F32.zero)) = false ∧
        scenario_b_sparse.sparse_indices.getD (0 * scenario_b_sparse.num_sparse_features + 0) 0
          < scenario_b_sparse.sparse_indices.getD
            (0 * scenario_b_sparse.num_sparse_features + (0 + 1)) 0) :=
  C3_segment_order scenario_b_input 1 8 ⟨false, 125, 0⟩ scenario_b_sparse (by decide) (by decide)
    (by decide!) 0 0 (by decide) (by decide)

/-! ## decompress: what is written -/

/-- The scatter loop of one token of `decompress`, cell by cell. -/
theorem decompress_row_spec (sa : sparse_array_t) (nt nf k t : Nat) (out : Nat → F32)
    (hnt16 : nt < U16) (hnf16 : nf < U16) (ht : t < nt) (hk : k < U16)
    (h2 : sa.num_features = nf) (h3 : sa.num_sparse_features = k)
    (h4 : sa.sparse_indices.length = nt * k) (h5 : sa.values.length = nt * k)
    (hidx : ∀ p, p < nt * k → sa.sparse_indices.getD p 0 < nf) :
    ∃ out', decompress_row sa t out = some out' ∧
      ∀ p, out' p = if t * nf ≤ p ∧ p < t * nf + nf
        then forLoop k (fun j acc =>
          if sa.sparse_indices.getD (t * k + j) 0 = p - t * nf
          then sa.values.getD (t * k + j) F32.zero else acc) (out p)
        else out p := by
  have htn : t * nf + nf ≤ U32 := by
    have := mul_lt_U32 (t + 1) nf (by omega) hnf16
    have h2 : (t + 1) * nf = t * nf + nf := by ring
    omega
  have hdb : t * nf % U32 = t * nf := by
    have := mul_lt_U32 t nf (by omega) hnf16
    exact Nat.mod_eq_of_lt this
  have hslot : t * k + k ≤ nt * k := by
    have h1 : (t + 1) * k ≤ nt * k := Nat.mul_le_mul_right _ ht
    have h2 : (t + 1) * k = t * k + k := by ring
    omega
  have hnk : nt * k < U32 := mul_lt_U32 nt k hnt16 hk
  have hsb : t * k % U32 = t * k := Nat.mod_eq_of_lt (by omega)
  unfold decompress_row
  simp only [h2, h3, hdb, hsb]
  obtain ⟨out', ho, hP⟩ := forLoopM_total
    (fun i (o : Nat → F32) => ∀ p, o p = if t * nf ≤ p ∧ p < t * nf + nf
        then forLoop i (fun j acc =>
          if sa.sparse_indices.getD (t * k + j) 0 = p - t * nf
          then sa.values.getD (t * k + j) F32.zero else acc) (out p)
        else out p)
    k (decompress_scatter sa (t * nf) (t * k)) out
    (fun p => by simp [forLoop])
    (by
      intro i hi o ho
      have hm : (t * k + i) % U32 = t * k + i := Nat.mod_eq_of_lt (by omega)
      have hlt : t * k + i < nt * k := by omega
      have hsi : sa.sparse_indices[t * k + i]? = some (sa.sparse_indices.getD (t * k + i) 0) := by
        rw [List.getD_eq_getElem?_getD, List.getElem?_eq_getElem (by omega)]; rfl
      have hsv : sa.values[t * k + i]? = some (sa.values.getD (t * k + i) F32.zero) := by
        rw [List.getD_eq_getElem?_getD, List.getElem?_eq_getElem (by omega)]; rfl
      have hb := hidx (t * k + i) hlt
      have hd : (t * nf + sa.sparse_indices.getD (t * k + i) 0) % U32
          = t * nf + sa.sparse_indices.getD (t * k + i) 0 := Nat.mod_eq_of_lt (by omega)
      unfold decompress_scatter
      rw [hm, getAt_natCast, getAt_natCast, hsi, hsv]
      simp only [Option.some_bind, Option.map_some', hd]
      refine ⟨_, rfl, ?_⟩
      intro p
      unfold store
      by_cases hp : p = t * nf + sa.sparse_indices.getD (t * k + i) 0
      · have e1 : sa.sparse_indices.getD (t * k + i) 0 = p - t * nf := by omega
        rw [if_pos hp, if_pos (by omega)]
        simp only [forLoop]
        rw [if_pos e1]
      · rw [if_neg hp, ho p]
        by_cases hr : t * nf ≤ p ∧ p < t * nf + nf
        · have e1 : ¬ sa.sparse_indices.getD (t * k + i) 0 = p - t * nf := by omega
          rw [if_pos hr, if_pos hr]
          simp only [forLoop]
          rw [if_neg e1]
        · rw [if_neg hr, if_neg hr])
  exact ⟨out', ho, hP⟩

/-- `decompress` on a record whose stored indices are below the feature count: it succeeds and
each cell of the `token_count * feature_count` outputs holds `row_lookup`; the rest of the buffer
is untouched. -/
theorem decompress_spec (sa : sparse_array_t) (nt nf k : Nat) (out0 : Nat → F32)
    (hnt16 : nt < U16) (hnf16 : nf < U16) (hnf : 0 < nf) (hk : k < U16)
    (h1 : sa.num_tokens = nt) (h2 : sa.num_features = nf) (h3 : sa.num_sparse_features = k)
    (h4 : sa.sparse_indices.length = nt * k) (h5 : sa.values.length = nt * k)
    (hidx : ∀ p, p < nt * k → sa.sparse_indices.getD p 0 < nf) :
    ∃ y, decompress (some sa) (some out0) = some (0, some y) ∧
      ∀ p, y p = if p < nt * nf then row_lookup sa (p / nf) (p % nf) else out0 p := by
  have hnn : nt * nf % U32 = nt * nf := Nat.mod_eq_of_lt (mul_lt_U32 nt nf hnt16 hnf16)
  obtain ⟨y, hy, hP⟩ := forLoopM_total
    (fun t (o : Nat → F32) => ∀ p, o p = if p < t * nf then row_lookup sa (p / nf) (p % nf)
      else if p < nt * nf then F32.zero else out0 p)
    nt (decompress_row sa) (fun j => if j < nt * nf then F32.zero else out0 j)
    (fun p => by simp)
    (by
      intro t ht o ho
      obtain ⟨o', ho', hv⟩ := decompress_row_spec sa nt nf k t o hnt16 hnf16 ht hk h2 h3 h4 h5 hidx
      refine ⟨o', ho', ?_⟩
      intro p
      rw [hv p]
      have hk1 : (t + 1) * nf = t * nf + nf := by ring
      have hle : (t + 1) * nf ≤ nt * nf := Nat.mul_le_mul_right _ ht
      by_cases hr : t * nf ≤ p ∧ p < t * nf + nf
      · have hdiv : p / nf = t := by
          apply Nat.div_eq_of_lt_le
          · exact hr.1
          · rw [hk1]; exact hr.2
        have hmod : p % nf = p - t * nf := by
          have := Nat.div_add_mod p nf
          rw [hdiv] at this
          have e : nf * t = t * nf := Nat.mul_comm _ _
          omega
        have hop : o p = F32.zero := by
          rw [ho p, if_neg (by omega), if_pos (by omega)]
        rw [if_pos hr, if_pos (by omega), hop]
        unfold row_lookup
        rw [h3, hdiv, hmod]
      · rw [if_neg hr, ho p]
        by_cases hlt : p < t * nf
        · have h' : p < (t + 1) * nf := by omega
          rw [if_pos hlt, if_pos h']
        · have h' : ¬ p < (t + 1) * nf := by omega
          rw [if_neg hlt, if_neg h'])
  refine ⟨y, ?_, ?_⟩
  · unfold decompress
    simp only [h1, h2, hnn, hy, Option.map_some']
  · intro p
    rw [hP p]
    by_cases hlt : p < nt * nf
    · rw [if_pos hlt, if_pos hlt]
    · rw [if_neg hlt, if_neg hlt, if_neg hlt]

/-! ## Selection correctness; C2 -/


theorem abs_sort_cmp_cases (a b : sort_entry_t) (ha : a.abs_val.isNaN = false)
    (hb : b.abs_val.isNaN = false) :
    abs_sort_cmp a b = if F32.key a.abs_val = F32.key b.abs_val
      then (a.index : Int) - (b.index : Int)
      else if F32.key b.abs_val < F32.key a.abs_val then -1 else 1 := by
  unfold abs_sort_cmp F32.ne F32.gt F32.lt
  rw [ha, hb]
  by_cases h : F32.key a.abs_val = F32.key b.abs_val
  · simp [h]
  · by_cases h2 : F32.key b.abs_val < F32.key a.abs_val <;> simp [h, h2]

/-- On entries without NaN magnitudes the comparator `abs_sort_cmp` is consistent. -/
theorem abs_sort_cmp_consistent (l : List sort_entry_t)
    (h : ∀ a ∈ l, a.abs_val.isNaN = false) : cmp_consistent abs_sort_cmp l := by
  constructor
  · apply List.pairwise_of_forall_mem_list
    intro a ha b hb
    rw [abs_sort_cmp_cases a b (h a ha) (h b hb), abs_sort_cmp_cases b a (h b hb) (h a ha)]
    by_cases he : F32.key a.abs_val = F32.key b.abs_val
    · rw [if_pos he, if_pos he.symm, ← Int.sign_neg]
      congr 1; ring
    · rw [if_neg he, if_neg (Ne.symm he)]
      by_cases h2 : F32.key b.abs_val < F32.key a.abs_val
      · have h3 : ¬ F32.key a.abs_val < F32.key b.abs_val := by omega
        rw [if_pos h2, if_neg h3]; rfl
      · have h3 : F32.key a.abs_val < F32.key b.abs_val := by omega
        rw [if_neg h2, if_pos h3]; rfl
  · intro a ha b hb c hc
    rw [abs_sort_cmp_cases a b (h a ha) (h b hb), abs_sort_cmp_cases b c (h b hb) (h c hc),
      abs_sort_cmp_cases a c (h a ha) (h c hc)]
    intro h1 h2
    split_ifs at h1 h2 ⊢ <;> omega

theorem spec_before_not_nan (x : Nat → F32) (base a b : Nat)
    (h : spec_before x base a b ∨ spec_before x base b a) :
    (F32.fabsf (x (base + a))).isNaN = false := by
  unfold spec_before at h
  simp only [F32.gt, F32.lt, F32.ne, Bool.and_eq_true, Bool.not_eq_true', decide_eq_true_eq,
    Bool.or_eq_false_iff, decide_eq_false_iff_not, ne_eq, not_not] at h
  rcases h with (h | h) | (h | h)
  · exact h.1.2
  · exact h.1.1.1
  · exact h.1.1
  · exact h.1.1.2

/-- A row that has an ordering by descending magnitude with ascending index as tie-break gives
`qsort` a consistent comparator. -/
theorem cmp_consistent_of_order (x : Nat → F32) (nf base : Nat) (hU : base + nf ≤ U32)
    (p : List Nat) (hp : p.Perm (List.range nf)) (hs : p.Pairwise (spec_before x base)) :
    cmp_consistent abs_sort_cmp (row_entries x nf base) := by
  by_cases hnf : nf ≤ 1
  · have hall : ∀ a ∈ row_entries x nf base, ∀ b ∈ row_entries x nf base, a = b := by
      intro a ha b hb
      obtain ⟨i, hi, rfl⟩ := (mem_row_entries x nf base a).mp ha
      obtain ⟨j, hj, rfl⟩ := (mem_row_entries x nf base b).mp hb
      have : i = j := by omega
      rw [this]
    constructor
    · have hlen : (row_entries x nf base).length ≤ 1 := by simp [row_entries]; exact hnf
      match hl : row_entries x nf base, hlen with
      | [], _ => exact List.Pairwise.nil
      | [a], _ => exact List.pairwise_singleton _ _
    · intro a ha b hb c hc h1 _
      rw [← hall a ha b hb, ← hall a ha c hc] at *
      exact h1
  · apply abs_sort_cmp_consistent
    intro a ha
    obtain ⟨i, hi, rfl⟩ := (mem_row_entries x nf base a).mp ha
    have hsym : p.Pairwise (fun a b => spec_before x base a b ∨ spec_before x base b a) :=
      hs.imp fun h => Or.inl h
    have hforall := hsym.forall (fun a b h => h.symm)
    have hmem : ∀ j, j < nf → j ∈ p := fun j hj => hp.symm.subset (List.mem_range.mpr hj)
    have hne : i ≠ (if i = 0 then 1 else 0) := by split <;> omega
    have hlt : (if i = 0 then 1 else 0) < nf := by split <;> omega
    have := spec_before_not_nan x base i _ (hforall (hmem i hi) (hmem _ hlt) hne)
    show (F32.fabsf (x ((base + i) % U32))).isNaN = false
    rw [Nat.mod_eq_of_lt (by omega)]
    exact this

theorem fabsf_isNaN (v : F32) : (F32.fabsf v).isNaN = v.isNaN := rfl

/-- When every row's comparator answers are consistent, `compress` on valid dimensions and a
ratio the allocator accepts returns 0 and a record. -/
theorem compress_total (x : Nat → F32) (nt nf : Nat) (ratio : F32) (sa0 : sparse_array_t)
    (hnt16 : nt < U16) (hnf16 : nf < U16)
    (ha : allocate_sparse_array nt nf ratio = some sa0)
    (hcons : ∀ t, t < nt → cmp_consistent abs_sort_cmp (row_entries x nf (t * nf))) :
    ∃ sa, compress (some x) nt nf ratio none = some (0, some sa) := by
  obtain ⟨hnt, hnf, k, hk, hsa0⟩ := allocate_sparse_array_shape nt nf ratio sa0 ha
  have hnk : nt * k < U32 := by
    have := mul_lt_U32 nt nf hnt16 hnf16
    have : nt * k ≤ nt * nf := Nat.mul_le_mul_left _ hk
    omega
  have hmod : nt * k % U32 = nt * k := Nat.mod_eq_of_lt hnk
  rw [hmod] at hsa0
  obtain ⟨s, hs, _⟩ := forLoopM_total
    (fun _ (s : sparse_array_t) => s.num_sparse_features = k ∧
      s.sparse_indices.length = nt * k ∧ s.values.length = nt * k)
    nt (compress_row x nf) sa0
    (by rw [hsa0]; exact ⟨rfl, by simp, by simp⟩)
    (by
      intro t ht s ⟨h3, h4, h5⟩
      have hdb : t * nf % U32 = t * nf := Nat.mod_eq_of_lt (mul_lt_U32 t nf (by omega) hnf16)
      have hslot : t * k + k ≤ nt * k := by
        have h1 : (t + 1) * k ≤ nt * k := Nat.mul_le_mul_right _ ht
        have h2 : (t + 1) * k = t * k + k := by ring
        omega
      have hsb : t * k % U32 = t * k := Nat.mod_eq_of_lt (by omega)
      unfold compress_row
      simp only [h3, hdb, hsb]
      unfold qsort
      rw [if_pos (hcons t ht)]
      simp only [Option.some_bind]
      have hlen : ((row_entries x nf (t * nf)).insertionSort
          (fun a b => abs_sort_cmp a b ≤ 0)).length = nf := by
        rw [List.length_insertionSort]; simp [row_entries]
      obtain ⟨sa', hsa', _, _, g3, g4, g5, _, _⟩ := compress_keep_loop x
        ((row_entries x nf (t * nf)).insertionSort (fun a b => abs_sort_cmp a b ≤ 0))
        (t * nf) (t * k) k s (by omega) (by omega) (by omega) (by omega) h3
      rw [h3] at hsa'
      exact ⟨sa', hsa', by rw [g3, h3], by rw [g4, h4], by rw [g5, h5]⟩)
  refine ⟨s, ?_⟩
  unfold compress
  dsimp only
  rw [if_neg (by omega), ha]
  simp only [hs, Option.map_some']


theorem spec_before_asymm (x : Nat → F32) (base a b : Nat) (h : spec_before x base a b) :
    ¬ spec_before x base b a := by
  unfold spec_before at *
  simp only [F32.gt, F32.lt, F32.ne, Bool.and_eq_true, Bool.not_eq_true', decide_eq_true_eq,
    Bool.or_eq_false_iff, decide_eq_false_iff_not, ne_eq, not_not] at *
  intro h'
  rcases h with h | h <;> rcases h' with h' | h' <;> omega

theorem take_succ_mem (l : List Nat) (i f : Nat) (hi : i < l.length) :
    f ∈ l.take (i + 1) ↔ f ∈ l.take i ∨ l.getD i 0 = f := by
  rw [List.take_succ, List.mem_append, List.getD_eq_getElem?_getD,
    List.getElem?_eq_getElem hi]
  simp [eq_comm]

/-- For a record whose segment of token `t` holds positions `order[j]` with the values
`v (order[j])`, the cell `(t, f)` decodes to `v f` when `f` is among the first `k` positions and
to `+0.0` otherwise. -/
theorem row_lookup_eq (sa : sparse_array_t) (t f : Nat) (order : List Nat) (v : Nat → F32)
    (hk : sa.num_sparse_features ≤ order.length)
    (hi : ∀ j, j < sa.num_sparse_features →
      sa.sparse_indices.getD (t * sa.num_sparse_features + j) 0 = order.getD j 0)
    (hv : ∀ j, j < sa.num_sparse_features →
      sa.values.getD (t * sa.num_sparse_features + j) F32.zero = v (order.getD j 0)) :
    row_lookup sa t f = if f ∈ order.take sa.num_sparse_features then v f else F32.zero := by
  unfold row_lookup
  generalize sa.num_sparse_features = k at hk hi hv
  have key : ∀ i, i ≤ k → forLoop i (fun j acc =>
      if sa.sparse_indices.getD (t * k + j) 0 = f
      then sa.values.getD (t * k + j) F32.zero else acc) F32.zero
      = if f ∈ order.take i then v f else F32.zero := by
    intro i
    induction i with
    | zero => intro _; simp [forLoop]
    | succ m ih =>
      intro hm
      simp only [forLoop]
      rw [ih (by omega), hi m (by omega), hv m (by omega)]
      by_cases he : order.getD m 0 = f
      · rw [if_pos he, if_pos ((take_succ_mem order m f (by omega)).mpr (Or.inr he)), he]
      · rw [if_neg he]
        by_cases hmem : f ∈ order.take m
        · rw [if_pos hmem, if_pos ((take_succ_mem order m f (by omega)).mpr (Or.inl hmem))]
        · rw [if_neg hmem, if_neg]
          intro hc
          rcases (take_succ_mem order m f (by omega)).mp hc with h | h
          · exact hmem h
          · exact he h
  exact key k (le_refl _)

/-- Every index a successful `compress` has stored is below the feature count. -/
theorem compress_indices_lt (x : Nat → F32) (nt nf : Nat) (ratio : F32) (sa : sparse_array_t)
    (hnt16 : nt < U16) (hnf16 : nf < U16)
    (hc : compress (some x) nt nf ratio none = some (0, some sa)) :
    ∀ p, p < nt * sa.num_sparse_features → sa.sparse_indices.getD p 0 < nf := by
  obtain ⟨_, _, _, _, _, _, _, _, hrows⟩ := compress_success x nt nf ratio sa hnt16 hnf16 hc
  intro p hp
  have hkpos : 0 < sa.num_sparse_features := by
    rcases Nat.eq_zero_or_pos sa.num_sparse_features with h | h
    · rw [h] at hp; simp at hp
    · exact h
  have hpt : p / sa.num_sparse_features < nt := by
    rw [Nat.div_lt_iff_lt_mul hkpos]; exact hp
  have hpj : p % sa.num_sparse_features < sa.num_sparse_features := Nat.mod_lt _ hkpos
  have hpe : p / sa.num_sparse_features * sa.num_sparse_features + p % sa.num_sparse_features
      = p := by
    rw [Nat.mul_comm]; exact Nat.div_add_mod p _
  have hlen := row_order_length x nf (p / sa.num_sparse_features)
  have hget := ((hrows _ hpt).2 _ hpj).1
  rw [hpe] at hget
  rw [List.getD_eq_getElem?_getD, hget, List.getElem?_eq_getElem (by omega)]
  exact row_order_lt x nf (p / sa.num_sparse_features) _ (List.getElem_mem _)

/-- After a successful `compress` and `decompress`, each cell of token `t` holds the input value
when its position is among the first retained positions of the sorted row, and `+0.0`
otherwise. -/
theorem compress_decompress (x : Nat → F32) (nt nf : Nat) (ratio : F32) (sa : sparse_array_t)
    (out0 y : Nat → F32) (hnt16 : nt < U16) (hnf16 : nf < U16)
    (hc : compress (some x) nt nf ratio none = some (0, some sa))
    (hd : decompress (some sa) (some out0) = some (0, some y)) (t f : Nat) (ht : t < nt)
    (hf : f < nf) :
    y (t * nf + f) = if f ∈ (row_order x nf t).take sa.num_sparse_features
      then x (t * nf + f) else F32.zero := by
  obtain ⟨hnt, hnf, h1, h2, hk, h4, h5, _, hrows⟩ :=
    compress_success x nt nf ratio sa hnt16 hnf16 hc
  have hgetI : ∀ t', t' < nt → ∀ j, j < sa.num_sparse_features →
      sa.sparse_indices.getD (t' * sa.num_sparse_features + j) 0 = (row_order x nf t').getD j 0 := by
    intro t' ht' j hj
    rw [List.getD_eq_getElem?_getD, ((hrows t' ht').2 j hj).1, ← List.getD_eq_getElem?_getD]
  have hgetV : ∀ t', t' < nt → ∀ j, j < sa.num_sparse_features →
      sa.values.getD (t' * sa.num_sparse_features + j) F32.zero
        = x (t' * nf + (row_order x nf t').getD j 0) := by
    intro t' ht' j hj
    have hlen := row_order_length x nf t'
    rw [List.getD_eq_getElem?_getD, ((hrows t' ht').2 j hj).2,
      List.getD_eq_getElem?_getD, List.getElem?_eq_getElem (by omega)]
    rfl
  have hidx := compress_indices_lt x nt nf ratio sa hnt16 hnf16 hc
  obtain ⟨y', hy', hv⟩ := decompress_spec sa nt nf sa.num_sparse_features out0 hnt16 hnf16 hnf
    (lt_of_le_of_lt hk hnf16)
    h1 h2 rfl h4 h5 hidx
  rw [hy'] at hd
  simp only [Option.some.injEq, Prod.mk.injEq, true_and] at hd
  subst hd
  have hlt : t * nf + f < nt * nf := row_slot_lt t nt f nf ht hf
  have hdiv : (t * nf + f) / nf = t := by
    apply Nat.div_eq_of_lt_le
    · omega
    · have : (t + 1) * nf = t * nf + nf := by ring
      omega
  have hmod : (t * nf + f) % nf = f := by
    rw [Nat.add_comm, Nat.add_mul_mod_self_right, Nat.mod_eq_of_lt hf]
  rw [hv, if_pos hlt, hdiv, hmod]
  rw [row_lookup_eq sa t f (row_order x nf t) (fun i => x (t * nf + i))
    (by rw [row_order_length]; exact hk) (hgetI t ht) (hgetV t ht)]

/-- A row without NaN has an ordering by descending magnitude with ascending index as
tie-break. -/
theorem row_order_exists (x : Nat → F32) (nf t : Nat) (htn : t * nf + nf ≤ U32)
    (hx : ∀ i, i < nf → (x (t * nf + i)).isNaN = false) :
    ∃ p : List Nat, p.Perm (List.range nf) ∧ p.Pairwise (spec_before x (t * nf)) := by
  refine ⟨row_order x nf t, row_order_perm x nf t, row_order_sorted x nf t htn ?_⟩
  apply abs_sort_cmp_consistent
  intro a hmem
  obtain ⟨i, hi, rfl⟩ := (mem_row_entries x nf (t * nf) a).mp hmem
  show (F32.fabsf (x ((t * nf + i) % U32))).isNaN = false
  rw [fabsf_isNaN, Nat.mod_eq_of_lt (by omega)]
  exact hx i hi

/-- C2: for every matrix `x` (tokens by features, both > 0) and every ratio in `[0, 1]`, where
every row has an ordering of its positions by descending `|x[t][f]|` with ascending index as
tie-break, `compress` returns a record whose `retained_count` is the count
`allocate_sparse_array` derives from the ratio (at least 1 and at most the feature count for a
positive ratio, 0 for ratio 0), and `decompress` of it returns `y` such that, for every row `t`
and every such ordering `p` of the row, `y[t][f] = x[t][f]` for the positions `f` among the first
`retained_count` of `p` and `y[t][f] = +0.0` for every other position. -/
theorem C2_selection (x : Nat → F32) (nt nf : Nat) (ratio : F32) (out0 : Nat → F32)
    (hnt : 0 < nt) (hnf : 0 < nf) (hnt16 : nt < U16) (hnf16 : nf < U16)
    (h0 : F32.le F32.zero ratio = true) (h1 : F32.le ratio (F32.ofInt 1) = true)
    (hord : ∀ t, t < nt →
      ∃ p : List Nat, p.Perm (List.range nf) ∧ p.Pairwise (spec_before x (t * nf))) :
    ∃ sa y, compress (some x) nt nf ratio none = some (0, some sa) ∧
      ((sa.num_sparse_features : Int) = if F32.gt ratio F32.zero = true
        then clamp_int (round_half_away (F32.toRat (F32.mul (F32.ofInt nf) ratio))) 1 nf
        else 0) ∧
      decompress (some sa) (some out0) = some (0, some y) ∧
      ∀ t, t < nt →
        ∀ p : List Nat, p.Perm (List.range nf) → p.Pairwise (spec_before x (t * nf)) →
          ∀ f, f < nf → y (t * nf + f)
            = if f ∈ p.take sa.num_sparse_features then x (t * nf + f) else F32.zero := by
  obtain ⟨k, _, _, ha, hkv⟩ := allocate_sparse_array_spec nt nf ratio hnt hnf hnf16 h0 h1
  have hrow : ∀ t, t < nt → t * nf + nf ≤ U32 := by
    intro t ht
    have := mul_lt_U32 (t + 1) nf (by omega) hnf16
    have h2 : (t + 1) * nf = t * nf + nf := by ring
    omega
  have hcons : ∀ t, t < nt → cmp_consistent abs_sort_cmp (row_entries x nf (t * nf)) := by
    intro t ht
    obtain ⟨p, hp, hs⟩ := hord t ht
    exact cmp_consistent_of_order x nf (t * nf) (hrow t ht) p hp hs
  obtain ⟨sa, hc⟩ := compress_total x nt nf ratio _ hnt16 hnf16 ha hcons
  obtain ⟨_, _, e1, e2, hk, e4, e5, ⟨a, haa, hak⟩, hrows⟩ :=
    compress_success x nt nf ratio sa hnt16 hnf16 hc
  have hcount : sa.num_sparse_features = k := by
    rw [ha] at haa
    cases haa
    exact hak.symm
  have hidx := compress_indices_lt x nt nf ratio sa hnt16 hnf16 hc
  obtain ⟨y, hd, _⟩ := decompress_spec sa nt nf sa.num_sparse_features out0 hnt16 hnf16 hnf
    (lt_of_le_of_lt hk hnf16)
    e1 e2 rfl e4 e5 hidx
  refine ⟨sa, y, hc, by rw [hcount]; exact hkv, hd, ?_⟩
  intro t ht p hp hps f hf
  haveI : IsAntisymm Nat (spec_before x (t * nf)) :=
    ⟨fun a b hab hba => absurd hba (spec_before_asymm x _ a b hab)⟩
  have heq : p = row_order x nf t :=
    List.eq_of_perm_of_sorted (hp.trans (row_order_perm x nf t).symm) hps
      (row_order_sorted x nf t (hrow t ht) (hrows t ht).1)
  rw [heq]
  exact compress_decompress x nt nf ratio sa out0 y hnt16 hnf16 hc hd t f ht hf

theorem C2_selection_witness :
    compress (some scenario_b_input) 1 8 ⟨false, 125, 0⟩ none = some (0, some scenario_b_sparse) ∧
      scenario_b_sparse.num_sparse_features = 2 ∧
      decompress (some scenario_b_sparse) (some fun _ => F32.zero)
        = some (0, some (decompressed scenario_b_sparse)) ∧
      (∀ f, f < 8 → decompressed scenario_b_sparse f
        = if f ∈ [4, 7] then scenario_b_input f else F32.zero) ∧
      ∃ sa y, compress (some scenario_b_input) 1 8 ⟨false, 125, 0⟩ none = some (0, some sa) ∧
        ((sa.num_sparse_features : Int) = if F32.gt ⟨false, 125, 0⟩ F32.zero = true
          then clamp_int (round_half_away (F32.toRat
            (F32.mul (F32.ofInt (8 : Nat)) ⟨false, 125, 0⟩))) 1 (8 : Nat)
          else 0) ∧
        decompress (some sa) (some fun _ => F32.zero) = some (0, some y) ∧
        ∀ t, t < 1 →
          ∀ p : List Nat, p.Perm (List.range 8) →
            p.Pairwise (spec_before scenario_b_input (t * 8)) →
            ∀ f, f < 8 → y (t * 8 + f)
              = if f ∈ p.take sa.num_sparse_features then scenario_b_input (t * 8 + f)
                else F32.zero :=
  ⟨by decide!, rfl, by rfl, by decide!,
    C2_selection scenario_b_input 1 8 ⟨false, 125, 0⟩ (fun _ => F32.zero) (by decide) (by decide)
      (by decide) (by decide) (by decide) (by decide!)
      (fun t ht => by
        obtain rfl : t = 0 := by omega
        exact ⟨[4, 7, 0, 6, 2, 5, 1, 3], by decide, by decide!⟩)⟩

/-! ## Serialization round trip; C10 -/


theorem ofBits_toBits (v : F32) : F32.ofBits (F32.toBits v) = v := by
  obtain ⟨s, ⟨e, he⟩, ⟨m, hm⟩⟩ := v
  unfold F32.ofBits F32.toBits
  simp only [F32.mk.injEq, Fin.mk.injEq]
  refine ⟨?_, ?_, ?_⟩
  · cases s
    · simp only [Bool.false_eq_true, if_false, decide_eq_false_iff_not]; omega
    · simp only [if_true, decide_eq_true_eq]; omega
  · cases s
    · simp only [Bool.false_eq_true, if_false]; omega
    · simp only [if_true]; omega
  · cases s
    · simp only [Bool.false_eq_true, if_false]; omega
    · simp only [if_true]; omega

theorem toBits_lt (v : F32) : F32.toBits v < 4294967296 := by
  obtain ⟨s, ⟨e, he⟩, ⟨m, hm⟩⟩ := v
  unfold F32.toBits
  cases s
  · simp only [Bool.false_eq_true, if_false]; omega
  · simp only [if_true]; omega

theorem u16s_bytes_length (l : List Nat) : (u16s_bytes l).length = 2 * l.length := by
  induction l with
  | nil => rfl
  | cons v l ih => simp only [u16s_bytes, List.length_cons, ih]; omega

theorem f32s_bytes_length (l : List F32) : (f32s_bytes l).length = 4 * l.length := by
  induction l with
  | nil => rfl
  | cons v l ih => simp only [f32s_bytes, List.length_cons, ih]; omega

theorem read_u16s_bytes (l rest : List Nat) (h : ∀ v ∈ l, v < 65536) :
    read_u16s l.length (u16s_bytes l ++ rest) = l := by
  induction l with
  | nil => cases rest <;> rfl
  | cons v l ih =>
    have hv := h v (List.mem_cons_self _ _)
    simp only [u16s_bytes, List.length_cons, List.cons_append, read_u16s, List.append_eq]
    rw [ih fun w hw => h w (List.mem_cons_of_mem _ hw)]
    congr 1
    omega

theorem read_f32s_bytes (l : List F32) (rest : List Nat) :
    read_f32s l.length (f32s_bytes l ++ rest) = l := by
  induction l with
  | nil => cases rest <;> rfl
  | cons v l ih =>
    have hv := toBits_lt v
    simp only [f32s_bytes, List.length_cons, List.cons_append, read_f32s, List.append_eq]
    rw [ih]
    congr 1
    have : F32.toBits v % 256 + 256 * (F32.toBits v / 256 % 256) +
        65536 * (F32.toBits v / 65536 % 256) + 16777216 * (F32.toBits v / 16777216 % 256)
        = F32.toBits v := by omega
    rw [this]
    exact ofBits_toBits v


theorem record_bytes_eq (sa : sparse_array_t) (addr : Nat) :
    ∃ hdr : List Nat, hdr.length = 24 ∧
      hdr.getD 0 0 = sa.num_tokens % 256 ∧ hdr.getD 1 0 = sa.num_tokens / 256 % 256 ∧
      hdr.getD 2 0 = sa.num_features % 256 ∧ hdr.getD 3 0 = sa.num_features / 256 % 256 ∧
      hdr.getD 4 0 = sa.num_sparse_features % 256 ∧
      hdr.getD 5 0 = sa.num_sparse_features / 256 % 256 ∧
      record_bytes sa addr = hdr ++ (u16s_bytes sa.sparse_indices ++ f32s_bytes sa.values) := by
  refine ⟨u16s_bytes [sa.num_tokens, sa.num_features, sa.num_sparse_features] ++ [0, 0] ++
    ptr_bytes (addr + sizeof_sparse_array_t) ++
    ptr_bytes (addr + sizeof_sparse_array_t +
      2 * (sa.num_tokens * sa.num_sparse_features % U32)), ?_, ?_, ?_, ?_, ?_, ?_, ?_, ?_⟩
  all_goals first
    | (unfold record_bytes; simp only [List.append_assoc])
    | simp [u16s_bytes, ptr_bytes]

theorem getD_append_left (hdr rest : List Nat) (i : Nat) (h : i < hdr.length) :
    (hdr ++ rest).getD i 0 = hdr.getD i 0 := by
  rw [List.getD_eq_getElem?_getD, List.getD_eq_getElem?_getD, List.getElem?_append_left h]

/-- Loading the memory block of a well-formed record gives the record back. -/
theorem load_record_bytes (sa : sparse_array_t) (addr : Nat)
    (h1 : sa.num_tokens < U16) (h2 : sa.num_features < U16) (h3 : sa.num_sparse_features < U16)
    (h4 : sa.sparse_indices.length = sa.num_tokens * sa.num_sparse_features)
    (h5 : sa.values.length = sa.num_tokens * sa.num_sparse_features)
    (h6 : ∀ v ∈ sa.sparse_indices, v < U16) :
    (record_bytes sa addr).length = get_sparse_array_size (some sa) ∧
      load_sparse_array_from_buffer (record_bytes sa addr) (get_sparse_array_size (some sa))
        = some sa := by
  obtain ⟨hdr, hlen, g0, g1, g2, g3, g4, g5, hrec⟩ := record_bytes_eq sa addr
  have hse : sa.num_tokens * sa.num_sparse_features < U32 := mul_lt_U32 _ _ h1 h3
  have hmod : sa.num_tokens * sa.num_sparse_features % U32
      = sa.num_tokens * sa.num_sparse_features := Nat.mod_eq_of_lt hse
  have hsize : get_sparse_array_size (some sa)
      = 24 + 6 * (sa.num_tokens * sa.num_sparse_features) := by
    unfold get_sparse_array_size sizeof_sparse_array_t
    simp only [hmod]
    unfold U32 at hse
    unfold U64
    omega
  have hrlen : (record_bytes sa addr).length
      = 24 + 6 * (sa.num_tokens * sa.num_sparse_features) := by
    rw [hrec, List.length_append, List.length_append, u16s_bytes_length, f32s_bytes_length,
      hlen, h4, h5]
    omega
  refine ⟨by rw [hrlen, hsize], ?_⟩
  unfold load_sparse_array_from_buffer
  rw [if_neg (by rw [hrlen, hsize]; omega), if_neg (by rw [hsize]; unfold sizeof_sparse_array_t; omega)]
  have htake : (record_bytes sa addr).take (get_sparse_array_size (some sa))
      = record_bytes sa addr := List.take_of_length_le (by rw [hrlen, hsize])
  dsimp only
  rw [htake, hrec]
  unfold U16 at h1 h2 h3
  have e0 : (hdr ++ (u16s_bytes sa.sparse_indices ++ f32s_bytes sa.values)).getD 0 0
      + 256 * (hdr ++ (u16s_bytes sa.sparse_indices ++ f32s_bytes sa.values)).getD 1 0
      = sa.num_tokens := by
    rw [getD_append_left _ _ 0 (by omega), getD_append_left _ _ 1 (by omega), g0, g1]; omega
  have e1 : (hdr ++ (u16s_bytes sa.sparse_indices ++ f32s_bytes sa.values)).getD 2 0
      + 256 * (hdr ++ (u16s_bytes sa.sparse_indices ++ f32s_bytes sa.values)).getD 3 0
      = sa.num_features := by
    rw [getD_append_left _ _ 2 (by omega), getD_append_left _ _ 3 (by omega), g2, g3]; omega
  have e2 : (hdr ++ (u16s_bytes sa.sparse_indices ++ f32s_bytes sa.values)).getD 4 0
      + 256 * (hdr ++ (u16s_bytes sa.sparse_indices ++ f32s_bytes sa.values)).getD 5 0
      = sa.num_sparse_features := by
    rw [getD_append_left _ _ 4 (by omega), getD_append_left _ _ 5 (by omega), g4, g5]; omega
  rw [e0, e1, e2, hmod]
  have d1 : (hdr ++ (u16s_bytes sa.sparse_indices ++ f32s_bytes sa.values)).drop
      sizeof_sparse_array_t = u16s_bytes sa.sparse_indices ++ f32s_bytes sa.values :=
    List.drop_left' hlen
  have d2 : (hdr ++ (u16s_bytes sa.sparse_indices ++ f32s_bytes sa.values)).drop
      (sizeof_sparse_array_t + 2 * (sa.num_tokens * sa.num_sparse_features))
      = f32s_bytes sa.values := by
    rw [← List.drop_drop, d1]
    exact List.drop_left' (by rw [u16s_bytes_length, h4])
  rw [d1, d2]
  have r1 := read_u16s_bytes sa.sparse_indices (f32s_bytes sa.values) h6
  have r2 := read_f32s_bytes sa.values []
  rw [h4] at r1
  rw [h5, List.append_nil] at r2
  rw [r1, r2]

/-- C10: for every sparse array `sa` returned by `compress`, the memory block of the record has
`get_sparse_array_size(sa)` bytes, and `load_sparse_array_from_buffer` applied to these bytes
returns a record with the same token count, feature count, retained count, index sequence and
value sequence, so `decompress` of the loaded record equals `decompress` of `sa`. -/
theorem C10_sparse_round_trip (x : Nat → F32) (nt nf : Nat) (ratio : F32) (sa : sparse_array_t)
    (addr : Nat) (hnt16 : nt < U16) (hnf16 : nf < U16)
    (h : compress (some x) nt nf ratio none = some (0, some sa)) :
    (record_bytes sa addr).length = get_sparse_array_size (some sa) ∧
      ∃ r, load_sparse_array_from_buffer (record_bytes sa addr) (get_sparse_array_size (some sa))
          = some r ∧
        r.num_tokens = sa.num_tokens ∧ r.num_features = sa.num_features ∧
        r.num_sparse_features = sa.num_sparse_features ∧
        r.sparse_indices = sa.sparse_indices ∧ r.values = sa.values ∧
        ∀ out, decompress (some r) out = decompress (some sa) out := by
  obtain ⟨_, _, e1, e2, hk, e4, e5, _, _⟩ := compress_success x nt nf ratio sa hnt16 hnf16 h
  have hidx := compress_indices_lt x nt nf ratio sa hnt16 hnf16 h
  have h6 : ∀ v ∈ sa.sparse_indices, v < U16 := by
    intro v hv
    obtain ⟨p, hp, rfl⟩ := List.getElem_of_mem hv
    have := hidx p (by rw [← e4]; exact hp)
    rw [List.getD_eq_getElem?_getD, List.getElem?_eq_getElem hp] at this
    exact lt_trans this hnf16
  obtain ⟨hlen, hload⟩ := load_record_bytes sa addr (by rw [e1]; exact hnt16)
    (by rw [e2]; exact hnf16) (by omega) (by rw [e4, e1]) (by rw [e5, e1]) h6
  exact ⟨hlen, sa, hload, rfl, rfl, rfl, rfl, rfl, fun _ => rfl⟩

theorem C10_sparse_round_trip_witness :
    (record_bytes scenario_b_sparse 4096).length = get_sparse_array_size (some scenario_b_sparse) ∧
      ∃ r, load_sparse_array_from_buffer (record_bytes scenario_b_sparse 4096)
          (get_sparse_array_size (some scenario_b_sparse)) = some r ∧
        r.num_tokens = scenario_b_sparse.num_tokens ∧
        r.num_features = scenario_b_sparse.num_features ∧
        r.num_sparse_features = scenario_b_sparse.num_sparse_features ∧
        r.sparse_indices = scenario_b_sparse.sparse_indices ∧
        r.values = scenario_b_sparse.values ∧
        ∀ out, decompress (some r) out = decompress (some scenario_b_sparse) out :=
  C10_sparse_round_trip scenario_b_input 1 8 ⟨false, 125, 0⟩ scenario_b_sparse 4096 (by decide)
    (by decide) (by decide!)

/-! ## Serialized sizes; C11, C12, C13 -/

/-- C11: for every q8_0 record whose persisted layout
`[u8 tag][3 x u64][f32 x block_count][i8 x element_count]` has a size that a `size_t` can hold,
`get_quantized_array_size` returns `1 + 3*8 + 4*num_blocks + num_elements`, the size of that
layout. -/
theorem C11_q8_0_size {F : Type} (qa : quantized_array_t F) (hty : qa.quantized_type = 0)
    (hfit : 1 + 3 * 8 + 4 * qa.num_blocks + qa.num_elements < U64) :
    get_quantized_array_size (some qa) = 1 + 3 * 8 + 4 * qa.num_blocks + qa.num_elements ∧
      get_quantized_array_size (some qa) = q8_0_persisted_size qa.num_blocks qa.num_elements := by
  have h : get_quantized_array_size (some qa)
      = 1 + 3 * 8 + 4 * qa.num_blocks + qa.num_elements := by
    unfold get_quantized_array_size get_q8_0_quantized_array_size
    simp only [hty, if_true]
    have e : 1 + 3 * 8 + qa.num_blocks * 4 + qa.num_elements * 1
        = 1 + 3 * 8 + 4 * qa.num_blocks + qa.num_elements := by ring
    rw [e, Nat.mod_eq_of_lt hfit]
  refine ⟨h, ?_⟩
  rw [h]
  unfold q8_0_persisted_size
  ring

theorem C11_q8_0_size_witness :
    get_quantized_array_size (some ties_encoded)
        = 1 + 3 * 8 + 4 * ties_encoded.num_blocks + ties_encoded.num_elements ∧
      get_quantized_array_size (some ties_encoded)
        = q8_0_persisted_size ties_encoded.num_blocks ties_encoded.num_elements :=
  C11_q8_0_size ties_encoded (by decide) (by decide)

/-- What `get_quantized_array_size` returns for a q4_0 record: the full in-memory header
`sizeof(quantized_array_t)`, the scales and the packed bytes. -/
theorem get_q4_0_size_eq {F : Type} (qa : quantized_array_t F) (hty : qa.quantized_type = 1)
    (hfit : 48 + 4 * qa.num_blocks + (qa.num_elements + 1) / 2 < U64)
    (hn : qa.num_elements + 1 < U64) :
    get_quantized_array_size (some qa) = 48 + 4 * qa.num_blocks + (qa.num_elements + 1) / 2 := by
  unfold get_quantized_array_size get_q4_0_quantized_array_size sizeof_quantized_array_t
  simp only [hty, if_true, one_ne_zero, if_false]
  rw [Nat.mod_eq_of_lt hn]
  have e : 48 + qa.num_blocks * 4 + (qa.num_elements + 1) / 2 * 1
      = 48 + 4 * qa.num_blocks + (qa.num_elements + 1) / 2 := by ring
  rw [e, Nat.mod_eq_of_lt hfit]

/-- C12, at the q4_0 record of `[3.0, 1.5, -3.0]` (one block, two packed bytes):
`get_quantized_array_size` returns 54, which is `sizeof(quantized_array_t) = 48` plus 4 plus 2,
while the persisted layout with the 25-byte header has `1 + 3*8 + 4*1 + 2 = 31` bytes. -/
theorem C12_q4_0_size_counts_struct :
    quantize f32Ops (some q4_input) 3 1 none = some (0, some q4_encoded) ∧
      get_quantized_array_size (some q4_encoded) = 54 ∧
      1 + 3 * 8 + 4 * q4_encoded.num_blocks + (q4_encoded.num_elements + 1) / 2 = 31 ∧
      q4_0_persisted_size q4_encoded.num_blocks q4_encoded.num_elements = 31 := by
  refine ⟨by decide!, by decide, by decide, by decide⟩

/-- C13: for every sparse record with `uint16_t` header fields, `get_sparse_array_size` returns
`sizeof(sparse_array_t) + 6 * num_tokens * num_sparse_features`, which is
`24 + 6 * num_tokens * num_sparse_features`: the size of the record's memory block, with the
whole header structure. -/
theorem C13_sparse_size (sa : sparse_array_t) (h1 : sa.num_tokens < U16)
    (h3 : sa.num_sparse_features < U16) :
    get_sparse_array_size (some sa)
        = sizeof_sparse_array_t + 6 * (sa.num_tokens * sa.num_sparse_features) ∧
      get_sparse_array_size (some sa) = 24 + 6 * (sa.num_tokens * sa.num_sparse_features) ∧
      get_sparse_array_size (some sa)
        = sparse_persisted_size sa.num_tokens sa.num_sparse_features + 18 := by
  have hse : sa.num_tokens * sa.num_sparse_features < U32 := mul_lt_U32 _ _ h1 h3
  have h : get_sparse_array_size (some sa)
      = 24 + 6 * (sa.num_tokens * sa.num_sparse_features) := by
    unfold get_sparse_array_size sizeof_sparse_array_t
    simp only [Nat.mod_eq_of_lt hse]
    unfold U32 at hse
    unfold U64
    omega
  refine ⟨h, h, ?_⟩
  rw [h]
  unfold sparse_persisted_size
  omega

theorem C13_sparse_size_witness :
    get_sparse_array_size (some scenario_b_sparse)
        = sizeof_sparse_array_t
          + 6 * (scenario_b_sparse.num_tokens * scenario_b_sparse.num_sparse_features) ∧
      get_sparse_array_size (some scenario_b_sparse)
        = 24 + 6 * (scenario_b_sparse.num_tokens * scenario_b_sparse.num_sparse_features) ∧
      get_sparse_array_size (some scenario_b_sparse)
        = sparse_persisted_size scenario_b_sparse.num_tokens
            scenario_b_sparse.num_sparse_features + 18 :=
  C13_sparse_size scenario_b_sparse (by decide) (by decide)

/-- C13 counterexample: the record of Scenario B (1 token, 2 retained features).
`get_sparse_array_size` returns 36, while the persisted layout of three `u16`, two `u16` indices
and two `f32` values has `6 + 6 * 1 * 2 = 18` bytes. -/
theorem C13_counterexample :
    compress (some scenario_b_input) 1 8 ⟨false, 125, 0⟩ none = some (0, some scenario_b_sparse) ∧
      get_sparse_array_size (some scenario_b_sparse) = 36 ∧
      6 + 6 * scenario_b_sparse.num_tokens * scenario_b_sparse.num_sparse_features = 18 ∧
      sparse_persisted_size scenario_b_sparse.num_tokens scenario_b_sparse.num_sparse_features
        = 18 := by
  refine ⟨by decide!, by decide, by decide, by decide⟩

/-! ## Failure conditions of the quantization codec; C14, C15, C17 -/

/-- The calls `quantize` rejects: it returns 1 and leaves the slot as it was. -/
theorem quantize_invalid {F : Type} (ops : FloatOps F) (x : Option (Nat → F)) (n ty : Nat)
    (slot : Option (quantized_array_t F))
    (h : x = none ∨ n = 0 ∨ slot ≠ none ∨ (ty ≠ 0 ∧ ty ≠ 1)) :
    quantize ops x n ty slot = some (1, slot) := by
  unfold quantize
  cases x with
  | none => rfl
  | some x =>
    cases slot with
    | some s => rfl
    | none =>
      rcases h with h | h | h | h
      · cases h
      · simp only [h, if_true]
      · exact absurd rfl h
      · by_cases hn : n = 0
        · simp only [hn, if_true]
        · simp only [hn, h.1, h.2, if_false]

/-- C14: the outcomes of `quantize` (allocation taken to succeed, `num_elements + 31` below
`2 ^ 64`). It returns the failure signal exactly when `values` is absent, or `n = 0`, or the slot
is populated, or the format is neither 0 nor 1. On the other calls it returns 0 with a record in
the slot when the format is q8_0 and the byte count `48 + 4 * num_blocks + n` of the record is
below `2 ^ 64`, or q4_0 with at most `2 ^ 32` elements; for q4_0 with more than `2 ^ 32` elements
the `int` index of the packed byte is negative and the call has no defined result, and neither
has a q8_0 call whose byte count wraps. -/
theorem C14_quantize_outcomes {F : Type} (ops : FloatOps F) (x : Option (Nat → F)) (n ty : Nat)
    (slot : Option (quantized_array_t F)) (hU : n + 31 < U64) :
    ((∃ s, quantize ops x n ty slot = some (1, s)) ↔
        (x = none ∨ n = 0 ∨ slot ≠ none ∨ (ty ≠ 0 ∧ ty ≠ 1))) ∧
      (x ≠ none → n ≠ 0 → slot = none →
        ((ty = 0 ∧ sizeof_quantized_array_t + (n + 32 - 1) / 32 * 4 + n < U64) ∨
          (ty = 1 ∧ n ≤ 2 ^ 32)) →
        ∃ q, quantize ops x n ty slot = some (0, some q)) ∧
      (x ≠ none → slot = none → ty = 1 → 2 ^ 32 < n → quantize ops x n ty slot = none) ∧
      (x ≠ none → n ≠ 0 → slot = none → ty = 0 →
        U64 ≤ sizeof_quantized_array_t + (n + 32 - 1) / 32 * 4 + n →
        quantize ops x n ty slot = none) := by
  have hvalid : x ≠ none → n ≠ 0 → slot = none →
      ((ty = 0 ∧ sizeof_quantized_array_t + (n + 32 - 1) / 32 * 4 + n < U64) ∨
        (ty = 1 ∧ n ≤ 2 ^ 32)) →
      ∃ q, quantize ops x n ty slot = some (0, some q) := by
    intro hx hn hs hty
    obtain ⟨x, rfl⟩ := Option.ne_none_iff_exists'.mp hx
    subst hs
    rcases hty with ⟨rfl, hT⟩ | ⟨rfl, h32⟩
    · obtain ⟨q, hq, _⟩ := quantize_q8_total ops x n (by omega) hU hT
      exact ⟨q, hq⟩
    · obtain ⟨q, hq, _⟩ := quantize_q4_total ops x n (by omega) h32
      exact ⟨q, hq⟩
  have hub : x ≠ none → slot = none → ty = 1 → 2 ^ 32 < n → quantize ops x n ty slot = none := by
    intro hx hs hty h32
    obtain ⟨x, rfl⟩ := Option.ne_none_iff_exists'.mp hx
    subst hs hty
    exact quantize_q4_none ops x n h32 hU
  have hwrap : x ≠ none → n ≠ 0 → slot = none → ty = 0 →
      U64 ≤ sizeof_quantized_array_t + (n + 32 - 1) / 32 * 4 + n →
      quantize ops x n ty slot = none := by
    intro hx hn hs hty hT
    obtain ⟨x, rfl⟩ := Option.ne_none_iff_exists'.mp hx
    subst hs hty
    exact quantize_q8_none ops x n (by omega) hU hT
  refine ⟨⟨?_, fun h => ⟨slot, quantize_invalid ops x n ty slot h⟩⟩, hvalid, hub, hwrap⟩
  rintro ⟨s, hs⟩
  by_contra hnot
  simp only [not_or, not_and, ne_eq, not_not] at hnot
  obtain ⟨hx, hn, hslot, hty⟩ := hnot
  by_cases h0 : ty = 0
  · by_cases hT : sizeof_quantized_array_t + (n + 32 - 1) / 32 * 4 + n < U64
    · obtain ⟨q, hq⟩ := hvalid hx hn hslot (Or.inl ⟨h0, hT⟩)
      rw [hq] at hs; cases hs
    · rw [hwrap hx hn hslot h0 (by omega)] at hs; cases hs
  · have h1 : ty = 1 := hty h0
    by_cases h32 : n ≤ 2 ^ 32
    · obtain ⟨q, hq⟩ := hvalid hx hn hslot (Or.inr ⟨h1, h32⟩)
      rw [hq] at hs; cases hs
    · rw [hub hx hslot h1 (by omega)] at hs; cases hs

theorem C14_quantize_outcomes_witness :
    2 ^ 32 + 1 + 31 < U64 ∧
      quantize f32Ops (some fun _ => F32.zero) (2 ^ 32 + 1) 1 none = none :=
  ⟨by decide, (C14_quantize_outcomes f32Ops (some fun _ => F32.zero) (2 ^ 32 + 1) 1 none
    (by decide)).2.2.1 (by simp) rfl rfl (by decide)⟩

/-- A return value 0 of `quantize` comes with a record in the slot. -/
theorem quantize_zero_slot {F : Type} (ops : FloatOps F) (x : Nat → F) (n ty : Nat)
    (s : Option (quantized_array_t F)) (h : quantize ops (some x) n ty none = some (0, s)) :
    ∃ qa, s = some qa := by
  unfold quantize at h
  dsimp only at h
  split at h
  · cases h
  · split at h
    · split at h
      · cases h
      · cases h
      · simp only [Option.map_eq_some', Prod.mk.injEq, true_and, Option.some.injEq] at h
        obtain ⟨qa, _, hqa⟩ := h
        exact ⟨qa, hqa.symm⟩
    · split at h
      · split at h
        · cases h
        · cases h
        · simp only [Option.map_eq_some', Prod.mk.injEq, true_and, Option.some.injEq] at h
          obtain ⟨qa, _, hqa⟩ := h
          exact ⟨qa, hqa.symm⟩
      · cases h

/-- C15: `dequantize` returns the failure signal exactly when the record is absent, or the
output buffer is absent, or the format tag is neither 0 nor 1, and then the buffer is as it was.
On the record a successful `quantize` left in the slot it returns 0 with an output buffer. -/
theorem C15_dequantize_failure {F : Type} (ops : FloatOps F)
    (q : Option (quantized_array_t F)) (out : Option (Nat → F)) :
    ((∃ o, dequantize ops q out = some (1, o)) ↔
        (q = none ∨ out = none ∨
          ∃ qa, q = some qa ∧ qa.quantized_type ≠ 0 ∧ qa.quantized_type ≠ 1)) ∧
      (∀ o, dequantize ops q out = some (1, o) → o = out) ∧
      (∀ x n ty, n + 31 < U64 → quantize ops (some x) n ty none = some (0, q) →
        ∀ out0, ∃ y, dequantize ops q (some out0) = some (0, some y)) := by
  have hret : ∀ o, dequantize ops q out = some (1, o) →
      o = out ∧ (q = none ∨ out = none ∨
        ∃ qa, q = some qa ∧ qa.quantized_type ≠ 0 ∧ qa.quantized_type ≠ 1) := by
    intro o h
    unfold dequantize at h
    cases q with
    | none => simp only [Option.some.injEq, Prod.mk.injEq, true_and] at h; exact ⟨h.symm, Or.inl rfl⟩
    | some qa =>
      cases out with
      | none =>
        simp only [Option.some.injEq, Prod.mk.injEq, true_and] at h
        exact ⟨h.symm, Or.inr (Or.inl rfl)⟩
      | some out =>
        dsimp only at h
        by_cases h0 : qa.quantized_type = 0
        · rw [if_pos h0] at h
          simp only [Option.map_eq_some', Prod.mk.injEq] at h
          obtain ⟨_, _, hc, _⟩ := h
          cases hc
        · rw [if_neg h0] at h
          by_cases h1 : qa.quantized_type = 1
          · rw [if_pos h1] at h
            simp only [Option.map_eq_some', Prod.mk.injEq] at h
            obtain ⟨_, _, hc, _⟩ := h
            cases hc
          · rw [if_neg h1] at h
            simp only [Option.some.injEq, Prod.mk.injEq, true_and] at h
            exact ⟨h.symm, Or.inr (Or.inr ⟨qa, rfl, h0, h1⟩)⟩
  refine ⟨⟨fun ⟨o, h⟩ => (hret o h).2, ?_⟩, fun o h => (hret o h).1, ?_⟩
  · intro h
    refine ⟨out, ?_⟩
    unfold dequantize
    rcases h with rfl | rfl | ⟨qa, rfl, h0, h1⟩
    · rfl
    · cases q <;> rfl
    · cases out with
      | none => rfl
      | some out => simp only [h0, h1, if_false]
  · intro x n ty hU hq out0
    obtain ⟨qa, rfl⟩ := quantize_zero_slot ops x n ty q hq
    obtain ⟨hn, hcase⟩ := quantize_success ops x n ty hU qa hq
    rcases hcase with ⟨_, hsh, hS, hD⟩ | ⟨_, h32, hsh, hS, hD⟩
    · obtain ⟨y, hy, _⟩ := dequantize_q8_total ops x n hU qa hsh hS hD out0
      exact ⟨y, hy⟩
    · obtain ⟨y, hy, _⟩ := dequantize_q4_total ops x n h32 qa hsh hS hD out0
      exact ⟨y, hy⟩

/-- A block of `(h + d) mod 2 ^ 64` bytes that holds the first `h` bytes holds all `h + d`. -/
theorem total_fits (h d : Nat) (hd : d < U64) (hge : ¬ (h + d) % U64 < h) :
    h + d < U64 := by
  by_contra hlt
  have h2 := Nat.mod_add_div (h + d) U64
  have h3 : 0 < (h + d) / U64 := Nat.div_pos (by omega) (by decide)
  have h4 : U64 ≤ U64 * ((h + d) / U64) := Nat.le_mul_of_pos_right _ h3
  omega

/-- C17: the outcomes of `allocate_q8_0_array(n, bs)` and `allocate_q4_0_array(n, bs)` for
64-bit `n` and `bs`, the `calloc` taken to succeed. Each returns no record exactly when `n = 0` or
`bs = 0`. Every record returned has element count `n`, block size `bs`, the format tag of the
allocator (0 resp. 1), `num_blocks` zero scales and zero code bytes, `n` of them for q8_0 and
`(n + 1) mod 2 ^ 64 / 2` for q4_0. For `n > 0` and `bs > 0` a record is returned exactly when the
byte count `48 + 4 * num_blocks + n` (for q4_0 with its code bytes in place of `n`) is below
`2 ^ 64`; when it is not, the `size_t` byte count wraps, the block is too small for the header and
the scales, and the call has no defined result. -/
theorem C17_allocation {F : Type} (ops : FloatOps F) (n bs : Nat) (hn64 : n < U64) :
    (allocate_q8_0_array ops n bs = some none ↔ n = 0 ∨ bs = 0) ∧
      (allocate_q4_0_array ops n bs = some none ↔ n = 0 ∨ bs = 0) ∧
      (∀ qa, allocate_q8_0_array ops n bs = some (some qa) →
        qa.num_elements = n ∧ qa.block_size = bs ∧ qa.quantized_type = 0 ∧
        qa.scales = List.replicate qa.num_blocks ops.zero ∧
        qa.data = List.replicate n 0) ∧
      (∀ qa, allocate_q4_0_array ops n bs = some (some qa) →
        qa.num_elements = n ∧ qa.block_size = bs ∧ qa.quantized_type = 1 ∧
        qa.scales = List.replicate qa.num_blocks ops.zero ∧
        qa.data = List.replicate ((n + 1) % U64 / 2) 0) ∧
      (0 < n → 0 < bs →
        ((∃ qa, allocate_q8_0_array ops n bs = some (some qa)) ↔
          sizeof_quantized_array_t + (n + bs - 1) % U64 / bs * 4 + n < U64) ∧
        (allocate_q8_0_array ops n bs = none ↔
          U64 ≤ sizeof_quantized_array_t + (n + bs - 1) % U64 / bs * 4 + n) ∧
        ((∃ qa, allocate_q4_0_array ops n bs = some (some qa)) ↔
          sizeof_quantized_array_t + (n + bs - 1) % U64 / bs * 4 + (n + 1) % U64 / 2 < U64) ∧
        (allocate_q4_0_array ops n bs = none ↔
          U64 ≤ sizeof_quantized_array_t + (n + bs - 1) % U64 / bs * 4 + (n + 1) % U64 / 2)) := by
  have hd : (n + 1) % U64 / 2 < U64 :=
    lt_of_le_of_lt (Nat.div_le_self _ _) (Nat.mod_lt _ (by decide))
  refine ⟨?_, ?_, ?_, ?_, ?_⟩
  · unfold allocate_q8_0_array
    by_cases h : n = 0 ∨ bs = 0
    · simp only [h, if_true]
    · simp only [h, if_false, iff_false]
      split <;> simp
  · unfold allocate_q4_0_array
    by_cases h : n = 0 ∨ bs = 0
    · simp only [h, if_true]
    · simp only [h, if_false, iff_false]
      split <;> simp
  · intro qa h
    unfold allocate_q8_0_array at h
    split at h
    · cases h
    · dsimp only at h
      split at h
      · cases h
      · rename_i hge
        rw [Nat.mul_one] at hge h
        have hfit := total_fits _ n hn64 hge
        have hlen : (sizeof_quantized_array_t + (n + bs - 1) % U64 / bs * 4 + n) % U64
            - sizeof_quantized_array_t - (n + bs - 1) % U64 / bs * 4 = n := by
          rw [Nat.mod_eq_of_lt hfit]; omega
        rw [hlen] at h
        cases h
        exact ⟨rfl, rfl, rfl, rfl, rfl⟩
  · intro qa h
    unfold allocate_q4_0_array at h
    split at h
    · cases h
    · dsimp only at h
      split at h
      · cases h
      · rename_i hge
        rw [Nat.mul_one] at hge h
        have hfit := total_fits _ ((n + 1) % U64 / 2) hd hge
        have hlen : (sizeof_quantized_array_t + (n + bs - 1) % U64 / bs * 4
            + (n + 1) % U64 / 2) % U64
            - sizeof_quantized_array_t - (n + bs - 1) % U64 / bs * 4 = (n + 1) % U64 / 2 := by
          rw [Nat.mod_eq_of_lt hfit]; omega
        rw [hlen] at h
        cases h
        exact ⟨rfl, rfl, rfl, rfl, rfl⟩
  · intro hn hbs
    refine ⟨⟨?_, ?_⟩, ⟨?_, ?_⟩, ⟨?_, ?_⟩, ⟨?_, ?_⟩⟩
    · rintro ⟨qa, h⟩
      by_contra hT
      rw [allocate_q8_0_wrap ops n bs hn hbs hn64 (by omega)] at h
      cases h
    · intro hT
      obtain ⟨q0, h0, _⟩ := allocate_q8_0_shaped ops n bs hn hbs hT
      exact ⟨q0, h0⟩
    · intro h
      by_contra hT
      obtain ⟨q0, h0, _⟩ := allocate_q8_0_shaped ops n bs hn hbs (by omega)
      rw [h] at h0
      cases h0
    · exact allocate_q8_0_wrap ops n bs hn hbs hn64
    · rintro ⟨qa, h⟩
      by_contra hT
      rw [allocate_q4_0_wrap ops n bs hn hbs (by omega)] at h
      cases h
    · intro hT
      obtain ⟨q0, h0, _⟩ := allocate_q4_0_shaped ops n bs hn hbs hT
      exact ⟨q0, h0⟩
    · intro h
      by_contra hT
      obtain ⟨q0, h0, _⟩ := allocate_q4_0_shaped ops n bs hn hbs (by omega)
      rw [h] at h0
      cases h0
    · exact allocate_q4_0_wrap ops n bs hn hbs

theorem C17_allocation_witness :
    allocate_q8_0_array f32Ops (2 ^ 64 - 1) 2 = none ∧
      (sizeof_quantized_array_t + (2 ^ 64 - 1 + 2 - 1) % U64 / 2 * 4 + (2 ^ 64 - 1)) % U64 = 47 ∧
      allocate_q4_0_array f32Ops (2 ^ 64 - 1) 1 = none ∧
      (sizeof_quantized_array_t + (2 ^ 64 - 1 + 1 - 1) % U64 / 1 * 4
        + (2 ^ 64 - 1 + 1) % U64 / 2) % U64 = 44 ∧
      ∃ qa, allocate_q8_0_array f32Ops 3 2 = some (some qa) :=
  ⟨((C17_allocation f32Ops (2 ^ 64 - 1) 2 (by decide)).2.2.2.2 (by decide) (by decide)).2.1.mpr
      (by decide),
    by decide,
    ((C17_allocation f32Ops (2 ^ 64 - 1) 1 (by decide)).2.2.2.2 (by decide)
      (by decide)).2.2.2.mpr (by decide),
    by decide,
    ((C17_allocation f32Ops 3 2 (by decide)).2.2.2.2 (by decide) (by decide)).1.mpr (by decide)⟩

/-! ## Failure conditions and segments of `compress`; C16, C18, C19 -/

/-- `allocate_sparse_array` returns no record exactly on a zero dimension or a ratio that
compares below 0 or above 1. -/
theorem allocate_sparse_array_none (nt nf : Nat) (ratio : F32) :
    allocate_sparse_array nt nf ratio = none ↔
      (nt = 0 ∨ nf = 0 ∨ F32.lt ratio F32.zero = true ∨ F32.gt ratio (F32.ofInt 1) = true) := by
  unfold allocate_sparse_array
  by_cases hd : nt = 0 ∨ nf = 0
  · rw [if_pos hd]
    simp only [true_iff]
    rcases hd with h | h
    · exact Or.inl h
    · exact Or.inr (Or.inl h)
  · rw [if_neg hd]
    by_cases hr : (F32.lt ratio F32.zero || F32.gt ratio (F32.ofInt 1)) = true
    · rw [if_pos hr]
      simp only [true_iff]
      rcases Bool.or_eq_true _ _ ▸ hr with h | h
      · exact Or.inr (Or.inr (Or.inl h))
      · exact Or.inr (Or.inr (Or.inr h))
    · rw [if_neg hr]
      simp only [reduceCtorEq, false_iff]
      intro h
      rcases h with h | h | h | h
      · exact hd (Or.inl h)
      · exact hd (Or.inr h)
      · exact hr (by rw [h]; rfl)
      · exact hr (by rw [h]; simp)

/-- C16: `compress` (allocation taken to succeed) returns the failure signal exactly when
`values` is absent, or `tokens = 0`, or `features = 0`, or `ratio < 0`, or `ratio > 1`, or the
slot is populated; when `values` is present, the slot is empty and a dimension is zero or the
ratio is out of range, the slot is left empty. With dimensions in `1..65535`, a ratio in
`[0, 1]` and rows that have an ordering by descending magnitude, it returns 0 and a record. -/
theorem C16_compress_failure (x : Option (Nat → F32)) (nt nf : Nat) (ratio : F32)
    (slot : Option sparse_array_t) :
    ((∃ s, compress x nt nf ratio slot = some (1, s)) ↔
        (x = none ∨ nt = 0 ∨ nf = 0 ∨ F32.lt ratio F32.zero = true ∨
          F32.gt ratio (F32.ofInt 1) = true ∨ slot ≠ none)) ∧
      (x ≠ none → slot = none →
        (nt = 0 ∨ nf = 0 ∨ F32.lt ratio F32.zero = true ∨ F32.gt ratio (F32.ofInt 1) = true) →
        compress x nt nf ratio slot = some (1, none)) ∧
      (∀ v, x = some v → slot = none → 0 < nt → nt < U16 → 0 < nf → nf < U16 →
        F32.le F32.zero ratio = true → F32.le ratio (F32.ofInt 1) = true →
        (∀ t, t < nt →
          ∃ p : List Nat, p.Perm (List.range nf) ∧ p.Pairwise (spec_before v (t * nf))) →
        ∃ sa, compress x nt nf ratio slot = some (0, some sa)) := by
  have hempty : x ≠ none → slot = none →
      (nt = 0 ∨ nf = 0 ∨ F32.lt ratio F32.zero = true ∨ F32.gt ratio (F32.ofInt 1) = true) →
      compress x nt nf ratio slot = some (1, none) := by
    intro hx hs hbad
    obtain ⟨v, rfl⟩ := Option.ne_none_iff_exists'.mp hx
    subst hs
    unfold compress
    dsimp only
    by_cases hd : nt = 0 ∨ nf = 0
    · rw [if_pos hd]
    · rw [if_neg hd, (allocate_sparse_array_none nt nf ratio).mpr hbad]
  refine ⟨⟨?_, ?_⟩, hempty, ?_⟩
  · rintro ⟨s, hs⟩
    cases x with
    | none => exact Or.inl rfl
    | some v =>
      cases slot with
      | some s0 => exact Or.inr (Or.inr (Or.inr (Or.inr (Or.inr (by simp)))))
      | none =>
        by_contra hnot
        simp only [not_or, ne_eq, not_not, reduceCtorEq, not_false_eq_true, and_true,
          false_or] at hnot
        obtain ⟨hnt, hnf, hlt, hgt⟩ := hnot
        have hsome : allocate_sparse_array nt nf ratio ≠ none := by
          intro h
          rcases (allocate_sparse_array_none nt nf ratio).mp h with h | h | h | h
          · exact hnt h
          · exact hnf h
          · exact hlt h
          · exact hgt h
        obtain ⟨sa0, hsa0⟩ := Option.ne_none_iff_exists'.mp hsome
        unfold compress at hs
        dsimp only at hs
        rw [if_neg (by omega), hsa0] at hs
        simp only [Option.map_eq_some', Prod.mk.injEq] at hs
        obtain ⟨_, _, hc, _⟩ := hs
        cases hc
  · intro h
    cases x with
    | none => exact ⟨slot, by unfold compress; rfl⟩
    | some v =>
      cases slot with
      | some s0 => exact ⟨some s0, by unfold compress; rfl⟩
      | none =>
        refine ⟨none, hempty (by simp) rfl ?_⟩
        rcases h with h | h | h | h | h | h
        · cases h
        · exact Or.inl h
        · exact Or.inr (Or.inl h)
        · exact Or.inr (Or.inr (Or.inl h))
        · exact Or.inr (Or.inr (Or.inr h))
        · exact absurd rfl h
  · intro v hx hs hnt hnt16 hnf hnf16 h0 h1 hord
    subst hx hs
    obtain ⟨k, _, _, ha, _⟩ := allocate_sparse_array_spec nt nf ratio hnt hnf hnf16 h0 h1
    have hcons : ∀ t, t < nt → cmp_consistent abs_sort_cmp (row_entries v nf (t * nf)) := by
      intro t ht
      obtain ⟨p, hp, hsorted⟩ := hord t ht
      have hU : t * nf + nf ≤ U32 := by
        have := mul_lt_U32 (t + 1) nf (by omega) hnf16
        have h2 : (t + 1) * nf = t * nf + nf := by ring
        omega
      exact cmp_consistent_of_order v nf (t * nf) hU p hp hsorted
    exact compress_total v nt nf ratio _ hnt16 hnf16 ha hcons

theorem segment_getElem? {α : Type} (l : List α) (t k j : Nat) :
    (segment l t k)[j]? = if j < k then l[t * k + j]? else none := by
  unfold segment
  rw [List.getElem?_take]
  by_cases h : j < k
  · rw [if_pos h, if_pos h, List.getElem?_drop]
  · rw [if_neg h, if_neg h]

/-- The retained count depends on the feature count and the ratio only. -/
theorem allocate_sparse_array_count (nt nt' nf : Nat) (ratio : F32) (a b : sparse_array_t)
    (ha : allocate_sparse_array nt nf ratio = some a)
    (hb : allocate_sparse_array nt' nf ratio = some b) :
    a.num_sparse_features = b.num_sparse_features := by
  unfold allocate_sparse_array at ha hb
  split at ha
  · cases ha
  · split at ha
    · cases ha
    · split at hb
      · cases hb
      · cases ha
        cases hb
        rfl

/-- The entries of a row depend on the values of that row only. -/
theorem row_entries_congr (x x' : Nat → F32) (nf base base' : Nat) (hU : base + nf ≤ U32)
    (hU' : base' + nf ≤ U32) (h : ∀ f, f < nf → x (base + f) = x' (base' + f)) :
    row_entries x nf base = row_entries x' nf base' := by
  unfold row_entries
  apply List.map_congr_left
  intro i hi
  have hi' : i < nf := List.mem_range.mp hi
  rw [Nat.mod_eq_of_lt (by omega), Nat.mod_eq_of_lt (by omega), h i hi']

/-- The segments of token `t` in the record a successful `compress` returns: the first
`num_sparse_features` positions of the sorted row, and the input values at these positions. -/
theorem compress_segment (x : Nat → F32) (nt nf : Nat) (ratio : F32) (sa : sparse_array_t)
    (hnt16 : nt < U16) (hnf16 : nf < U16)
    (hc : compress (some x) nt nf ratio none = some (0, some sa)) (t : Nat) (ht : t < nt) :
    segment sa.sparse_indices t sa.num_sparse_features
        = (row_order x nf t).take sa.num_sparse_features ∧
      segment sa.values t sa.num_sparse_features
        = ((row_order x nf t).take sa.num_sparse_features).map fun idx => x (t * nf + idx) := by
  obtain ⟨_, _, _, _, hk, _, _, _, hrows⟩ := compress_success x nt nf ratio sa hnt16 hnf16 hc
  obtain ⟨_, hseg⟩ := hrows t ht
  constructor
  · apply List.ext_getElem?
    intro j
    rw [segment_getElem?, List.getElem?_take]
    by_cases hj : j < sa.num_sparse_features
    · rw [if_pos hj, if_pos hj, (hseg j hj).1]
    · rw [if_neg hj, if_neg hj]
  · apply List.ext_getElem?
    intro j
    rw [segment_getElem?, List.getElem?_map, List.getElem?_take]
    by_cases hj : j < sa.num_sparse_features
    · rw [if_pos hj, if_pos hj, (hseg j hj).2]
    · rw [if_neg hj, if_neg hj]; rfl

theorem segment_zero {α : Type} (l : List α) (k : Nat) (h : l.length = k) :
    segment l 0 k = l := by
  unfold segment
  rw [Nat.zero_mul, List.drop_zero, List.take_of_length_le (by omega)]

theorem row_bound (t nt nf : Nat) (ht : t < nt) (hnt16 : nt < U16) (hnf16 : nf < U16) :
    t * nf + nf ≤ U32 := by
  have := mul_lt_U32 (t + 1) nf (by omega) hnf16
  have h2 : (t + 1) * nf = t * nf + nf := by ring
  omega

/-- C18: for two inputs `x` and `x'` with the same token count, feature count and ratio that
agree on row `t`, the records `compress` returns have the same retained count and identical
index and value segments for token `t`; and `compress` applied to row `t` alone returns a record
whose index and value sequences are that segment. -/
theorem C18_row_independence (x x' : Nat → F32) (nt nf : Nat) (ratio : F32)
    (sa sa' : sparse_array_t) (hnt16 : nt < U16) (hnf16 : nf < U16)
    (hc : compress (some x) nt nf ratio none = some (0, some sa))
    (hc' : compress (some x') nt nf ratio none = some (0, some sa')) (t : Nat) (ht : t < nt)
    (hrow : ∀ f, f < nf → x (t * nf + f) = x' (t * nf + f)) :
    sa'.num_sparse_features = sa.num_sparse_features ∧
      segment sa'.sparse_indices t sa'.num_sparse_features
        = segment sa.sparse_indices t sa.num_sparse_features ∧
      segment sa'.values t sa'.num_sparse_features
        = segment sa.values t sa.num_sparse_features ∧
      ∃ r, compress (some (row_of x nf t)) 1 nf ratio none = some (0, some r) ∧
        r.num_sparse_features = sa.num_sparse_features ∧
        r.sparse_indices = segment sa.sparse_indices t sa.num_sparse_features ∧
        r.values = segment sa.values t sa.num_sparse_features := by
  obtain ⟨hnt, hnf, _, _, hk, _, _, ⟨a, ha, hak⟩, hrows⟩ :=
    compress_success x nt nf ratio sa hnt16 hnf16 hc
  obtain ⟨_, _, _, _, _, _, _, ⟨a', ha', hak'⟩, _⟩ :=
    compress_success x' nt nf ratio sa' hnt16 hnf16 hc'
  have hkk : sa'.num_sparse_features = sa.num_sparse_features := by
    rw [← hak, ← hak']
    exact allocate_sparse_array_count nt nt nf ratio a' a ha' ha
  have hU := row_bound t nt nf ht hnt16 hnf16
  have hmod : t * nf % U32 = t * nf := Nat.mod_eq_of_lt (by omega)
  have horder : row_order x' nf t = row_order x nf t := by
    unfold row_order
    rw [hmod, row_entries_congr x' x nf (t * nf) (t * nf) hU hU fun f hf => (hrow f hf).symm]
  obtain ⟨s1, s2⟩ := compress_segment x nt nf ratio sa hnt16 hnf16 hc t ht
  obtain ⟨s1', s2'⟩ := compress_segment x' nt nf ratio sa' hnt16 hnf16 hc' t ht
  refine ⟨hkk, ?_, ?_, ?_⟩
  · rw [s1', s1, hkk, horder]
  · rw [s2', s2, hkk, horder]
    apply List.map_congr_left
    intro idx hidx
    have hlt : idx < nf := row_order_lt x nf t idx (List.mem_of_mem_take hidx)
    exact (hrow idx hlt).symm
  · have hent : row_entries (row_of x nf t) nf (0 * nf) = row_entries x nf (t * nf) := by
      apply row_entries_congr _ _ nf (0 * nf) (t * nf) (by omega) hU
      intro f _
      unfold row_of
      rw [Nat.zero_mul, Nat.zero_add]
    have hcons : ∀ t', t' < 1 →
        cmp_consistent abs_sort_cmp (row_entries (row_of x nf t) nf (t' * nf)) := by
      intro t' ht'
      obtain rfl : t' = 0 := by omega
      rw [hent]
      exact (hrows t ht).1
    have hb : allocate_sparse_array 1 nf ratio ≠ none := by
      intro hnone
      have hbad := (allocate_sparse_array_none 1 nf ratio).mp hnone
      have : allocate_sparse_array nt nf ratio = none :=
        (allocate_sparse_array_none nt nf ratio).mpr (by
          rcases hbad with h | h | h | h
          · omega
          · exact Or.inr (Or.inl h)
          · exact Or.inr (Or.inr (Or.inl h))
          · exact Or.inr (Or.inr (Or.inr h)))
      rw [this] at ha
      cases ha
    obtain ⟨b, hb⟩ := Option.ne_none_iff_exists'.mp hb
    obtain ⟨r, hr⟩ := compress_total (row_of x nf t) 1 nf ratio b (by decide) hnf16 hb hcons
    obtain ⟨_, _, _, _, _, r4, r5, ⟨b', hb', hbk⟩, _⟩ :=
      compress_success (row_of x nf t) 1 nf ratio r (by decide) hnf16 hr
    have hrk : r.num_sparse_features = sa.num_sparse_features := by
      rw [← hak, ← hbk]
      exact allocate_sparse_array_count 1 nt nf ratio b' a hb' ha
    obtain ⟨q1, q2⟩ := compress_segment (row_of x nf t) 1 nf ratio r (by decide) hnf16 hr 0
      (by decide)
    have horder0 : row_order (row_of x nf t) nf 0 = row_order x nf t := by
      unfold row_order
      rw [hmod, Nat.mod_eq_of_lt (by unfold U32; omega : 0 * nf < U32), hent]
    rw [segment_zero _ _ (by rw [r4, Nat.one_mul]), horder0, hrk] at q1
    rw [segment_zero _ _ (by rw [r5, Nat.one_mul]), horder0, hrk] at q2
    refine ⟨r, hr, hrk, by rw [q1, s1], ?_⟩
    rw [q2, s2]
    apply List.map_congr_left
    intro idx _
    unfold row_of
    rw [Nat.zero_mul, Nat.zero_add]

theorem C18_row_independence_witness :
    two_row_sparse_alt.num_sparse_features = two_row_sparse.num_sparse_features ∧
      segment two_row_sparse_alt.sparse_indices 0 two_row_sparse_alt.num_sparse_features
        = segment two_row_sparse.sparse_indices 0 two_row_sparse.num_sparse_features ∧
      segment two_row_sparse_alt.values 0 two_row_sparse_alt.num_sparse_features
        = segment two_row_sparse.values 0 two_row_sparse.num_sparse_features ∧
      ∃ r, compress (some (row_of (two_row_input [1, 2, 3, 4, 5, 6, 7, 8]) 8 0)) 1 8
          ⟨false, 125, 0⟩ none = some (0, some r) ∧
        r.num_sparse_features = two_row_sparse.num_sparse_features ∧
        r.sparse_indices
          = segment two_row_sparse.sparse_indices 0 two_row_sparse.num_sparse_features ∧
        r.values = segment two_row_sparse.values 0 two_row_sparse.num_sparse_features :=
  C18_row_independence (two_row_input [1, 2, 3, 4, 5, 6, 7, 8])
    (two_row_input [0, -7, 0, 0, 0, 0, 7, 0]) 2 8 ⟨false, 125, 0⟩ two_row_sparse
    two_row_sparse_alt (by decide) (by decide) (by decide!) (by decide!) 0 (by decide)
    (by decide!)

/-- C19: in the sparse array returned by `compress`, for every token `t` the segment has
`retained_count` indices, they are pairwise distinct and all below `feature_count`, and each
stored value equals the input value `x[t][index]` at its stored index. -/
theorem C19_segment_content (x : Nat → F32) (nt nf : Nat) (ratio : F32) (sa : sparse_array_t)
    (hnt16 : nt < U16) (hnf16 : nf < U16)
    (hc : compress (some x) nt nf ratio none = some (0, some sa)) (t : Nat) (ht : t < nt) :
    (segment sa.sparse_indices t sa.num_sparse_features).length = sa.num_sparse_features ∧
      (segment sa.sparse_indices t sa.num_sparse_features).Nodup ∧
      ∀ j, j < sa.num_sparse_features →
        sa.sparse_indices.getD (t * sa.num_sparse_features + j) 0 < nf ∧
        sa.values.getD (t * sa.num_sparse_features + j) F32.zero
          = x (t * nf + sa.sparse_indices.getD (t * sa.num_sparse_features + j) 0) := by
  obtain ⟨_, _, _, _, hk, _, _, _, hrows⟩ := compress_success x nt nf ratio sa hnt16 hnf16 hc
  obtain ⟨s1, _⟩ := compress_segment x nt nf ratio sa hnt16 hnf16 hc t ht
  have hlen := row_order_length x nf t
  have hnodup : (row_order x nf t).Nodup :=
    (row_order_perm x nf t).nodup_iff.mpr (List.nodup_range nf)
  refine ⟨?_, ?_, ?_⟩
  · rw [s1, List.length_take, hlen]; omega
  · rw [s1]
    exact hnodup.sublist (List.take_sublist _ _)
  · intro j hj
    obtain ⟨e1, e2⟩ := (hrows t ht).2 j hj
    have hjl : j < (row_order x nf t).length := by omega
    rw [List.getElem?_eq_getElem hjl] at e1 e2
    rw [List.getD_eq_getElem?_getD, List.getD_eq_getElem?_getD, e1, e2]
    exact ⟨row_order_lt x nf t _ (List.getElem_mem _), rfl⟩

theorem C19_segment_content_witness :
    (segment scenario_b_sparse.sparse_indices 0 scenario_b_sparse.num_sparse_features).length
        = scenario_b_sparse.num_sparse_features ∧
      (segment scenario_b_sparse.sparse_indices 0 scenario_b_sparse.num_sparse_features).Nodup ∧
      ∀ j, j < scenario_b_sparse.num_sparse_features →
        scenario_b_sparse.sparse_indices.getD (0 * scenario_b_sparse.num_sparse_features + j) 0
          < 8 ∧
        scenario_b_sparse.values.getD (0 * scenario_b_sparse.num_sparse_features + j) F32.zero
          = scenario_b_input (0 * 8
            + scenario_b_sparse.sparse_indices.getD
              (0 * scenario_b_sparse.num_sparse_features + j) 0) :=
  C19_segment_content scenario_b_input 1 8 ⟨false, 125, 0⟩ scenario_b_sparse (by decide)
    (by decide) (by decide!) 0 (by decide)

/-! ## Scenario A; C20 -/

/-- When `dequantize` on a zero-filled buffer succeeds, its output is `decoded`. -/
theorem decoded_eq {F : Type} (ops : FloatOps F) (q : quantized_array_t F) (r : Nat)
    (y : Nat → F) (h : dequantize ops (some q) (some fun _ => ops.zero) = some (r, some y)) :
    decoded ops q = y := by
  unfold decoded
  rw [h]

/-- The record, codes and decoded values of Scenario A, by evaluation. -/
theorem scenario_a_eval (p : Nat) (hp : p < 32) :
    quantize f32Ops (some (scenario_a_input p)) 32 0 none
        = some (0, some (scenario_a_encoded p)) ∧
      (∀ i, i < 32 → stored_code (scenario_a_encoded p) i = if i = p then 127 else 0) ∧
      ∀ i, i < 32 →
        decoded f32Ops (scenario_a_encoded p) i = if i = p then f12_7 else F32.zero := by
  interval_cases p <;> exact ⟨by decide!, by decide!, by decide!⟩

/-- C20: Scenario A. With `12.7` the float `12.7f` (the float nearest to 127/10) at one position
`p` of a 32-element array and `+0.0` elsewhere, q8_0 `quantize` returns a record of one block
whose scale is the float quotient `12.7f / 127` (which is `0.1f`), with code 127 at `p` and code
0 elsewhere, and `dequantize` returns exactly `12.7f` at `p` and `+0.0` elsewhere. -/
theorem C20_scenario_a (p : Nat) (hp : p < 32) :
    f12_7 = F32.div (F32.ofInt 127) (F32.ofInt 10) ∧
      ∃ q y, quantize f32Ops (some (scenario_a_input p)) 32 0 none = some (0, some q) ∧
        q.num_blocks = 1 ∧
        q.scales = [F32.div f12_7 (F32.ofInt 127)] ∧
        F32.div f12_7 (F32.ofInt 127) = F32.div (F32.ofInt 1) (F32.ofInt 10) ∧
        (∀ i, i < 32 → stored_code q i = if i = p then 127 else 0) ∧
        dequantize f32Ops (some q) (some fun _ => F32.zero) = some (0, some y) ∧
        ∀ i, i < 32 → y i = if i = p then f12_7 else F32.zero := by
  obtain ⟨hq, hcodes, hdec⟩ := scenario_a_eval p hp
  obtain ⟨_, hcase⟩ := quantize_success f32Ops (scenario_a_input p) 32 0 (by decide) _ hq
  rcases hcase with ⟨_, hsh, hS, hD⟩ | ⟨h01, _⟩
  · obtain ⟨y, hy, _⟩ := dequantize_q8_total f32Ops (scenario_a_input p) 32 (by decide)
      (scenario_a_encoded p) hsh hS hD (fun _ => F32.zero)
    have hyd : decoded f32Ops (scenario_a_encoded p) = y :=
      decoded_eq f32Ops (scenario_a_encoded p) 0 y hy
    have hscale : F32.div f12_7 (F32.ofInt 127) = ⟨false, 123, 5033165⟩ := by decide!
    refine ⟨by decide!, scenario_a_encoded p, y, hq, rfl, by rw [hscale]; rfl, by decide!,
      hcodes, hy, ?_⟩
    rw [← hyd]
    exact hdec
  · cases h01

theorem C20_scenario_a_witness :
    f12_7 = F32.div (F32.ofInt 127) (F32.ofInt 10) ∧
      ∃ q y, quantize f32Ops (some (scenario_a_input 5)) 32 0 none = some (0, some q) ∧
        q.num_blocks = 1 ∧
        q.scales = [F32.div f12_7 (F32.ofInt 127)] ∧
        F32.div f12_7 (F32.ofInt 127) = F32.div (F32.ofInt 1) (F32.ofInt 10) ∧
        (∀ i, i < 32 → stored_code q i = if i = 5 then 127 else 0) ∧
        dequantize f32Ops (some q) (some fun _ => F32.zero) = some (0, some y) ∧
        ∀ i, i < 32 → y i = if i = 5 then f12_7 else F32.zero :=
  C20_scenario_a 5 (by decide)

/-! ## Scenario B, block ranges and the packed index; C21, C26, C30 -/

/-- C21: Scenario B. `compress` of the single row `[5, -1, 3, 0, -9, 2, 4, -8]` with 8 features
and ratio 0.25 returns the record with retained count 2, indices 4 then 7 and values -9 then -8,
and `decompress` of it writes `[0, 0, 0, 0, -9, 0, 0, -8]`. -/
theorem C21_scenario_b (out0 : Nat → F32) :
    (⟨false, 125, 0⟩ : F32) = F32.div (F32.ofInt 1) (F32.ofInt 4) ∧
      compress (some scenario_b_input) 1 8 ⟨false, 125, 0⟩ none
        = some (0, some scenario_b_sparse) ∧
      scenario_b_sparse.num_sparse_features = 2 ∧
      scenario_b_sparse.sparse_indices = [4, 7] ∧
      scenario_b_sparse.values = [F32.ofInt (-9), F32.ofInt (-8)] ∧
      ∃ y, decompress (some scenario_b_sparse) (some out0) = some (0, some y) ∧
        ∀ i, i < 8 → y i = F32.ofInt (([0, 0, 0, 0, -9, 0, 0, -8] : List Int).getD i 0) := by
  refine ⟨by decide!, by decide!, rfl, rfl, rfl, ?_⟩
  obtain ⟨y, hy, hv⟩ := decompress_spec scenario_b_sparse 1 8 2 out0 (by decide) (by decide)
    (by decide) (by decide) rfl rfl rfl (by decide) (by decide) (by decide)
  refine ⟨y, hy, ?_⟩
  intro i hi
  rw [hv i, if_pos (by omega)]
  interval_cases i <;> decide!

/-- The loops of the codec do not wrap: for an array that fits in memory, the start of a block
below the block count and the end of the block are below `2 ^ 64`. -/
theorem block_no_wrap (n bs b : Nat) (hbs : 0 < bs) (hmem : 4 * n ≤ U64) (hbsU : bs < U64)
    (hb : b < (n + bs - 1) / bs) : b * bs < n ∧ b * bs + bs < U64 := by
  have h := block_lt_of_lt_num_blocks n bs b hbs hb
  refine ⟨h, ?_⟩
  rcases Nat.eq_zero_or_pos b with h0 | h0
  · rw [h0]; omega
  · have : bs ≤ b * bs := Nat.le_mul_of_pos_left bs h0
    omega

/-- The values `start` and `remain` of block `b`. -/
theorem block_range (n bs b : Nat) (hbs : 0 < bs) (hmem : 4 * n ≤ U64) (hbsU : bs < U64)
    (hb : b < (n + bs - 1) / bs) :
    block_start b bs = b * bs ∧
      block_remain (block_start b bs) bs n = (if b * bs + bs ≤ n then bs else n - b * bs) := by
  obtain ⟨h1, h2⟩ := block_no_wrap n bs b hbs hmem hbsU hb
  have hs : block_start b bs = b * bs := by
    unfold block_start
    exact Nat.mod_eq_of_lt (by omega)
  refine ⟨hs, ?_⟩
  rw [hs]
  unfold block_remain
  rw [Nat.mod_eq_of_lt h2]
  split
  · rfl
  · have : n + U64 - b * bs = (n - b * bs) + U64 := by omega
    rw [this, Nat.add_mod_right]
    exact Nat.mod_eq_of_lt (by omega)

/-- C26: for every `n > 0` elements that fit in memory and every block size `bs > 0`, with
`ceil(n / bs)` blocks: block `b` starts at `b * bs` and has `remain = bs` if `b * bs + bs <= n`
else `n - b * bs` elements, with `1 <= remain <= bs`; every index `start + i` of a block is below
`n`, lies in block `b = (start + i) / bs` at position `i = (start + i) % bs` only, and every
element `e < n` is position `e % bs` of block `e / bs`, which is below the block count. -/
theorem C26_blocks_partition (n bs : Nat) (hn : 0 < n) (hbs : 0 < bs) (hmem : 4 * n ≤ U64)
    (hbsU : bs < U64) :
    (n + bs - 1) / bs = ⌈(n : ℚ) / bs⌉₊ ∧
      (∀ b, b < (n + bs - 1) / bs →
        block_start b bs = b * bs ∧
        block_remain (block_start b bs) bs n = (if b * bs + bs ≤ n then bs else n - b * bs) ∧
        1 ≤ block_remain (block_start b bs) bs n ∧
        block_remain (block_start b bs) bs n ≤ bs ∧
        ∀ i, i < block_remain (block_start b bs) bs n →
          (block_start b bs + i) % U64 = b * bs + i ∧ b * bs + i < n ∧
          (b * bs + i) / bs = b ∧ (b * bs + i) % bs = i) ∧
      (∀ e, e < n →
        e / bs < (n + bs - 1) / bs ∧
        e % bs < block_remain (block_start (e / bs) bs) bs n ∧
        block_start (e / bs) bs + e % bs = e) := by
  refine ⟨(ceil_div_eq n bs hn hbs).symm, ?_, ?_⟩
  · intro b hb
    obtain ⟨hs, hr⟩ := block_range n bs b hbs hmem hbsU hb
    obtain ⟨h1, h2⟩ := block_no_wrap n bs b hbs hmem hbsU hb
    have hr1 : 1 ≤ block_remain (block_start b bs) bs n := by rw [hr]; split <;> omega
    have hr2 : block_remain (block_start b bs) bs n ≤ bs := by rw [hr]; split <;> omega
    refine ⟨hs, hr, hr1, hr2, ?_⟩
    intro i hi
    have hin : b * bs + i < n := by
      rw [hr] at hi
      split at hi <;> omega
    have hib : i < bs := by omega
    refine ⟨by rw [hs]; exact Nat.mod_eq_of_lt (by omega), hin, ?_, ?_⟩
    · rw [Nat.mul_comm, Nat.mul_add_div hbs, Nat.div_eq_of_lt hib, Nat.add_zero]
    · rw [Nat.mul_comm, Nat.mul_add_mod, Nat.mod_eq_of_lt hib]
  · intro e he
    have hb := lt_num_blocks_of_lt n bs e hbs he
    obtain ⟨hs, hr⟩ := block_range n bs (e / bs) hbs hmem hbsU hb
    have hdm : e / bs * bs + e % bs = e := by
      rw [Nat.mul_comm]; exact Nat.div_add_mod e bs
    have hm : e % bs < bs := Nat.mod_lt _ hbs
    refine ⟨hb, ?_, by rw [hs]; exact hdm⟩
    rw [hr]
    split <;> omega

theorem C26_blocks_partition_witness :
    (70 + 32 - 1) / 32 = ⌈((70 : Nat) : ℚ) / (32 : Nat)⌉₊ ∧
      (∀ b, b < (70 + 32 - 1) / 32 →
        block_start b 32 = b * 32 ∧
        block_remain (block_start b 32) 32 70 = (if b * 32 + 32 ≤ 70 then 32 else 70 - b * 32) ∧
        1 ≤ block_remain (block_start b 32) 32 70 ∧
        block_remain (block_start b 32) 32 70 ≤ 32 ∧
        ∀ i, i < block_remain (block_start b 32) 32 70 →
          (block_start b 32 + i) % U64 = b * 32 + i ∧ b * 32 + i < 70 ∧
          (b * 32 + i) / 32 = b ∧ (b * 32 + i) % 32 = i) ∧
      (∀ e, e < 70 →
        e / 32 < (70 + 32 - 1) / 32 ∧
        e % 32 < block_remain (block_start (e / 32) 32) 32 70 ∧
        block_start (e / 32) 32 + e % 32 = e) :=
  C26_blocks_partition 70 32 (by decide) (by decide) (by decide) (by decide)

/-- C30: for block size 32 and every element count `n <= 2 ^ 32`, the `int data_index` that
`_quantize_q4_0` and `_dequantize_q4_0` compute for position `i` of block `b` is
`(32 * b + i) / 2`, the half of the element index `32 * b + i < n`, it is not negative, and it is
below `(n + 1) / 2`, the length of the code region `allocate_q4_0_array` allocates. -/
theorem C30_q4_index_in_range {F : Type} (ops : FloatOps F) (n b i : Nat) (hn : 0 < n)
    (hn32 : n ≤ 2 ^ 32) (hb : b < (n + 32 - 1) / 32)
    (hi : i < block_remain (block_start b 32) 32 n) :
    32 * b + i < n ∧
      q4_data_index (block_start b 32) i = (((32 * b + i) / 2 : Nat) : Int) ∧
      (32 * b + i) / 2 < (n + 1) / 2 ∧
      ∃ q, allocate_q4_0_array ops n 32 = some (some q) ∧ q.data.length = (n + 1) / 2 ∧
        ∃ byte, getAt q.data (q4_data_index (block_start b 32) i) = some byte := by
  have hmem : 4 * n ≤ U64 := by unfold U64; omega
  obtain ⟨hs, hr⟩ := block_range n 32 b (by decide) hmem (by decide) hb
  have hin : 32 * b + i < n := by
    rw [hr] at hi
    split at hi <;> omega
  have hidx : q4_data_index (block_start b 32) i = (((32 * b + i) / 2 : Nat) : Int) := by
    rw [hs, q4_data_index_eq _ _ (by omega), Nat.mul_comm]
  have hlt : (32 * b + i) / 2 < (n + 1) / 2 := by omega
  obtain ⟨q, hq, _, _, _, _, _, hdata⟩ := allocate_q4_0_shaped ops n 32 hn (by decide) (by
    rw [Nat.mod_eq_of_lt (by unfold U64; omega : n + 32 - 1 < U64),
      Nat.mod_eq_of_lt (by unfold U64; omega : n + 1 < U64)]
    unfold U64 sizeof_quantized_array_t
    omega)
  have hlen : q.data.length = (n + 1) / 2 := by
    rw [hdata, List.length_replicate, Nat.mod_eq_of_lt (by unfold U64; omega)]
  refine ⟨hin, hidx, hlt, q, hq, hlen, ?_⟩
  rw [hidx, getAt_natCast, List.getElem?_eq_getElem (by omega)]
  exact ⟨_, rfl⟩

theorem C30_q4_index_in_range_witness :
    32 * 2 + 5 < 70 ∧
      q4_data_index (block_start 2 32) 5 = (((32 * 2 + 5) / 2 : Nat) : Int) ∧
      (32 * 2 + 5) / 2 < (70 + 1) / 2 ∧
      ∃ q, allocate_q4_0_array f32Ops 70 32 = some (some q) ∧ q.data.length = (70 + 1) / 2 ∧
        ∃ byte, getAt q.data (q4_data_index (block_start 2 32) 5) = some byte :=
  C30_q4_index_in_range f32Ops 70 2 5 (by decide) (by decide) (by decide) (by decide)

/-! ## Unpacking, scattering and the comparator; C23, C24, C25 -/

/-- C23: for every input and every element `e` of the q4_0 array produced by `quantize`,
`dequantize` succeeds and outputs `scales[e / 32] * c_e`, where `c_e` is the clamped code in
`[-7, 7]` the encoder computed for `e`: the nibble read back from the packed byte, sign-extended
by `(int8_t)(qi << 4) >> 4`, is `c_e`. -/
theorem C23_q4_unpack {F : Type} (ops : FloatOps F) (x : Nat → F) (n : Nat)
    (hmem : 4 * n ≤ U64) (q : quantized_array_t F) (out0 : Nat → F)
    (hq : quantize ops (some x) n 1 none = some (0, some q)) :
    ∃ y, dequantize ops (some q) (some out0) = some (0, some y) ∧
      ∀ e, e < n →
        -7 ≤ elem_code ops 7 x 32 n e ∧ elem_code ops 7 x 32 n e ≤ 7 ∧
        sign_extend4 (toUInt8 (elem_code ops 7 x 32 n e) &&& 0x0F) = elem_code ops 7 x 32 n e ∧
        stored_code q e = elem_code ops 7 x 32 n e ∧
        ∃ scale, q.scales[e / 32]? = some scale ∧
          y e = ops.mul scale (ops.ofInt (elem_code ops 7 x 32 n e)) := by
  have hU : n + 31 < U64 := by unfold U64 at *; omega
  obtain ⟨hn, h | h⟩ := quantize_success ops x n 1 hU q hq
  · exact absurd h.1 (by decide)
  · obtain ⟨_, hn32, hsh, hS, hD⟩ := h
    obtain ⟨y, hy, hv⟩ := dequantize_q4_total ops x n hn32 q hsh hS hD out0
    refine ⟨y, hy, ?_⟩
    intro e he
    have hr := quant_code_range ops 7 (by decide) (x e)
      (block_inv_scale ops (blk_scale ops 7 x 32 n (e / 32)))
    have hr1 : -7 ≤ elem_code ops 7 x 32 n e := hr.1
    have hr2 : elem_code ops 7 x 32 n e ≤ 7 := hr.2
    refine ⟨hr1, hr2, sign_extend4_nibble _ (by omega) hr2,
      stored_code_eq ops x n 1 hU q hq e he, _,
      hS _ (lt_num_blocks_of_lt n 32 e (by decide) he), ?_⟩
    rw [hv e, if_pos he]

theorem C23_q4_unpack_witness :
    ∃ y, dequantize f32Ops (some q4_encoded) (some fun _ => F32.zero) = some (0, some y) ∧
      ∀ e, e < 3 →
        -7 ≤ elem_code f32Ops 7 q4_input 32 3 e ∧ elem_code f32Ops 7 q4_input 32 3 e ≤ 7 ∧
        sign_extend4 (toUInt8 (elem_code f32Ops 7 q4_input 32 3 e) &&& 0x0F)
          = elem_code f32Ops 7 q4_input 32 3 e ∧
        stored_code q4_encoded e = elem_code f32Ops 7 q4_input 32 3 e ∧
        ∃ scale, q4_encoded.scales[e / 32]? = some scale ∧
          y e = f32Ops.mul scale (f32Ops.ofInt (elem_code f32Ops 7 q4_input 32 3 e)) :=
  C23_q4_unpack f32Ops q4_input 3 (by decide) q4_encoded (fun _ => F32.zero) (by decide!)

/-- The scatter loop on a cell that no retained entry names: the initial value. -/
theorem row_lookup_none (sa : sparse_array_t) (t f : Nat)
    (h : ∀ j, j < sa.num_sparse_features →
      sa.sparse_indices.getD (t * sa.num_sparse_features + j) 0 ≠ f) :
    row_lookup sa t f = F32.zero := by
  unfold row_lookup
  apply forLoop_inv (fun _ (acc : F32) => acc = F32.zero)
  · rfl
  · intro j hj acc hacc
    rw [if_neg (h j hj)]
    exact hacc

theorem forLoop_succ {σ : Type} (n : Nat) (body : Nat → σ → σ) (s0 : σ) :
    forLoop (n + 1) body s0 = body n (forLoop n body s0) := rfl

/-- The scatter loop on a cell that retained entries name: the value of the last of them. -/
theorem row_lookup_last (sa : sparse_array_t) (t f j : Nat) (hj : j < sa.num_sparse_features)
    (hf : sa.sparse_indices.getD (t * sa.num_sparse_features + j) 0 = f)
    (hlast : ∀ j', j < j' → j' < sa.num_sparse_features →
      sa.sparse_indices.getD (t * sa.num_sparse_features + j') 0 ≠ f) :
    row_lookup sa t f = sa.values.getD (t * sa.num_sparse_features + j) F32.zero := by
  unfold row_lookup
  have key : ∀ m, j < m → m ≤ sa.num_sparse_features →
      forLoop m (fun j acc =>
        if sa.sparse_indices.getD (t * sa.num_sparse_features + j) 0 = f
        then sa.values.getD (t * sa.num_sparse_features + j) F32.zero else acc) F32.zero
        = sa.values.getD (t * sa.num_sparse_features + j) F32.zero := by
    intro m
    induction m with
    | zero => intro h; omega
    | succ m ih =>
      intro h1 h2
      rw [forLoop_succ]
      rcases Nat.lt_succ_iff_lt_or_eq.mp h1 with h | h
      · rw [ih h (by omega)]
        exact if_neg (hlast m h (by omega))
      · subst h
        exact if_pos hf
  exact key _ hj (le_refl _)

/-- C24: for every sparse record (header fields of `uint16_t`, `feature_count > 0`, regions of
`token_count * retained_count` entries) whose stored indices are all below `feature_count`,
`decompress` returns 0 and writes exactly the first `token_count * feature_count` outputs: for
every token `t` and feature `f`, `+0.0` if no entry of token `t`'s segment has index `f`, else
the value of the last entry of that segment whose index is `f`. -/
theorem C24_decompress_semantics (sa : sparse_array_t) (out0 : Nat → F32)
    (h1 : sa.num_tokens < U16) (h2 : sa.num_features < U16) (h3 : sa.num_sparse_features < U16)
    (hnf : 0 < sa.num_features)
    (h4 : sa.sparse_indices.length = sa.num_tokens * sa.num_sparse_features)
    (h5 : sa.values.length = sa.num_tokens * sa.num_sparse_features)
    (hidx : ∀ p, p < sa.num_tokens * sa.num_sparse_features →
      sa.sparse_indices.getD p 0 < sa.num_features) :
    ∃ y, decompress (some sa) (some out0) = some (0, some y) ∧
      (∀ p, sa.num_tokens * sa.num_features ≤ p → y p = out0 p) ∧
      ∀ t f, t < sa.num_tokens → f < sa.num_features →
        ((∀ j, j < sa.num_sparse_features →
            sa.sparse_indices.getD (t * sa.num_sparse_features + j) 0 ≠ f) →
          y (t * sa.num_features + f) = F32.zero) ∧
        ∀ j, j < sa.num_sparse_features →
          sa.sparse_indices.getD (t * sa.num_sparse_features + j) 0 = f →
          (∀ j', j < j' → j' < sa.num_sparse_features →
            sa.sparse_indices.getD (t * sa.num_sparse_features + j') 0 ≠ f) →
          y (t * sa.num_features + f)
            = sa.values.getD (t * sa.num_sparse_features + j) F32.zero := by
  obtain ⟨y, hy, hv⟩ := decompress_spec sa sa.num_tokens sa.num_features sa.num_sparse_features
    out0 h1 h2 hnf h3 rfl rfl rfl h4 h5 hidx
  refine ⟨y, hy, ?_, ?_⟩
  · intro p hp
    rw [hv p, if_neg (by omega)]
  · intro t f ht hf
    have hlt : t * sa.num_features + f < sa.num_tokens * sa.num_features :=
      row_slot_lt t sa.num_tokens f sa.num_features ht hf
    have hdiv : (t * sa.num_features + f) / sa.num_features = t := by
      rw [Nat.mul_comm, Nat.mul_add_div hnf, Nat.div_eq_of_lt hf, Nat.add_zero]
    have hmod : (t * sa.num_features + f) % sa.num_features = f := by
      rw [Nat.mul_comm, Nat.mul_add_mod, Nat.mod_eq_of_lt hf]
    rw [hv, if_pos hlt, hdiv, hmod]
    exact ⟨row_lookup_none sa t f, row_lookup_last sa t f⟩

theorem C24_decompress_semantics_witness :
    ∃ y, decompress (some scenario_b_sparse) (some fun _ => F32.zero) = some (0, some y) ∧
      (∀ p, scenario_b_sparse.num_tokens * scenario_b_sparse.num_features ≤ p →
        y p = F32.zero) ∧
      ∀ t f, t < scenario_b_sparse.num_tokens → f < scenario_b_sparse.num_features →
        ((∀ j, j < scenario_b_sparse.num_sparse_features →
            scenario_b_sparse.sparse_indices.getD
              (t * scenario_b_sparse.num_sparse_features + j) 0 ≠ f) →
          y (t * scenario_b_sparse.num_features + f) = F32.zero) ∧
        ∀ j, j < scenario_b_sparse.num_sparse_features →
          scenario_b_sparse.sparse_indices.getD
            (t * scenario_b_sparse.num_sparse_features + j) 0 = f →
          (∀ j', j < j' → j' < scenario_b_sparse.num_sparse_features →
            scenario_b_sparse.sparse_indices.getD
              (t * scenario_b_sparse.num_sparse_features + j') 0 ≠ f) →
          y (t * scenario_b_sparse.num_features + f)
            = scenario_b_sparse.values.getD
              (t * scenario_b_sparse.num_sparse_features + j) F32.zero :=
  C24_decompress_semantics scenario_b_sparse (fun _ => F32.zero) (by decide) (by decide)
    (by decide) (by decide) (by decide) (by decide) (by decide)

/-- C25: on sort entries with non-NaN magnitudes and pairwise distinct indices, `abs_sort_cmp` is
a strict total order: `sign(cmp(a, b)) = -sign(cmp(b, a))`, it is transitive, and
`cmp(a, b) = 0` only when `a` and `b` have the same index (and are then the same entry). So
`qsort` has a result, and every arrangement of the entries that is in ascending comparator order
is that result. -/
theorem C25_tie_breaking (l : List sort_entry_t) (hnan : ∀ a ∈ l, a.abs_val.isNaN = false)
    (hidx : l.Pairwise fun a b => a.index ≠ b.index) :
    (∀ a ∈ l, ∀ b ∈ l, Int.sign (abs_sort_cmp a b) = -Int.sign (abs_sort_cmp b a)) ∧
      (∀ a ∈ l, ∀ b ∈ l, ∀ c ∈ l,
        abs_sort_cmp a b ≤ 0 → abs_sort_cmp b c ≤ 0 → abs_sort_cmp a c ≤ 0) ∧
      (∀ a ∈ l, ∀ b ∈ l, abs_sort_cmp a b = 0 → a.index = b.index ∧ a = b) ∧
      (∃ s, qsort abs_sort_cmp l = some s) ∧
      ∀ s : List sort_entry_t, s.Perm l → s.Pairwise (fun a b => abs_sort_cmp a b ≤ 0) →
        qsort abs_sort_cmp l = some s := by
  have hcons := abs_sort_cmp_consistent l hnan
  have hsame : ∀ a ∈ l, ∀ b ∈ l, a.index = b.index → a = b := by
    intro a ha b hb hab
    by_contra hne
    exact hidx.forall (fun _ _ h => Ne.symm h) ha hb hne hab
  have hzero : ∀ a ∈ l, ∀ b ∈ l, abs_sort_cmp a b = 0 → a.index = b.index ∧ a = b := by
    intro a ha b hb h0
    rw [abs_sort_cmp_cases a b (hnan a ha) (hnan b hb)] at h0
    have hi : a.index = b.index := by
      split_ifs at h0 <;> omega
    exact ⟨hi, hsame a ha b hb hi⟩
  have hsign : ∀ a ∈ l, ∀ b ∈ l,
      Int.sign (abs_sort_cmp a b) = -Int.sign (abs_sort_cmp b a) := by
    intro a ha b hb
    rw [abs_sort_cmp_cases a b (hnan a ha) (hnan b hb),
      abs_sort_cmp_cases b a (hnan b hb) (hnan a ha)]
    by_cases he : F32.key a.abs_val = F32.key b.abs_val
    · rw [if_pos he, if_pos he.symm, ← Int.sign_neg]
      congr 1; ring
    · rw [if_neg he, if_neg (Ne.symm he)]
      by_cases h2 : F32.key b.abs_val < F32.key a.abs_val
      · have h3 : ¬ F32.key a.abs_val < F32.key b.abs_val := by omega
        rw [if_pos h2, if_neg h3]; rfl
      · have h3 : F32.key a.abs_val < F32.key b.abs_val := by omega
        rw [if_neg h2, if_pos h3]; rfl
  have hq : qsort abs_sort_cmp l
      = some (l.insertionSort (fun a b => abs_sort_cmp a b ≤ 0)) := by
    unfold qsort
    rw [if_pos hcons]
  refine ⟨hsign, hcons.2, hzero, ⟨_, hq⟩, ?_⟩
  intro s hperm hsorted
  rw [hq]
  congr 1
  obtain ⟨_, hp, hs⟩ := qsort_spec _ _ _ hq
  apply List.Perm.eq_of_sorted _ hs hsorted (hp.trans hperm.symm)
  intro a b ha hb hab hba
  have ha' : a ∈ l := hp.subset ha
  have hb' : b ∈ l := hperm.subset hb
  have h1 := hsign a ha' b hb'
  have h0 : abs_sort_cmp a b = 0 := by
    rcases lt_or_eq_of_le hab with h | h
    · rw [Int.sign_eq_neg_one_of_neg h] at h1
      rcases lt_or_eq_of_le hba with h' | h'
      · rw [Int.sign_eq_neg_one_of_neg h'] at h1; omega
      · rw [h', Int.sign_zero] at h1; omega
    · exact h
  exact (hzero a ha' b hb' h0).2

theorem C25_tie_breaking_witness :
    (∀ a ∈ row_entries scenario_b_input 8 0, ∀ b ∈ row_entries scenario_b_input 8 0,
        Int.sign (abs_sort_cmp a b) = -Int.sign (abs_sort_cmp b a)) ∧
      (∀ a ∈ row_entries scenario_b_input 8 0, ∀ b ∈ row_entries scenario_b_input 8 0,
        ∀ c ∈ row_entries scenario_b_input 8 0,
        abs_sort_cmp a b ≤ 0 → abs_sort_cmp b c ≤ 0 → abs_sort_cmp a c ≤ 0) ∧
      (∀ a ∈ row_entries scenario_b_input 8 0, ∀ b ∈ row_entries scenario_b_input 8 0,
        abs_sort_cmp a b = 0 → a.index = b.index ∧ a = b) ∧
      (∃ s, qsort abs_sort_cmp (row_entries scenario_b_input 8 0) = some s) ∧
      ∀ s : List sort_entry_t, s.Perm (row_entries scenario_b_input 8 0) →
        s.Pairwise (fun a b => abs_sort_cmp a b ≤ 0) →
        qsort abs_sort_cmp (row_entries scenario_b_input 8 0) = some s :=
  C25_tie_breaking (row_entries scenario_b_input 8 0) (by decide!) (by decide!)

/-! ## Scale derivation; C22 -/

theorem forLoop_congr {σ : Type} (n : Nat) (body body' : Nat → σ → σ) (s0 : σ)
    (h : ∀ i, i < n → ∀ s, body i s = body' i s) : forLoop n body s0 = forLoop n body' s0 := by
  induction n with
  | zero => rfl
  | succ m ih =>
    rw [forLoop_succ, forLoop_succ, ih fun i hi s => h i (by omega) s, h m (by omega)]

/-- The maximum `abs_max` of a block depends on the elements of the block only. -/
theorem block_abs_max_congr {F : Type} (ops : FloatOps F) (x x' : Nat → F) (start remain : Nat)
    (hU : start + remain ≤ U64) (h : ∀ i, i < remain → x' (start + i) = x (start + i)) :
    block_abs_max ops x' start remain = block_abs_max ops x start remain := by
  unfold block_abs_max
  apply forLoop_congr
  intro i hi s
  have hidx : (start + i) % U64 = start + i := Nat.mod_eq_of_lt (by omega)
  simp only [hidx, h i hi]

/-- In binary32 the loop of step 1 leaves in `abs_max` a non-NaN value that is at least the
magnitude of every non-NaN element of the block and is `+0.0` or the magnitude of one of the
elements. -/
theorem block_abs_max_f32 (x : Nat → F32) (start remain : Nat) (hU : start + remain ≤ U64) :
    (block_abs_max f32Ops x start remain).isNaN = false ∧
      (∀ i, i < remain → (x (start + i)).isNaN = false →
        F32.le (F32.fabsf (x (start + i))) (block_abs_max f32Ops x start remain) = true) ∧
      (block_abs_max f32Ops x start remain = F32.zero ∨
        ∃ i, i < remain ∧ block_abs_max f32Ops x start remain = F32.fabsf (x (start + i))) := by
  unfold block_abs_max
  apply forLoop_inv (fun k (m : F32) => m.isNaN = false ∧
    (∀ i, i < k → (x (start + i)).isNaN = false → F32.le (F32.fabsf (x (start + i))) m = true) ∧
    (m = F32.zero ∨ ∃ i, i < k ∧ m = F32.fabsf (x (start + i))))
  · exact ⟨rfl, fun i hi => by omega, Or.inl rfl⟩
  · intro k hk m ⟨hm, hall, hatt⟩
    have hidx : (start + k) % U64 = start + k := Nat.mod_eq_of_lt (by omega)
    simp only [hidx, f32Ops]
    by_cases hg : F32.gt (F32.fabsf (x (start + k))) m = true
    · simp only [hg, if_true]
      have hg' := hg
      unfold F32.gt F32.lt at hg'
      simp only [Bool.and_eq_true, Bool.not_eq_true', decide_eq_true_eq] at hg'
      obtain ⟨⟨_, hv⟩, hlt⟩ := hg'
      refine ⟨hv, ?_, Or.inr ⟨k, by omega, rfl⟩⟩
      intro i hi hx
      rcases Nat.lt_succ_iff_lt_or_eq.mp hi with h | h
      · have := hall i h hx
        unfold F32.le at this ⊢
        simp only [Bool.and_eq_true, Bool.not_eq_true', decide_eq_true_eq] at this ⊢
        exact ⟨⟨this.1.1, hv⟩, by omega⟩
      · subst h
        unfold F32.le
        simp only [Bool.and_eq_true, Bool.not_eq_true', decide_eq_true_eq]
        exact ⟨⟨hv, hv⟩, le_refl _⟩
    · rw [if_neg hg]
      refine ⟨hm, ?_, ?_⟩
      · intro i hi hx
        rcases Nat.lt_succ_iff_lt_or_eq.mp hi with h | h
        · exact hall i h hx
        · subst h
          have hv : (F32.fabsf (x (start + i))).isNaN = false := hx
          unfold F32.gt F32.lt at hg
          simp only [hm, hv, Bool.not_false, Bool.true_and, decide_eq_true_eq] at hg
          unfold F32.le
          simp only [hm, hv, Bool.not_false, Bool.true_and, decide_eq_true_eq]
          omega
      · rcases hatt with h | ⟨i, hi, h⟩
        · exact Or.inl h
        · exact Or.inr ⟨i, by omega, h⟩

theorem gt_zero_of_isZero (m : F32) (h : m.isZero = true) : F32.gt m F32.zero = false := by
  rcases isZero_cases m h with rfl | rfl <;> decide

/-- C22: for every block `b` of an array produced by `quantize` (binary32), the stored scale is
`m / 127` (q8_0) or `m / 7` (q4_0), the float quotient, when `m > 0` and `+0.0` otherwise, where
`m` is the maximum magnitude over exactly the elements `32 * b .. min(32 * b + 32, n) - 1`: it is
not NaN, it is at least `|x[e]|` for every non-NaN element of the block, and it is `+0.0` or the
magnitude of an element of the block. Another input that agrees on the block gives the same
scale. -/
theorem C22_scale_derivation (x : Nat → F32) (n ty : Nat) (hmem : 4 * n ≤ U64)
    (q : quantized_array_t F32) (hq : quantize f32Ops (some x) n ty none = some (0, some q))
    (b : Nat) (hb : b < (n + 32 - 1) / 32) :
    ∃ m : F32, m.isNaN = false ∧
      (∀ e, 32 * b ≤ e → e < min (32 * b + 32) n → (x e).isNaN = false →
        F32.le (F32.fabsf (x e)) m = true) ∧
      (m = F32.zero ∨ ∃ e, 32 * b ≤ e ∧ e < min (32 * b + 32) n ∧ m = F32.fabsf (x e)) ∧
      q.scales[b]? = some (if F32.gt m F32.zero = true
        then F32.div m (F32.ofInt (code_max ty)) else F32.zero) ∧
      (m.isZero = true → q.scales[b]? = some F32.zero) ∧
      ∀ (x' : Nat → F32) (q' : quantized_array_t F32),
        (∀ e, 32 * b ≤ e → e < min (32 * b + 32) n → x' e = x e) →
        quantize f32Ops (some x') n ty none = some (0, some q') →
        q'.scales[b]? = q.scales[b]? := by
  have hU : n + 31 < U64 := by unfold U64 at *; omega
  obtain ⟨hs, hr⟩ := block_range n 32 b (by decide) hmem (by decide) hb
  obtain ⟨hlt, _⟩ := block_no_wrap n 32 b (by decide) hmem (by decide) hb
  have hrem : block_remain (block_start b 32) 32 n = min (32 * b + 32) n - 32 * b := by
    rw [hr]; split <;> omega
  have hfit : block_start b 32 + block_remain (block_start b 32) 32 n ≤ U64 := by
    rw [hrem, hs]; unfold U64 at *; omega
  have key := block_abs_max_f32 x (block_start b 32)
    (block_remain (block_start b 32) 32 n) hfit
  have hscale : ∀ (x' : Nat → F32) (q' : quantized_array_t F32),
      quantize f32Ops (some x') n ty none = some (0, some q') →
      q'.scales[b]? = some (blk_scale f32Ops (code_max ty) x' 32 n b) := by
    intro x' q' hq'
    obtain ⟨_, h | h⟩ := quantize_success f32Ops x' n ty hU q' hq'
    · obtain ⟨hty, _, hS, _⟩ := h
      subst hty
      exact hS b hb
    · obtain ⟨hty, _, _, hS, _⟩ := h
      subst hty
      exact hS b hb
  have hmine := hscale x q hq
  have hform : blk_scale f32Ops (code_max ty) x 32 n b
      = if F32.gt (block_abs_max f32Ops x (block_start b 32)
          (block_remain (block_start b 32) 32 n)) F32.zero = true
        then F32.div (block_abs_max f32Ops x (block_start b 32)
          (block_remain (block_start b 32) 32 n)) (F32.ofInt (code_max ty))
        else F32.zero := by
    unfold blk_scale block_scale
    simp only [f32Ops]
  have hlocal : ∀ (x' : Nat → F32) (q' : quantized_array_t F32),
      (∀ e, 32 * b ≤ e → e < min (32 * b + 32) n → x' e = x e) →
      quantize f32Ops (some x') n ty none = some (0, some q') →
      q'.scales[b]? = q.scales[b]? := by
    intro x' q' hagree hq'
    rw [hscale x' q' hq', hmine]
    unfold blk_scale
    rw [block_abs_max_congr f32Ops x x' _ _ hfit]
    intro i hi
    rw [hs]
    apply hagree
    · omega
    · rw [hrem] at hi; omega
  rw [hform] at hmine
  generalize block_abs_max f32Ops x (block_start b 32)
    (block_remain (block_start b 32) 32 n) = M at key hmine
  obtain ⟨m1, m2, m3⟩ := key
  rw [hrem, hs] at m2 m3
  refine ⟨M, m1, ?_, ?_, hmine, ?_, hlocal⟩
  · intro e h1 h2 hx
    have := m2 (e - 32 * b) (by omega)
    have he : b * 32 + (e - 32 * b) = e := by omega
    rw [he] at this
    exact this hx
  · rcases m3 with h | ⟨i, hi, h⟩
    · exact Or.inl h
    · refine Or.inr ⟨32 * b + i, by omega, by omega, ?_⟩
      rw [h, Nat.mul_comm]
  · intro hz
    rw [hmine, gt_zero_of_isZero _ hz]
    simp only [Bool.false_eq_true, if_false]

theorem C22_scale_derivation_witness :
    ∃ m : F32, m.isNaN = false ∧
      (∀ e, 32 * 0 ≤ e → e < min (32 * 0 + 32) 3 → (q4_input e).isNaN = false →
        F32.le (F32.fabsf (q4_input e)) m = true) ∧
      (m = F32.zero ∨ ∃ e, 32 * 0 ≤ e ∧ e < min (32 * 0 + 32) 3 ∧ m = F32.fabsf (q4_input e)) ∧
      q4_encoded.scales[0]? = some (if F32.gt m F32.zero = true
        then F32.div m (F32.ofInt (code_max 1)) else F32.zero) ∧
      (m.isZero = true → q4_encoded.scales[0]? = some F32.zero) ∧
      ∀ (x' : Nat → F32) (q' : quantized_array_t F32),
        (∀ e, 32 * 0 ≤ e → e < min (32 * 0 + 32) 3 → x' e = q4_input e) →
        quantize f32Ops (some x') 3 1 none = some (0, some q') →
        q'.scales[0]? = q4_encoded.scales[0]? :=
  C22_scale_derivation q4_input 3 1 (by decide) q4_encoded (by decide!) 0 (by decide)

/-! ## Idempotence of the sparsity codec; C28 -/

/-- With orderable rows, dimensions in `1..65535` and a ratio in `[0, 1]`, `compress` and then
`decompress` return. -/
theorem compress_decompress_total (x : Nat → F32) (nt nf : Nat) (ratio : F32)
    (out0 : Nat → F32) (hnt : 0 < nt) (hnf : 0 < nf) (hnt16 : nt < U16) (hnf16 : nf < U16)
    (h0 : F32.le F32.zero ratio = true) (h1 : F32.le ratio (F32.ofInt 1) = true)
    (hord : ∀ t, t < nt →
      ∃ p : List Nat, p.Perm (List.range nf) ∧ p.Pairwise (spec_before x (t * nf))) :
    ∃ sa y, compress (some x) nt nf ratio none = some (0, some sa) ∧
      decompress (some sa) (some out0) = some (0, some y) := by
  obtain ⟨k, _, _, ha, _⟩ := allocate_sparse_array_spec nt nf ratio hnt hnf hnf16 h0 h1
  have hcons : ∀ t, t < nt → cmp_consistent abs_sort_cmp (row_entries x nf (t * nf)) := by
    intro t ht
    obtain ⟨p, hp, hs⟩ := hord t ht
    exact cmp_consistent_of_order x nf (t * nf) (row_bound t nt nf ht hnt16 hnf16) p hp hs
  obtain ⟨sa, hc⟩ := compress_total x nt nf ratio _ hnt16 hnf16 ha hcons
  obtain ⟨_, _, e1, e2, hk, e4, e5, _, _⟩ := compress_success x nt nf ratio sa hnt16 hnf16 hc
  have hidx := compress_indices_lt x nt nf ratio sa hnt16 hnf16 hc
  obtain ⟨y, hd, _⟩ := decompress_spec sa nt nf sa.num_sparse_features out0 hnt16 hnf16 hnf
    (lt_of_le_of_lt hk hnf16) e1 e2 rfl e4 e5 hidx
  exact ⟨sa, y, hc, hd⟩

/-- After a successful `compress` and `decompress`, the cells of token `t` are given by any
ordering of the row by descending magnitude with ascending index as tie-break. -/
theorem compress_decompress_order (x : Nat → F32) (nt nf : Nat) (ratio : F32)
    (sa : sparse_array_t) (out0 y : Nat → F32) (hnt16 : nt < U16) (hnf16 : nf < U16)
    (hc : compress (some x) nt nf ratio none = some (0, some sa))
    (hd : decompress (some sa) (some out0) = some (0, some y)) (t : Nat) (ht : t < nt)
    (p : List Nat) (hp : p.Perm (List.range nf)) (hps : p.Pairwise (spec_before x (t * nf)))
    (f : Nat) (hf : f < nf) :
    y (t * nf + f)
      = if f ∈ p.take sa.num_sparse_features then x (t * nf + f) else F32.zero := by
  obtain ⟨_, _, _, _, _, _, _, _, hrows⟩ := compress_success x nt nf ratio sa hnt16 hnf16 hc
  have hsorted := row_order_sorted x nf t (row_bound t nt nf ht hnt16 hnf16) (hrows t ht).1
  have heq : p = row_order x nf t :=
    List.Perm.eq_of_sorted (fun a b _ _ hab hba => absurd hba (spec_before_asymm x _ a b hab))
      hps hsorted (hp.trans (row_order_perm x nf t).symm)
  rw [heq]
  exact compress_decompress x nt nf ratio sa out0 y hnt16 hnf16 hc hd t f ht hf

theorem key_fabsf_nonneg (v : F32) : 0 ≤ F32.key (F32.fabsf v) := by
  unfold F32.key F32.fabsf
  simp

/-- A position that comes before another in a row still does so when the value at the second
position is replaced by `+0.0`. -/
theorem spec_before_zero_right (x y : Nat → F32) (base a b : Nat)
    (ha : y (base + a) = x (base + a)) (hb : y (base + b) = F32.zero)
    (h : spec_before x base a b) : spec_before y base a b := by
  unfold spec_before at *
  rw [ha, hb]
  have hnn := key_fabsf_nonneg (x (base + b))
  have hnn2 := key_fabsf_nonneg (x (base + a))
  have hz : F32.key (F32.fabsf F32.zero) = 0 := by decide
  have hzn : (F32.fabsf F32.zero).isNaN = false := by decide
  simp only [F32.gt, F32.lt, F32.ne, Bool.and_eq_true, Bool.not_eq_true', decide_eq_true_eq,
    Bool.or_eq_false_iff, decide_eq_false_iff_not, ne_eq, not_not, hz, hzn, true_and] at *
  rcases h with ⟨⟨_, hna⟩, hlt⟩ | ⟨⟨⟨hna, _⟩, heq⟩, hab⟩
  · left; exact ⟨hna, by omega⟩
  · by_cases hpos : 0 < F32.key (F32.fabsf (x (base + a)))
    · left; exact ⟨hna, hpos⟩
    · right; exact ⟨⟨⟨hna, trivial⟩, by omega⟩, hab⟩

theorem spec_before_zero_zero (y : Nat → F32) (base a b : Nat)
    (ha : y (base + a) = F32.zero) (hb : y (base + b) = F32.zero) (hab : a < b) :
    spec_before y base a b := by
  unfold spec_before
  rw [ha, hb]
  right
  exact ⟨by decide, hab⟩

theorem spec_before_congr (x y : Nat → F32) (base a b : Nat)
    (ha : y (base + a) = x (base + a)) (hb : y (base + b) = x (base + b))
    (h : spec_before x base a b) : spec_before y base a b := by
  unfold spec_before at *
  rw [ha, hb]
  exact h

/-- The row that keeps the first `k` positions of an ordering and has `+0.0` elsewhere has an
ordering with the same first `k` positions. -/
theorem kept_row_order (x y : Nat → F32) (nf base k : Nat) (hk : k ≤ nf) (p : List Nat)
    (hp : p.Perm (List.range nf)) (hps : p.Pairwise (spec_before x base))
    (hy : ∀ f, f < nf → y (base + f) = if f ∈ p.take k then x (base + f) else F32.zero) :
    ∃ p' : List Nat, p'.Perm (List.range nf) ∧ p'.Pairwise (spec_before y base) ∧
      p'.take k = p.take k := by
  have hnodup : p.Nodup := hp.nodup_iff.mpr (List.nodup_range nf)
  have hmem : ∀ f, f ∈ p → f < nf := fun f hf => List.mem_range.mp (hp.subset hf)
  have hsplit : p.take k ++ p.drop k = p := List.take_append_drop k p
  have hdisj : ∀ f, f ∈ p.drop k → f ∉ p.take k := by
    intro f hd ht
    rw [← hsplit] at hnodup
    exact (List.nodup_append.mp hnodup).2.2 ht hd
  have hA : ∀ f, f ∈ p.take k → y (base + f) = x (base + f) := by
    intro f hf
    rw [hy f (hmem f (List.mem_of_mem_take hf)), if_pos hf]
  have hB : ∀ f, f ∈ p.drop k → y (base + f) = F32.zero := by
    intro f hf
    rw [hy f (hmem f (List.mem_of_mem_drop hf)), if_neg (hdisj f hf)]
  have hpsplit : (p.take k ++ p.drop k).Pairwise (spec_before x base) := by
    rw [hsplit]; exact hps
  obtain ⟨hpA, hpB, hcross⟩ := List.pairwise_append.mp hpsplit
  have hsB : ((p.drop k).insertionSort (fun a b => a ≤ b)).Pairwise (fun a b => a < b) := by
    have h1 : ((p.drop k).insertionSort (fun a b => a ≤ b)).Pairwise (fun a b => a ≤ b) :=
      List.sorted_insertionSort (fun a b : Nat => a ≤ b) (p.drop k)
    have h2 : ((p.drop k).insertionSort (fun a b => a ≤ b)).Nodup :=
      (List.perm_insertionSort (fun a b : Nat => a ≤ b) (p.drop k)).nodup_iff.mpr
        (hnodup.sublist (List.drop_sublist k p))
    exact (h1.and h2).imp fun h => lt_of_le_of_ne h.1 h.2
  have hmemB : ∀ f, f ∈ (p.drop k).insertionSort (fun a b => a ≤ b) → f ∈ p.drop k :=
    fun f hf => (List.perm_insertionSort (fun a b : Nat => a ≤ b) (p.drop k)).subset hf
  refine ⟨p.take k ++ (p.drop k).insertionSort (fun a b => a ≤ b), ?_, ?_, ?_⟩
  · have h1 : (p.take k ++ (p.drop k).insertionSort (fun a b => a ≤ b)).Perm
        (p.take k ++ p.drop k) :=
      List.Perm.append_left _ (List.perm_insertionSort (fun a b : Nat => a ≤ b) (p.drop k))
    rw [hsplit] at h1
    exact h1.trans hp
  · apply List.pairwise_append.mpr
    refine ⟨?_, ?_, ?_⟩
    · exact hpA.imp_of_mem fun {a b} ha hb h =>
        spec_before_congr x y base a b (hA a ha) (hA b hb) h
    · exact hsB.imp_of_mem fun {a b} ha hb h =>
        spec_before_zero_zero y base a b (hB a (hmemB a ha)) (hB b (hmemB b hb)) h
    · intro a ha b hb
      exact spec_before_zero_right x y base a b (hA a ha) (hB b (hmemB b hb))
        (hcross a ha b (hmemB b hb))
  · have hlen : (p.take k).length = k := by
      rw [List.length_take, hp.length_eq, List.length_range]; omega
    rw [List.take_append_of_le_length (by omega), List.take_of_length_le (by omega)]

/-- C28: for every matrix `x` (dimensions in `1..65535`) whose rows have an ordering by descending
magnitude with ascending index as tie-break, and every ratio in `[0, 1]`: with
`y = decompress(compress(x, ratio))`, `compress(y, ratio)` and `decompress` of it return, and the
output agrees with `y` on all `token_count * feature_count` cells. -/
theorem C28_sparsify_idempotent (x : Nat → F32) (nt nf : Nat) (ratio : F32)
    (out0 out1 : Nat → F32) (hnt : 0 < nt) (hnf : 0 < nf) (hnt16 : nt < U16) (hnf16 : nf < U16)
    (h0 : F32.le F32.zero ratio = true) (h1 : F32.le ratio (F32.ofInt 1) = true)
    (hord : ∀ t, t < nt →
      ∃ p : List Nat, p.Perm (List.range nf) ∧ p.Pairwise (spec_before x (t * nf))) :
    ∃ sa y sa2 y2, compress (some x) nt nf ratio none = some (0, some sa) ∧
      decompress (some sa) (some out0) = some (0, some y) ∧
      compress (some y) nt nf ratio none = some (0, some sa2) ∧
      decompress (some sa2) (some out1) = some (0, some y2) ∧
      ∀ p, p < nt * nf → y2 p = y p := by
  obtain ⟨sa, y, hc, hd⟩ :=
    compress_decompress_total x nt nf ratio out0 hnt hnf hnt16 hnf16 h0 h1 hord
  obtain ⟨_, _, _, _, hk, _, _, ⟨a, ha, hak⟩, hrows⟩ :=
    compress_success x nt nf ratio sa hnt16 hnf16 hc
  have hy : ∀ t, t < nt → ∀ f, f < nf → y (t * nf + f)
      = if f ∈ (row_order x nf t).take sa.num_sparse_features then x (t * nf + f)
        else F32.zero :=
    fun t ht f hf => compress_decompress x nt nf ratio sa out0 y hnt16 hnf16 hc hd t f ht hf
  have hordy : ∀ t, t < nt → ∃ p : List Nat, p.Perm (List.range nf) ∧
      p.Pairwise (spec_before y (t * nf)) ∧
      p.take sa.num_sparse_features = (row_order x nf t).take sa.num_sparse_features := by
    intro t ht
    exact kept_row_order x y nf (t * nf) sa.num_sparse_features hk (row_order x nf t)
      (row_order_perm x nf t)
      (row_order_sorted x nf t (row_bound t nt nf ht hnt16 hnf16) (hrows t ht).1) (hy t ht)
  obtain ⟨sa2, y2, hc2, hd2⟩ :=
    compress_decompress_total y nt nf ratio out1 hnt hnf hnt16 hnf16 h0 h1
      (fun t ht => by
        obtain ⟨p, hp, hs, _⟩ := hordy t ht
        exact ⟨p, hp, hs⟩)
  obtain ⟨_, _, _, _, _, _, _, ⟨a2, ha2, hak2⟩, _⟩ :=
    compress_success y nt nf ratio sa2 hnt16 hnf16 hc2
  have hkk : sa2.num_sparse_features = sa.num_sparse_features := by
    rw [← hak, ← hak2]
    exact allocate_sparse_array_count nt nt nf ratio a2 a ha2 ha
  refine ⟨sa, y, sa2, y2, hc, hd, hc2, hd2, ?_⟩
  intro p hp
  have ht : p / nf < nt := by
    rw [Nat.div_lt_iff_lt_mul hnf]; exact hp
  have hf : p % nf < nf := Nat.mod_lt _ hnf
  have hpe : p / nf * nf + p % nf = p := by
    rw [Nat.mul_comm]; exact Nat.div_add_mod p nf
  obtain ⟨q, hq, hqs, hqt⟩ := hordy (p / nf) ht
  have h2 := compress_decompress_order y nt nf ratio sa2 out1 y2 hnt16 hnf16 hc2 hd2 (p / nf) ht
    q hq hqs (p % nf) hf
  have h1 := hy (p / nf) ht (p % nf) hf
  rw [hpe] at h1 h2
  rw [h2, hkk, hqt]
  by_cases hmem : p % nf ∈ (row_order x nf (p / nf)).take sa.num_sparse_features
  · rw [if_pos hmem]
  · rw [if_neg hmem, h1, if_neg hmem]

theorem C28_sparsify_idempotent_witness :
    ∃ sa y sa2 y2, compress (some scenario_b_input) 1 8 ⟨false, 125, 0⟩ none
        = some (0, some sa) ∧
      decompress (some sa) (some fun _ => F32.zero) = some (0, some y) ∧
      compress (some y) 1 8 ⟨false, 125, 0⟩ none = some (0, some sa2) ∧
      decompress (some sa2) (some fun _ => F32.zero) = some (0, some y2) ∧
      ∀ p, p < 1 * 8 → y2 p = y p :=
  C28_sparsify_idempotent scenario_b_input 1 8 ⟨false, 125, 0⟩ (fun _ => F32.zero)
    (fun _ => F32.zero) (by decide) (by decide) (by decide) (by decide) (by decide)
    (by decide!) (fun t ht => by
      obtain rfl : t = 0 := by omega
      exact ⟨[4, 7, 0, 6, 2, 5, 1, 3], by decide, by decide!⟩)

/-! ## Binary32 rounding: lower bounds -/

namespace F32

theorem bitlenAux_lt_pow (fuel n : Nat) (h : n < 2 ^ fuel) : n < 2 ^ bitlenAux fuel n := by
  induction fuel generalizing n with
  | zero =>
    simp only [pow_zero] at h
    simp only [bitlenAux, pow_zero]
    exact h
  | succ f ih =>
    unfold bitlenAux
    split
    · omega
    · have h2 : n / 2 < 2 ^ f := by
        rw [Nat.div_lt_iff_lt_mul (by decide : 0 < 2)]
        rw [Nat.pow_succ] at h; omega
      have := ih (n / 2) h2
      rw [Nat.pow_succ]
      omega

theorem lt_pow_bitlen (n : Nat) : n < 2 ^ bitlen n :=
  bitlenAux_lt_pow n n (Nat.lt_two_pow n)

theorem pow_le_of_bitlen (n k : Nat) (h : k + 1 ≤ bitlen n) : 2 ^ k ≤ n := by
  by_contra hlt
  have := bitlenAux_le n n k (by omega)
  unfold bitlen at h
  omega

theorem roundNE_ge (a d : Nat) : a / d ≤ roundNE a d := by
  unfold roundNE
  dsimp only
  split
  · exact le_refl _
  · split
    · omega
    · split <;> omega

/-- Without overflow `pack` encodes its magnitude exactly. -/
theorem mag_pack_eq (sgn : Bool) (m s : Nat) (hm : m ≤ 2 ^ 24) (hs : m < 2 ^ 23 → s = 0)
    (hs2 : s + 2 < 255) : mag (pack sgn m s) = m * 2 ^ s := by
  unfold pack
  split
  · rename_i h
    rw [mag_ofFields _ _ _ (by decide) (by omega), hs h]
    simp
  · rename_i h
    split
    · rename_i h2
      rw [if_pos (by omega), mag_ofFields _ _ _ (by omega) (by omega), if_neg (by omega)]
      have : m - 2 ^ 23 + 2 ^ 23 = m := by omega
      rw [this, Nat.add_sub_cancel]
    · rename_i h2
      have hm24 : m = 2 ^ 24 := by omega
      rw [mag_ofFields _ _ _ (by omega) (by decide), if_neg (by omega), hm24]
      have e1 : s + 2 - 1 = s + 1 := by omega
      rw [e1, pow_succ 2 s]
      generalize 2 ^ s = T
      omega

/-- Rounding loses at most one part in `2 ^ 23`: with `W` the exact magnitude in units of
`2 ^ (-149)`, rounded down, the result has magnitude at least `W - W / 2 ^ 23`. -/
theorem round_mag_ge (sgn : Bool) (num den : Nat) (e : Int) (hden : 0 < den)
    (hW : (if 0 ≤ e + 149 then num * 2 ^ (e + 149).toNat else num)
      / (if 0 ≤ e + 149 then den else den * 2 ^ (-(e + 149)).toNat) < 2 ^ 173) :
    (if 0 ≤ e + 149 then num * 2 ^ (e + 149).toNat else num)
        / (if 0 ≤ e + 149 then den else den * 2 ^ (-(e + 149)).toNat)
      - (if 0 ≤ e + 149 then num * 2 ^ (e + 149).toNat else num)
        / (if 0 ≤ e + 149 then den else den * 2 ^ (-(e + 149)).toNat) / 2 ^ 23
      ≤ mag (round sgn num den e) := by
  unfold round
  dsimp only
  generalize (if 0 ≤ e + 149 then num * 2 ^ (e + 149).toNat else num) = a at hW ⊢
  generalize hb : (if 0 ≤ e + 149 then den else den * 2 ^ (-(e + 149)).toNat) = b at hW ⊢
  have hbpos : 0 < b := by
    rw [← hb]; split
    · exact hden
    · exact Nat.mul_pos hden (Nat.two_pow_pos _)
  have hbl : bitlen (a / b) ≤ 173 := bitlenAux_le (a / b) (a / b) 173 hW
  have hlt := lt_pow_bitlen (a / b)
  generalize hWdef : a / b = W at hW hbl hlt ⊢
  generalize hsdef : bitlen W - 24 = s
  have hs : s ≤ 149 := by omega
  have hT : 0 < 2 ^ s := Nat.two_pow_pos s
  have hdiv : a / (b * 2 ^ s) = W / 2 ^ s := by
    rw [← Nat.div_div_eq_div_mul, hWdef]
  have hWs : W < 2 ^ (24 + s) :=
    lt_of_lt_of_le hlt (Nat.pow_le_pow_right (by decide) (by omega))
  have hq24 : W / 2 ^ s < 2 ^ 24 := by
    rw [Nat.div_lt_iff_lt_mul hT, ← Nat.pow_add]
    exact hWs
  have hm1 : W / 2 ^ s ≤ roundNE a (b * 2 ^ s) := by
    rw [← hdiv]; exact roundNE_ge _ _
  have hm2 : roundNE a (b * 2 ^ s) ≤ 2 ^ 24 := by
    apply roundNE_le _ _ _ (Nat.mul_pos hbpos hT)
    have : a / (b * 2 ^ s) < 2 ^ 24 := by rw [hdiv]; exact hq24
    rw [Nat.div_lt_iff_lt_mul (Nat.mul_pos hbpos hT)] at this
    exact le_of_lt this
  have hbig : 1 ≤ s → 2 ^ 23 * 2 ^ s ≤ W := by
    intro h1
    have := pow_le_of_bitlen W (s + 23) (by omega)
    rw [Nat.pow_add, Nat.mul_comm] at this
    exact this
  have hsm : roundNE a (b * 2 ^ s) < 2 ^ 23 → s = 0 := by
    intro hm
    by_contra hne
    have h1 := hbig (by omega)
    have : 2 ^ 23 ≤ W / 2 ^ s := (Nat.le_div_iff_mul_le hT).mpr h1
    omega
  rw [mag_pack_eq sgn _ s hm2 hsm (by omega)]
  have hmul : W / 2 ^ s * 2 ^ s ≤ roundNE a (b * 2 ^ s) * 2 ^ s := Nat.mul_le_mul_right _ hm1
  have hdm := Nat.div_add_mod W (2 ^ s)
  have hmod := Nat.mod_lt W hT
  have hcomm : 2 ^ s * (W / 2 ^ s) = W / 2 ^ s * 2 ^ s := Nat.mul_comm _ _
  rcases Nat.eq_zero_or_pos s with h0 | h0
  · subst h0
    simp only [pow_zero, Nat.div_one, Nat.mul_one] at hmul ⊢
    omega
  · have h1 := hbig h0
    have h2 : 2 ^ s ≤ W / 2 ^ 23 := by
      rw [Nat.le_div_iff_mul_le (by decide : 0 < 2 ^ 23), Nat.mul_comm]
      exact h1
    omega

theorem mag_one : mag ⟨false, 127, 0⟩ = 2 ^ 149 := by decide

/-- The product of a finite value with `1.0f` has at least the magnitude of the value less one
part in `2 ^ 23`. -/
theorem mul_one_mag_ge (a : F32) (hna : a.isNaN = false) (hfin : mag a < 2 ^ 173) :
    mag a - mag a / 2 ^ 23 ≤ mag (mul a ⟨false, 127, 0⟩) := by
  have hia : a.isInf = false := by
    apply isInf_false_of_mag_lt
    have : (2 : Nat) ^ 173 < 2 ^ 23 * 2 ^ 254 := by decide
    omega
  have hsig1 : sig ⟨false, 127, 0⟩ = 2 ^ 23 := by decide
  have hex1 : ex ⟨false, 127, 0⟩ = -23 := by decide
  rw [mul_finite a _ hna (by decide) hia (by decide), hsig1, hex1]
  have hW : (if 0 ≤ ex a + -23 + 149 then sig a * 2 ^ 23 * 2 ^ (ex a + -23 + 149).toNat
        else sig a * 2 ^ 23)
      / (if 0 ≤ ex a + -23 + 149 then 1 else 1 * 2 ^ (-(ex a + -23 + 149)).toNat) = mag a := by
    unfold ex mag
    split
    · rename_i hpos
      have e2 : ((sh a : Int) - 149 + -23 + 149).toNat = sh a - 23 := by omega
      have hge : 23 ≤ sh a := by omega
      rw [e2, Nat.div_one, Nat.mul_assoc, ← Nat.pow_add, Nat.add_sub_cancel' hge]
    · rename_i hneg
      have e2 : (-((sh a : Int) - 149 + -23 + 149)).toNat = 23 - sh a := by omega
      have hlt : sh a ≤ 23 := by omega
      rw [e2, Nat.one_mul]
      have e3 : (2 : Nat) ^ 23 = 2 ^ sh a * 2 ^ (23 - sh a) := by
        rw [← Nat.pow_add, Nat.add_sub_cancel' hlt]
      rw [e3, ← Nat.mul_assoc, Nat.mul_div_cancel _ (Nat.two_pow_pos _)]
  have := round_mag_ge (xor a.sign false) (sig a * 2 ^ 23) 1 (ex a + -23) (by decide)
    (by rw [hW]; exact hfin)
  rw [hW] at this
  exact this

/-- The conversion of a natural number to `float` has at least its magnitude less one part in
`2 ^ 23`. -/
theorem ofInt_mag_ge (n : Nat) (hn : n < 2 ^ 24) :
    n * 2 ^ 149 - n * 2 ^ 149 / 2 ^ 23 ≤ mag (ofInt (n : Int)) := by
  unfold ofInt
  have hW : (if (0 : Int) ≤ 0 + 149 then (n : Int).natAbs * 2 ^ ((0 : Int) + 149).toNat
        else (n : Int).natAbs)
      / (if (0 : Int) ≤ 0 + 149 then 1 else 1 * 2 ^ (-((0 : Int) + 149)).toNat)
      = n * 2 ^ 149 := by
    simp
  have hlt : n * 2 ^ 149 < 2 ^ 173 := by
    have : n * 2 ^ 149 < 2 ^ 24 * 2 ^ 149 := Nat.mul_lt_mul_of_pos_right hn (Nat.two_pow_pos _)
    have e1 : (2 : Nat) ^ 24 * 2 ^ 149 = 2 ^ 173 := by rw [← Nat.pow_add]
    omega
  have := round_mag_ge (decide ((n : Int) < 0)) (n : Int).natAbs 1 0 (by decide)
    (by rw [hW]; exact hlt)
  rw [hW] at this
  exact this

end F32


/-! ## Full and zero ratio; C29 -/

/-- For a feature count in `1..65535` the value `(uint16_t)roundf((float)n * 1.0f)` is `n`. -/
theorem roundf_mul_one (n : Nat) (hn : n < 2 ^ 16) :
    F32.roundfToUInt16 (F32.mul (F32.ofInt (n : Int)) ⟨false, 127, 0⟩) = n := by
  obtain ⟨hau, hanan, _⟩ := F32.ofInt_natCast n (by omega)
  have hal := F32.ofInt_mag_ge n (by omega)
  obtain ⟨hmu, hmnan, hmsign, _⟩ := F32.mul_mag_le (F32.ofInt (n : Int)) ⟨false, 127, 0⟩ n
    (by omega) hau (by rw [F32.mag_one]) hanan (by decide)
  have hml := F32.mul_one_mag_ge (F32.ofInt (n : Int)) hanan (by
    have : n * 2 ^ 149 < 2 ^ 24 * 2 ^ 149 :=
      Nat.mul_lt_mul_of_pos_right (by omega) (Nat.two_pow_pos _)
    have e1 : (2 : Nat) ^ 24 * 2 ^ 149 = 2 ^ 173 := by rw [← Nat.pow_add]
    omega)
  have hP : (2 : Nat) ^ 149 = 2 ^ 126 * 2 ^ 23 := by rw [← Nat.pow_add]
  have hdivn : n * 2 ^ 149 / 2 ^ 23 = n * 2 ^ 126 := by
    rw [hP, ← Nat.mul_assoc, Nat.mul_div_cancel _ (Nat.two_pow_pos _)]
  have hdiva : F32.mag (F32.ofInt (n : Int)) / 2 ^ 23 ≤ n * 2 ^ 126 := by
    rw [← hdivn]
    exact Nat.div_le_div_right hau
  have hE : n * 2 ^ 126 ≤ 65536 * 2 ^ 126 := Nat.mul_le_mul_right _ (by omega)
  have e149 : n * 2 ^ 149 = 8388608 * (n * 2 ^ 126) := by rw [hP]; ring
  rw [hdivn] at hal
  rw [e149] at hal hau hmu
  have hsign : (F32.mul (F32.ofInt (n : Int)) ⟨false, 127, 0⟩).sign = false := by
    rw [hmsign, (F32.ofInt_natCast n (by omega)).2.2]; rfl
  have hdiv : (2 * F32.mag (F32.mul (F32.ofInt (n : Int)) ⟨false, 127, 0⟩) + 2 ^ 149) / 2 ^ 150
      = n := by
    have h149 : (2 : Nat) ^ 149 = 8388608 * 2 ^ 126 := by rw [hP]; ring
    have h150 : (2 : Nat) ^ 150 = 16777216 * 2 ^ 126 := by
      have : (2 : Nat) ^ 150 = 2 ^ 126 * 2 ^ 24 := by rw [← Nat.pow_add]
      rw [this]; ring
    apply Nat.div_eq_of_lt_le
    · rw [h149, h150]
      have e : n * (16777216 * 2 ^ 126) = 16777216 * (n * 2 ^ 126) := by ring
      rw [e]
      generalize F32.mag (F32.mul (F32.ofInt (n : Int)) ⟨false, 127, 0⟩) = M at hml hmu ⊢
      generalize F32.mag (F32.ofInt (n : Int)) = A at hal hau hdiva hml
      generalize n * 2 ^ 126 = E at *
      generalize (2 : Nat) ^ 126 = D at *
      omega
    · rw [h149, h150]
      have e : (n + 1) * (16777216 * 2 ^ 126)
          = 16777216 * (n * 2 ^ 126) + 16777216 * 2 ^ 126 := by ring
      rw [e]
      have hD : 0 < 2 ^ 126 := Nat.two_pow_pos _
      generalize F32.mag (F32.mul (F32.ofInt (n : Int)) ⟨false, 127, 0⟩) = M at hml hmu ⊢
      generalize n * 2 ^ 126 = E at *
      generalize (2 : Nat) ^ 126 = D at *
      omega
  unfold F32.roundfToUInt16 F32.roundfInt
  rw [hmnan, hsign]
  simp only [Bool.false_eq_true, if_false]
  rw [hdiv]
  omega

/-- With ratio `1.0f` the allocator keeps every feature. -/
theorem allocate_sparse_array_full (nt nf : Nat) (hnt : 0 < nt) (hnf : 0 < nf)
    (hnf16 : nf < U16) :
    ∃ sa, allocate_sparse_array nt nf (F32.ofInt 1) = some sa ∧ sa.num_sparse_features = nf := by
  have hone : F32.ofInt 1 = ⟨false, 127, 0⟩ := by decide!
  have hr := roundf_mul_one nf (by unfold U16 at hnf16; omega)
  unfold allocate_sparse_array
  rw [if_neg (by omega), hone]
  have hv : (F32.lt ⟨false, 127, 0⟩ F32.zero || F32.gt ⟨false, 127, 0⟩ ⟨false, 127, 0⟩) = false := by
    decide
  rw [if_neg (by rw [hv]; decide)]
  refine ⟨_, rfl, ?_⟩
  dsimp only
  rw [hr, if_neg (by omega), if_neg (by omega)]

/-- C29: for every matrix `x` (dimensions in `1..65535`) whose rows have an ordering by
descending magnitude with ascending index as tie-break: with ratio `1.0f` the retained count is
the feature count and `decompress(compress(x, 1))` equals `x` on every cell, bit for bit; with
ratio `0.0f` the retained count is 0 and `decompress(compress(x, 0))` is `+0.0` on every cell. -/
theorem C29_full_and_zero_ratio (x : Nat → F32) (nt nf : Nat) (out0 : Nat → F32)
    (hnt : 0 < nt) (hnf : 0 < nf) (hnt16 : nt < U16) (hnf16 : nf < U16)
    (hord : ∀ t, t < nt →
      ∃ p : List Nat, p.Perm (List.range nf) ∧ p.Pairwise (spec_before x (t * nf))) :
    (∃ sa y, compress (some x) nt nf (F32.ofInt 1) none = some (0, some sa) ∧
        sa.num_sparse_features = nf ∧
        decompress (some sa) (some out0) = some (0, some y) ∧
        ∀ p, p < nt * nf → y p = x p) ∧
      ∃ sa y, compress (some x) nt nf F32.zero none = some (0, some sa) ∧
        sa.num_sparse_features = 0 ∧
        decompress (some sa) (some out0) = some (0, some y) ∧
        ∀ p, p < nt * nf → y p = F32.zero := by
  have hcell : ∀ p, p < nt * nf → p / nf < nt ∧ p % nf < nf ∧ p / nf * nf + p % nf = p := by
    intro p hp
    refine ⟨by rw [Nat.div_lt_iff_lt_mul hnf]; exact hp, Nat.mod_lt _ hnf, ?_⟩
    rw [Nat.mul_comm]; exact Nat.div_add_mod p nf
  constructor
  · obtain ⟨sa, y, hc, hd⟩ := compress_decompress_total x nt nf (F32.ofInt 1) out0 hnt hnf
      hnt16 hnf16 (by decide!) (by decide!) hord
    obtain ⟨_, _, _, _, _, _, _, ⟨a, ha, hak⟩, _⟩ :=
      compress_success x nt nf (F32.ofInt 1) sa hnt16 hnf16 hc
    obtain ⟨b, hb, hbk⟩ := allocate_sparse_array_full nt nf hnt hnf hnf16
    have hk : sa.num_sparse_features = nf := by
      rw [← hak, allocate_sparse_array_count nt nt nf (F32.ofInt 1) a b ha hb, hbk]
    refine ⟨sa, y, hc, hk, hd, ?_⟩
    intro p hp
    obtain ⟨ht, hf, hpe⟩ := hcell p hp
    have h := compress_decompress x nt nf (F32.ofInt 1) sa out0 y hnt16 hnf16 hc hd (p / nf)
      (p % nf) ht hf
    rw [hpe, hk, List.take_of_length_le (by rw [row_order_length])] at h
    rw [h, if_pos ((row_order_perm x nf (p / nf)).symm.subset (List.mem_range.mpr hf))]
  · obtain ⟨sa, y, hc, hd⟩ := compress_decompress_total x nt nf F32.zero out0 hnt hnf
      hnt16 hnf16 (by decide) (by decide!) hord
    obtain ⟨_, _, _, _, _, _, _, ⟨a, ha, hak⟩, _⟩ :=
      compress_success x nt nf F32.zero sa hnt16 hnf16 hc
    obtain ⟨k, _, _, hb, hkv⟩ := allocate_sparse_array_spec nt nf F32.zero hnt hnf hnf16
      (by decide) (by decide!)
    have hk : sa.num_sparse_features = 0 := by
      rw [← hak, allocate_sparse_array_count nt nt nf F32.zero a _ ha hb]
      have hg : F32.gt F32.zero F32.zero = false := by decide
      rw [hg] at hkv
      simp only [Bool.false_eq_true, if_false] at hkv
      exact_mod_cast hkv
    refine ⟨sa, y, hc, hk, hd, ?_⟩
    intro p hp
    obtain ⟨ht, hf, hpe⟩ := hcell p hp
    have h := compress_decompress x nt nf F32.zero sa out0 y hnt16 hnf16 hc hd (p / nf)
      (p % nf) ht hf
    rw [hpe, hk, List.take_zero] at h
    rw [h, if_neg (List.not_mem_nil _)]

theorem C29_full_and_zero_ratio_witness :
    (∃ sa y, compress (some scenario_b_input) 1 8 (F32.ofInt 1) none = some (0, some sa) ∧
        sa.num_sparse_features = 8 ∧
        decompress (some sa) (some fun _ => F32.zero) = some (0, some y) ∧
        ∀ p, p < 1 * 8 → y p = scenario_b_input p) ∧
      ∃ sa y, compress (some scenario_b_input) 1 8 F32.zero none = some (0, some sa) ∧
        sa.num_sparse_features = 0 ∧
        decompress (some sa) (some fun _ => F32.zero) = some (0, some y) ∧
        ∀ p, p < 1 * 8 → y p = F32.zero :=
  C29_full_and_zero_ratio scenario_b_input 1 8 (fun _ => F32.zero) (by decide) (by decide)
    (by decide) (by decide) (fun t ht => by
      obtain rfl : t = 0 := by omega
      exact ⟨[4, 7, 0, 6, 2, 5, 1, 3], by decide, by decide!⟩)


/-! ## Re-encoding a decoded array in exact arithmetic; C27 -/

theorem rintQ_intCast (c : Int) : rintQ (c : ℚ) = c := by
  unfold rintQ
  rw [Int.floor_intCast, sub_self, if_pos (by norm_num)]

/-- In exact arithmetic the maximum of a block is 0 or the magnitude of one of its elements. -/
theorem block_abs_max_exact_attained (x : Nat → ℚ) (start remain : Nat)
    (hU : start + remain ≤ U64) :
    block_abs_max exactOps x start remain = 0 ∨
      ∃ i, i < remain ∧ |x (start + i)| = block_abs_max exactOps x start remain := by
  unfold block_abs_max
  apply forLoop_inv (fun k (m : ℚ) => m = 0 ∨ ∃ i, i < k ∧ |x (start + i)| = m)
  · exact Or.inl rfl
  · intro k hk m hatt
    have hidx : (start + k) % U64 = start + k := Nat.mod_eq_of_lt (by omega)
    simp only [exactOps, hidx, decide_eq_true_eq]
    split_ifs with hlt
    · exact Or.inr ⟨k, by omega, rfl⟩
    · rcases hatt with h | ⟨i, hi, h⟩
      · exact Or.inl h
      · exact Or.inr ⟨i, by omega, h⟩

/-- In exact arithmetic a bound of the block that is 0 or attained is the maximum of the block. -/
theorem block_abs_max_exact_eq (y : Nat → ℚ) (start remain : Nat) (M : ℚ)
    (hU : start + remain ≤ U64) (hM : 0 ≤ M) (hle : ∀ i, i < remain → |y (start + i)| ≤ M)
    (hatt : M = 0 ∨ ∃ i, i < remain ∧ |y (start + i)| = M) :
    block_abs_max exactOps y start remain = M := by
  have hup : block_abs_max exactOps y start remain ≤ M := by
    unfold block_abs_max
    apply forLoop_inv (fun _ (m : ℚ) => m ≤ M)
    · exact hM
    · intro k hk m hm
      have hidx : (start + k) % U64 = start + k := Nat.mod_eq_of_lt (by omega)
      simp only [exactOps, hidx, decide_eq_true_eq]
      split_ifs with hlt
      · exact hle k hk
      · exact hm
  obtain ⟨h0, hmax⟩ := block_abs_max_exact y start remain hU
  rcases hatt with h | ⟨i, hi, h⟩
  · rw [h] at hup ⊢
    exact le_antisymm hup h0
  · exact le_antisymm hup (by rw [← h]; exact hmax i hi)

/-- In exact arithmetic, for a block with maximum `m`: the code of an element bounded by `m` is
the nearest integer of `x * qmax / m` (no clamping occurs), re-encoding the decoded value with
the same scale gives the same code, the decoded value is bounded by `m`, and it has magnitude `m`
when the element has. -/
theorem exact_recode (Q : Int) (hQ : 0 < Q) (xe m : ℚ) (hm : 0 ≤ m) (hx : |xe| ≤ m) :
    quant_code exactOps Q
        (exactOps.mul (block_scale exactOps Q m)
          (exactOps.ofInt (quant_code exactOps Q xe (block_inv_scale exactOps
            (block_scale exactOps Q m)))))
        (block_inv_scale exactOps (block_scale exactOps Q m))
      = quant_code exactOps Q xe (block_inv_scale exactOps (block_scale exactOps Q m)) ∧
    |exactOps.mul (block_scale exactOps Q m)
        (exactOps.ofInt (quant_code exactOps Q xe (block_inv_scale exactOps
          (block_scale exactOps Q m))))| ≤ m ∧
    (|xe| = m →
      |exactOps.mul (block_scale exactOps Q m)
        (exactOps.ofInt (quant_code exactOps Q xe (block_inv_scale exactOps
          (block_scale exactOps Q m))))| = m) := by
  have hQ' : (0 : ℚ) < (Q : ℚ) := by exact_mod_cast hQ
  have hr := quant_code_range exactOps Q (le_of_lt hQ) xe
    (block_inv_scale exactOps (block_scale exactOps Q m))
  generalize hc : quant_code exactOps Q xe (block_inv_scale exactOps (block_scale exactOps Q m))
    = c at hr ⊢
  by_cases hpos : 0 < m
  · have hs : 0 < m / (Q : ℚ) := div_pos hpos hQ'
    have hsc : block_scale exactOps Q m = m / (Q : ℚ) := by
      unfold block_scale
      simp only [exactOps, decide_eq_true_eq]
      rw [if_pos hpos]
    have hinv : block_inv_scale exactOps (m / (Q : ℚ)) = ((1 : Int) : ℚ) / (m / (Q : ℚ)) := by
      unfold block_inv_scale
      simp only [exactOps, decide_eq_true_eq]
      rw [if_pos hs]
    rw [hsc, hinv] at hc ⊢
    have hmul : exactOps.mul (m / (Q : ℚ)) (exactOps.ofInt c) = m / (Q : ℚ) * (c : ℚ) := rfl
    rw [hmul]
    have hcQ : |(c : ℚ)| ≤ (Q : ℚ) := by
      rw [abs_le]
      constructor
      · have : (-Q : Int) ≤ c := hr.1
        exact_mod_cast this
      · exact_mod_cast hr.2
    refine ⟨?_, ?_, ?_⟩
    · unfold quant_code
      have hval : exactOps.mul (m / (Q : ℚ) * (c : ℚ)) (((1 : Int) : ℚ) / (m / (Q : ℚ)))
          = (c : ℚ) := by
        show m / (Q : ℚ) * (c : ℚ) * (((1 : Int) : ℚ) / (m / (Q : ℚ))) = (c : ℚ)
        push_cast
        field_simp
      have hl : exactOps.lrintf (c : ℚ) = c := rintQ_intCast c
      simp only [hval, hl]
      rw [if_neg (by omega), if_neg (by omega)]
    · rw [abs_mul, abs_of_pos hs]
      calc m / (Q : ℚ) * |(c : ℚ)| ≤ m / (Q : ℚ) * (Q : ℚ) :=
            mul_le_mul_of_nonneg_left hcQ (le_of_lt hs)
        _ = m := by field_simp
    · intro hxm
      have hcv : c = Q ∨ c = -Q := by
        rw [← hc]
        unfold quant_code
        rcases abs_eq (le_of_lt hpos) |>.mp hxm with h | h
        · left
          have hval : exactOps.mul xe (((1 : Int) : ℚ) / (m / (Q : ℚ))) = (Q : ℚ) := by
            show xe * (((1 : Int) : ℚ) / (m / (Q : ℚ))) = (Q : ℚ)
            rw [h]; push_cast; field_simp
          have hl : exactOps.lrintf (Q : ℚ) = Q := rintQ_intCast Q
          simp only [hval, hl]
          rw [if_neg (by omega), if_neg (by omega)]
        · right
          have hval : exactOps.mul xe (((1 : Int) : ℚ) / (m / (Q : ℚ))) = ((-Q : Int) : ℚ) := by
            show xe * (((1 : Int) : ℚ) / (m / (Q : ℚ))) = ((-Q : Int) : ℚ)
            rw [h]; push_cast; field_simp; ring
          have hl : exactOps.lrintf ((-Q : Int) : ℚ) = -Q := rintQ_intCast (-Q)
          simp only [hval, hl]
          rw [if_neg (by omega), if_neg (by omega)]
      rw [abs_mul, abs_of_pos hs]
      have : |(c : ℚ)| = (Q : ℚ) := by
        rcases hcv with h | h
        · rw [h, abs_of_pos hQ']
        · rw [h]; push_cast; rw [abs_neg, abs_of_pos hQ']
      rw [this]
      field_simp
  · have hm0 : m = 0 := le_antisymm (not_lt.mp hpos) hm
    subst hm0
    have hsc : block_scale exactOps Q 0 = 0 := by
      unfold block_scale
      simp [exactOps]
    have hinv : block_inv_scale exactOps (0 : ℚ) = 0 := by
      unfold block_inv_scale
      simp [exactOps]
    rw [hsc, hinv] at hc ⊢
    have hmul : exactOps.mul (0 : ℚ) (exactOps.ofInt c) = 0 := by
      show (0 : ℚ) * (c : ℚ) = 0
      ring
    rw [hmul]
    have hz : ∀ v : ℚ, quant_code exactOps Q v 0 = 0 := by
      intro v
      unfold quant_code
      have hval : exactOps.mul v 0 = ((0 : Int) : ℚ) := by
        show v * 0 = ((0 : Int) : ℚ)
        simp
      have hl : exactOps.lrintf ((0 : Int) : ℚ) = 0 := rintQ_intCast 0
      simp only [hval, hl]
      rw [if_neg (by omega), if_neg (by omega)]
    refine ⟨?_, by simp, fun _ => by simp⟩
    rw [hz, ← hc, hz]

/-- In exact arithmetic, an array that holds `scale * code` at every element has, block by block,
the scales and the codes of the array it was decoded from. -/
theorem exact_reencode (Q : Int) (hQ : 0 < Q) (x y : Nat → ℚ) (n : Nat) (hU : n + 31 < U64)
    (hy : ∀ e, e < n → y e = exactOps.mul (blk_scale exactOps Q x 32 n (e / 32))
      (exactOps.ofInt (elem_code exactOps Q x 32 n e))) :
    (∀ b, b < (n + 32 - 1) / 32 → blk_scale exactOps Q y 32 n b = blk_scale exactOps Q x 32 n b) ∧
      ∀ e, e < n → elem_code exactOps Q y 32 n e = elem_code exactOps Q x 32 n e := by
  have hblk : ∀ b, b < (n + 32 - 1) / 32 →
      blk_scale exactOps Q y 32 n b = blk_scale exactOps Q x 32 n b := by
    intro b hb
    have hstart := block_start_eq n 32 b (by decide) (by omega) hb
    have hrem := block_remain_eq n 32 b (by decide) (by omega) hb
    have hlt := block_lt_of_lt_num_blocks n 32 b (by decide) hb
    have hUb : b * 32 + min 32 (n - b * 32) ≤ U64 := by omega
    obtain ⟨hm0, hmax⟩ := block_abs_max_exact x (b * 32) (min 32 (n - b * 32)) hUb
    have hatt := block_abs_max_exact_attained x (b * 32) (min 32 (n - b * 32)) hUb
    have hyb : ∀ i, i < min 32 (n - b * 32) → y (b * 32 + i)
        = exactOps.mul (block_scale exactOps Q
            (block_abs_max exactOps x (b * 32) (min 32 (n - b * 32))))
          (exactOps.ofInt (quant_code exactOps Q (x (b * 32 + i)) (block_inv_scale exactOps
            (block_scale exactOps Q
              (block_abs_max exactOps x (b * 32) (min 32 (n - b * 32))))))) := by
      intro i hi
      have hdiv : (b * 32 + i) / 32 = b := by omega
      rw [hy (b * 32 + i) (by omega)]
      unfold elem_code blk_scale
      rw [hdiv, hstart, hrem]
    unfold blk_scale
    rw [hstart, hrem]
    congr 1
    apply block_abs_max_exact_eq y (b * 32) (min 32 (n - b * 32)) _ hUb hm0
    · intro i hi
      rw [hyb i hi]
      exact (exact_recode Q hQ (x (b * 32 + i)) _ hm0 (hmax i hi)).2.1
    · rcases hatt with h | ⟨i, hi, h⟩
      · exact Or.inl h
      · refine Or.inr ⟨i, hi, ?_⟩
        rw [hyb i hi]
        exact (exact_recode Q hQ (x (b * 32 + i)) _ hm0 (hmax i hi)).2.2 h
  refine ⟨hblk, ?_⟩
  intro e he
  have hb := lt_num_blocks_of_lt n 32 e (by decide) he
  have hstart := block_start_eq n 32 (e / 32) (by decide) (by omega) hb
  have hrem := block_remain_eq n 32 (e / 32) (by decide) (by omega) hb
  have hlt := block_lt_of_lt_num_blocks n 32 (e / 32) (by decide) hb
  obtain ⟨hm0, hmax⟩ := block_abs_max_exact x (e / 32 * 32) (min 32 (n - e / 32 * 32))
    (by omega)
  have hxe := hmax (e % 32) (by omega)
  have hidx : e / 32 * 32 + e % 32 = e := by omega
  rw [hidx] at hxe
  have h1 := (exact_recode Q hQ (x e) _ hm0 hxe).1
  unfold elem_code
  rw [hblk _ hb, hy e he]
  unfold elem_code blk_scale
  rw [hstart, hrem]
  exact h1

/-- Two records with the same header fields and the same content at every position of the two
regions are equal. -/
theorem quantized_array_ext {F : Type} (q q' : quantized_array_t F) (ty n bs dlen : Nat)
    (hq : Shaped q ty n bs dlen) (hq' : Shaped q' ty n bs dlen)
    (hS : ∀ b, b < (n + bs - 1) / bs → q'.scales[b]? = q.scales[b]?)
    (hD : ∀ j, j < dlen → q'.data[j]? = q.data[j]?) : q' = q := by
  obtain ⟨t, m, nb, s, sc, d⟩ := q
  obtain ⟨t', m', nb', s', sc', d'⟩ := q'
  obtain ⟨h1, h2, h3, h4, h5, h6⟩ := hq
  obtain ⟨h1', h2', h3', h4', h5', h6'⟩ := hq'
  simp only at h1 h2 h3 h4 h5 h6 h1' h2' h3' h4' h5' h6' hS hD
  have hsc : sc' = sc := by
    apply List.ext_getElem?
    intro b
    by_cases hb : b < (n + bs - 1) / bs
    · exact hS b hb
    · rw [List.getElem?_eq_none (by omega), List.getElem?_eq_none (by omega)]
  have hd : d' = d := by
    apply List.ext_getElem?
    intro j
    by_cases hj : j < dlen
    · exact hD j hj
    · rw [List.getElem?_eq_none (by omega), List.getElem?_eq_none (by omega)]
  rw [h1, h2, h3, h4, h1', h2', h3', h4', hsc, hd]

/-- C27: with exact arithmetic in place of binary32 rounding, for every input array `x` of `n`
values (an array of `n` floats fits the address space) and either format, when `quantize(x)`
succeeds with record `q`: `dequantize(q)` succeeds with an array `y`, `quantize(y)` succeeds and
gives the same record `q` (same scales, same codes), and `dequantize` of it into any buffer gives
`y` again on the `n` elements. -/
theorem C27_quantize_idempotent (x : Nat → ℚ) (n ty : Nat) (hmem : 4 * n ≤ U64)
    (q : quantized_array_t ℚ) (out0 : Nat → ℚ)
    (hq : quantize exactOps (some x) n ty none = some (0, some q)) :
    ∃ y, dequantize exactOps (some q) (some out0) = some (0, some y) ∧
      quantize exactOps (some y) n ty none = some (0, some q) ∧
      ∀ out1, ∃ z, dequantize exactOps (some q) (some out1) = some (0, some z) ∧
        ∀ e, e < n → z e = y e := by
  have hU : n + 31 < U64 := by unfold U64 at *; omega
  obtain ⟨hn, h | h⟩ := quantize_success exactOps x n ty hU q hq
  · obtain ⟨hty, hsh, hS, hD⟩ := h
    subst hty
    obtain ⟨y, hy, hv⟩ := dequantize_q8_total exactOps x n hU q hsh hS hD out0
    have hye : ∀ e, e < n → y e = exactOps.mul (blk_scale exactOps 127 x 32 n (e / 32))
        (exactOps.ofInt (elem_code exactOps 127 x 32 n e)) := by
      intro e he
      rw [hv e, if_pos he]
    obtain ⟨hbs, hcs⟩ := exact_reencode 127 (by decide) x y n hU hye
    obtain ⟨q', hq', hsh', hS', hD'⟩ := quantize_q8_total exactOps y n hn hU
      (by unfold U64 sizeof_quantized_array_t at *; omega)
    have heq : q' = q := by
      apply quantized_array_ext q q' 0 n 32 n hsh hsh'
      · intro b hb
        rw [hS' b hb, hS b hb, hbs b hb]
      · intro e he
        rw [hD' e he, hD e he, hcs e he]
    rw [heq] at hq'
    refine ⟨y, hy, hq', ?_⟩
    intro out1
    obtain ⟨z, hz, hzv⟩ := dequantize_q8_total exactOps x n hU q hsh hS hD out1
    refine ⟨z, hz, ?_⟩
    intro e he
    rw [hzv e, if_pos he, hye e he]
  · obtain ⟨hty, hn32, hsh, hS, hD⟩ := h
    subst hty
    obtain ⟨y, hy, hv⟩ := dequantize_q4_total exactOps x n hn32 q hsh hS hD out0
    have hye : ∀ e, e < n → y e = exactOps.mul (blk_scale exactOps 7 x 32 n (e / 32))
        (exactOps.ofInt (elem_code exactOps 7 x 32 n e)) := by
      intro e he
      rw [hv e, if_pos he]
    obtain ⟨hbs, hcs⟩ := exact_reencode 7 (by decide) x y n hU hye
    obtain ⟨q', hq', hsh', hS', hD'⟩ := quantize_q4_total exactOps y n hn hn32
    have heq : q' = q := by
      apply quantized_array_ext q q' 1 n 32 ((n + 1) / 2) hsh hsh'
      · intro b hb
        rw [hS' b hb, hS b hb, hbs b hb]
      · intro j hj
        rw [hD' j hj, hD j hj]
        unfold packed_byte elem_nibble
        congr 2
        · split
          · rw [hcs _ (by assumption)]
          · rfl
        · split
          · rw [hcs _ (by assumption)]
          · rfl
    rw [heq] at hq'
    refine ⟨y, hy, hq', ?_⟩
    intro out1
    obtain ⟨z, hz, hzv⟩ := dequantize_q4_total exactOps x n hn32 q hsh hS hD out1
    refine ⟨z, hz, ?_⟩
    intro e he
    rw [hzv e, if_pos he, hye e he]

theorem C27_quantize_idempotent_witness :
    ∃ y, dequantize exactOps (some ⟨1, 2, 1, 32, [(3 / 7 : ℚ)], [0x74]⟩) (some fun _ => 0)
        = some (0, some y) ∧
      quantize exactOps (some y) 2 1 none = some (0, some ⟨1, 2, 1, 32, [(3 / 7 : ℚ)], [0x74]⟩) ∧
      ∀ out1, ∃ z, dequantize exactOps (some ⟨1, 2, 1, 32, [(3 / 7 : ℚ)], [0x74]⟩) (some out1)
          = some (0, some z) ∧
        ∀ e, e < 2 → z e = y e :=
  C27_quantize_idempotent (fun i => if i = 0 then (3 : ℚ) else 3 / 2) 2 1 (by decide)
    ⟨1, 2, 1, 32, [(3 / 7 : ℚ)], [0x74]⟩ (fun _ => 0) (by decide!)


/-! ## Binary32 rounding: relative error -/

namespace F32

end F32


/-! ## The quantization bound in binary32; C1 -/

end QPlay
